import Mathlib

/-!
# BCForth: the interpreter driver, embedded in Lean

A shallow embedding of the Forth interpreter of `include/BaseDefinitions.h`,
`include/ForthInterpreter.h` and `include/Interfaces/Interfaces.h`.

* A `Name` (`std::string`) is a list of characters; a character is read as a byte through
  its code `Char.toNat`.
* A cell (`size_t`) is a natural number below `2 ^ 64`; `long long` is an integer.
* C++ member functions that mutate the interpreter take the `Machine` and return the new
  one.  A function that may throw returns `Except Thrown _` *together with* the state
  reached when it returned or threw, because a C++ exception does not undo the mutations
  made before it.
* The outer `Option` is `none` when the computation does not return (an invoked word that
  never returns, or the recursion budget of `ExecuteWords` is used up).
* Text written to `std::cout` or to the output stream is not part of the state.
-/

namespace BCForth

/-! ## `BaseDefinitions.h` -/

abbrev CellType := Nat
abbrev RawByte := Nat
abbrev SignedIntType := Int
abbrev Letter := Char
abbrev Name := List Letter

/-- Number of values of a cell: `CellType` is a 64-bit `size_t`. -/
def kCellModulus : Nat := 2 ^ 64

def FORTH_IS_CASE_INSENSITIVE : Bool := true

/-- The enumeration `EIntCompBase { kBin = 2, kOct = 8, kDec = 10, kHex = 16 }`. -/
inductive EIntCompBase where
  | kBin
  | kOct
  | kDec
  | kHex
deriving DecidableEq, Repr

/-- The integer value of an enumerator of `EIntCompBase`. -/
def EIntCompBase.toNat : EIntCompBase → Nat
  | .kBin => 2
  | .kOct => 8
  | .kDec => 10
  | .kHex => 16

def kSpace : Letter := ' '
def kTab : Letter := Char.ofNat 9
def kColon : Letter := ':'
def kSemColon : Letter := ';'
def kBackSlash : Letter := Char.ofNat 92
/-- The double quote character, `kQuote`. -/
def kQuote : Letter := Char.ofNat 34
/-- The value-initialised letter `Letter()`, i.e. the NUL character. -/
def kNulLetter : Letter := Char.ofNat 0

def kCommaQuote : Name := [',', kQuote]
def kDEBUGGER : Name := "DEBUGGER".toList
def kON : Name := "ON".toList
def kOFF : Name := "OFF".toList
def kDebugFileName : Name := "DebugFileName".toList
def kFIND : Name := "FIND".toList
/-- The one-letter name `kTick`, a single apostrophe. -/
def kTick : Name := [Char.ofNat 39]
def kTO : Name := "TO".toList
def kCHAR : Name := "CHAR".toList
def kCREATE : Name := "CREATE".toList
def kB_CREATE_B : Name := "[CREATE]".toList
def kDOES_G : Name := "DOES>".toList

/-- The function `std::toupper` in the "C" locale: only `a`..`z` change. -/
def toupper (c : Letter) : Letter := c.toUpper

/-- The size in bytes of the C++ types that `BlindValueReInterpretation` is used with. -/
def sizeof_Letter : Nat := 1

/-- The template `BlindValueReInterpretation< S >( t_val )` on the object representation of `t_val`,
read as a little-endian number: `sizeofS` and `sizeofT` are the sizes of `S` and `T` in
bytes.  When `S` is wider the bits above `T` are masked off, otherwise the low bytes of
`t_val` are re-read as an `S`. -/
def BlindValueReInterpretation (sizeofS sizeofT : Nat) (t_val : Nat) : Nat :=
  if sizeofS > sizeofT then
    t_val % 2 ^ (sizeofT * 8)
  else
    t_val % 2 ^ (sizeofS * 8)

/-- The function `Letter_2_Name( letter )`, i.e. `Name( sizeof( Letter ), letter )`. -/
def Letter_2_Name (letter : Letter) : Name :=
  List.replicate sizeof_Letter letter

/-- The member `std::string::find( substr )`: the first position at which `substr` occurs in `n`;
`none` stands for `Name::npos`. -/
def std_find : Name → Name → Option Nat
  | [], substr => if substr.isEmpty then some 0 else none
  | c :: cs, substr =>
    if substr.isPrefixOf (c :: cs) then some 0
    else (std_find cs substr).map (fun pos => pos + 1)

/-- The function `ContainsSubstrAt( n, substr )` for a `Name` argument. -/
def ContainsSubstrAt (n substr : Name) : Option Nat :=
  std_find n substr

/-- The function `ContainsSubstrAt( n, letter )`, the overload for a single `Letter`. -/
def ContainsSubstrAt_Letter (n : Name) (letter : Letter) : Option Nat :=
  ContainsSubstrAt n (Letter_2_Name letter)

/-- The function `SplitAt( n, pos )`. -/
def SplitAt (n : Name) (pos : Nat) : Name × Name :=
  (n.take pos, n.drop pos)

/-- The four-iterator `std::equal` with a binary predicate: equal lengths and all pairs
related. -/
def std_equal (p : Letter → Letter → Bool) : Name → Name → Bool
  | [], [] => true
  | x :: xs, y :: ys => p x y && std_equal p xs ys
  | _, _ => false

def CheckMatch (a b : Name) : Bool :=
  if FORTH_IS_CASE_INSENSITIVE then
    std_equal (fun x y => toupper x == toupper y) a b
  else
    std_equal (fun x y => x == y) a b

def ToUpper (n : Name) : Name :=
  n.map toupper

/-- The class `ForthError`: the message of `std::runtime_error` and the flag
`fClearStacks`, which the constructors default to `true`. -/
structure ForthError where
  what : Name
  fClearStacks : Bool := true
deriving DecidableEq, Repr

def ForthError.MustClearStacks (e : ForthError) : Bool :=
  e.fClearStacks

/-- What a C++ function of the interpreter can throw: a `ForthError`, another
`std::exception` such as the `std::out_of_range` of `std::stod`, or an object of any
other type, which only a handler `catch( ... )` receives. -/
inductive Thrown where
  | forthError (e : ForthError)
  | stdException
  | other
deriving DecidableEq, Repr

/-- The sentinel `SourceFileIndex::kSentinelVal`. -/
def kSourceFileIndexSentinel : Int := -1

structure DebugFileInfo where
  fSourceFile_LnCol : Int × Int := (0, 0)
  fSourceFile_Index : Int := kSourceFileIndexSentinel
deriving DecidableEq, Repr

structure Token where
  fName : Name := []
  fDebugFileInfo : DebugFileInfo := {}
deriving DecidableEq, Repr

abbrev TokenStream := List Token

/-! ## Regular expressions of the literals (`std::regex`, ECMAScript)

`std::regex_match` answers whether the whole string is in the language of the pattern, so
the patterns are regular expressions over `Letter` and matching is `rmatch`. -/

/-- A bracket expression `[...]` listing its characters. -/
def anyOf (cs : List Letter) : RegularExpression Letter :=
  cs.foldr (fun c r => RegularExpression.char c + r) 0

/-- The quantifier `?`. -/
def opt (r : RegularExpression Letter) : RegularExpression Letter :=
  r + 1

/-- The quantifier `+`. -/
def plus1 (r : RegularExpression Letter) : RegularExpression Letter :=
  r * r.star

/-- The class `\d`. -/
def kDigitClass : List Letter := "0123456789".toList

/-- The bracket expression `[\da-fA-F]`. -/
def kHexDigitClass : List Letter :=
  kDigitClass ++ "abcdef".toList ++ "ABCDEF".toList

/-- The optional exponent `([eE][+-]?\d+)?`. -/
def kExponent : RegularExpression Letter :=
  opt (anyOf "eE".toList * opt (anyOf "+-".toList) * plus1 (anyOf kDigitClass))

/-- The pattern `([+-]?\d+)`. -/
def kIntVal : RegularExpression Letter :=
  opt (anyOf "+-".toList) * plus1 (anyOf kDigitClass)

/-- The pattern `(0[x|X][\da-fA-F]+)`; the bracket expression `[x|X]` lists three
characters, the bar included. -/
def kHexIntVal : RegularExpression Letter :=
  RegularExpression.char '0' * anyOf "x|X".toList * plus1 (anyOf kHexDigitClass)

/-- The pattern `[+-]?(\d+[.]\d*([eE][+-]?\d+)?|[.]\d+([eE][+-]?\d+)?)`. -/
def kFloatPtVal : RegularExpression Letter :=
  opt (anyOf "+-".toList) *
    (plus1 (anyOf kDigitClass) * anyOf ".".toList * (anyOf kDigitClass).star * kExponent
      + anyOf ".".toList * plus1 (anyOf kDigitClass) * kExponent)

def regex_match (n : Name) (re : RegularExpression Letter) : Bool :=
  re.rmatch n

/-! ## The machine: stacks, words, dictionary

`Forth.h`, `Words.h` and `SystemWords.h` are not among the sources at hand; the state they
declare is modelled from the data model of the specification. -/

/-- The address of a word object (`WordPtr`, a raw pointer in the source). -/
abbrev WordPtr := Nat

/-- Modelled from the spec: the word classes of `Words.h` and `SystemWords.h` that the
interpreter inspects with `dynamic_cast`, as the tagged variant of the data model.  A
`CompoWord` holds the addresses of its children and their source locators, a
`RawByteArray` its byte container, a `DOES` node the address of its behaviour `CompoWord`;
`Leaf` stands for every other word class. -/
inductive Word where
  | CompoWord (fWordsVec : List WordPtr) (fWordsDebugInfoVec : List DebugFileInfo)
  | RawByteArray (container : List RawByte)
  | DOES (behaviorNode : WordPtr)
  | Leaf (kind : Nat)
deriving DecidableEq, Repr

/-- Modelled from the spec: the dictionary value `WordEntry` of `Forth.h`, with the fields
the interpreter reads and writes. -/
structure WordEntry where
  fWordUP : WordPtr
  fWordComment : Name := []
  fWordIsImmediate : Bool := false
  fWordIsDefining : Bool := false
  fWordIsHidden : Bool := false
  fDebugFileInfo : DebugFileInfo := {}
deriving DecidableEq, Repr

/-- Modelled from the spec: the state of a `TForthInterpreter`.  Both stacks have their
top at the head of the list.  `fHeap` holds every word object, a `WordPtr` being an index
into it; the dictionary maps canonical names to entries, the latest insertion first.
`cin` is the text still to be read from `std::cin` by the debugger prompt. -/
structure Machine where
  fDataStack : List CellType := []
  fRetStack : List CellType := []
  fWordDict : List (Name × WordEntry) := []
  fNodeRepo : List WordPtr := []
  fHeap : List Word := []
  fDebugMode_On : Bool := false
  fSourceFilesMap : List (Int × Name) := []
  cin : List Letter := []
deriving DecidableEq, Repr

/-- The result of a member function that may throw: the value or the exception, and the
machine as it is at that moment; `none` when the call does not return. -/
abbrev Step (α : Type) := Option (Except Thrown α × Machine)

/-- Modelled from the spec: `Stack::Push` of `Forth.h`. -/
def Stack_Push (s : List CellType) (v : CellType) : List CellType :=
  v :: s

/-- Modelled from the spec: `Stack::Pop` of `Forth.h`, `none` being the result `false` on
an empty stack. -/
def Stack_Pop (s : List CellType) : Option (CellType × List CellType) :=
  match s with
  | [] => none
  | v :: rest => some (v, rest)

/-- The call `GetDataStack().Push( v )`. -/
def Machine.PushData (m : Machine) (v : CellType) : Machine :=
  { m with fDataStack := Stack_Push m.fDataStack v }

/-- The conversion of a `long long` to a `CellType` argument: reduction modulo `2 ^ 64`. -/
def SignedInt_2_Cell (v : SignedIntType) : CellType :=
  (v % (kCellModulus : Int)).toNat

/-- The conversion of a `Char` with the byte value `b` to a `CellType` argument.  Whether
plain `char` is signed is implementation-defined; a signed `char` above 127 is negative
and sign-extended. -/
def Char_2_Cell (charIsSigned : Bool) (b : Nat) : CellType :=
  if charIsSigned && decide (128 ≤ b) then kCellModulus - 256 + b else b

/-- Modelled from the spec: the canonical dictionary key of a name (`Forth.h`): upper case
when the interpreter is case-insensitive. -/
def CanonicalName (n : Name) : Name :=
  if FORTH_IS_CASE_INSENSITIVE then ToUpper n else n

/-- Modelled from the spec: `TForth::GetWordEntry` of `Forth.h`, the dictionary lookup. -/
def GetWordEntry (m : Machine) (word_name : Name) : Option WordEntry :=
  m.fWordDict.lookup (CanonicalName word_name)

/-- The code that is not among the sources at hand and is called by the interpreter:
the virtual `operator()` of a word object (`Words.h`, `SystemWords.h`), the one-shot words
`Tick`, `To` and `CommaQuote` built and called by `ProcessContextSequences`, the bits of
the `double` returned by `std::stod` (`none` when it throws), and the signedness of plain
`char`. -/
structure Env where
  call : WordPtr → Machine → Step Unit
  Tick : Name → Machine → Step Unit
  To : Name → Machine → Step Unit
  CommaQuote : Name → Machine → Step Unit
  stod : Name → Option CellType
  kCharIsSigned : Bool

/-- Modelled from the spec: `TForth::ExecWord` of `Forth.h`: looks the name up, calls the
word and answers `true`; answers `false` when the name is not in the dictionary. -/
def ExecWord (env : Env) (word_name : Name) (m : Machine) : Step Bool :=
  match GetWordEntry m word_name with
  | none => some (.ok false, m)
  | some entry =>
    match env.call entry.fWordUP m with
    | none => none
    | some (.error e, m1) => some (.error e, m1)
    | some (.ok _, m1) => some (.ok true, m1)

/-! ## `std::stoll` -/

/-- The function `std::isspace` in the "C" locale. -/
def isspace (c : Letter) : Bool :=
  c.toNat == 32 || (decide (9 ≤ c.toNat) && decide (c.toNat ≤ 13))

/-- The value of a character as a digit, letters counting from ten. -/
def digitValue (c : Letter) : Option Nat :=
  let n := c.toNat
  if 48 ≤ n ∧ n ≤ 57 then some (n - 48)
  else if 97 ≤ n ∧ n ≤ 122 then some (n - 87)
  else if 65 ≤ n ∧ n ≤ 90 then some (n - 55)
  else none

/-- The value of a character as a digit of the given base, if it is one. -/
def digitInBase (base : Nat) (c : Letter) : Option Nat :=
  (digitValue c).filter (fun d => decide (d < base))

/-- The longest run of digits of the base at the front of the text. -/
def takeDigits (base : Nat) : Name → List Nat
  | [] => []
  | c :: cs =>
    match digitInBase base c with
    | some d => d :: takeDigits base cs
    | none => []

/-- The sign accepted by `strtoll`: whether it is a minus, and the text after it. -/
def takeSign (s : Name) : Bool × Name :=
  match s with
  | '-' :: t => (true, t)
  | '+' :: t => (false, t)
  | _ => (false, s)

/-- The prefix `0x` or `0X` accepted by `strtoll` in base 16, skipped only when a
hexadecimal digit follows it. -/
def skipHexMark (base : Nat) (s : Name) : Name :=
  match s with
  | '0' :: x :: h :: t =>
    if base = 16 ∧ (x = 'x' ∨ x = 'X') ∧ (digitInBase 16 h).isSome then h :: t else s
  | _ => s

/-- The call `std::stoll( str, nullptr, base )` for a base from 2 to 36: leading white space, an
optional sign, in base 16 an optional `0x`, then the longest run of digits.  `none` when
it throws: `std::invalid_argument` without a digit, `std::out_of_range` outside
`long long`. -/
def stoll (str : Name) (base : Nat) : Option SignedIntType :=
  let s0 := str.dropWhile isspace
  let sg := takeSign s0
  let ds := takeDigits base (skipHexMark base sg.2)
  if ds.isEmpty then none
  else
    let v : Int := ds.foldl (fun (acc : Int) (d : Nat) => acc * (base : Int) + (d : Int)) 0
    let r : Int := if sg.1 then -v else v
    if -(2 : Int) ^ 63 ≤ r ∧ r ≤ (2 : Int) ^ 63 - 1 then some r else none

/-! ## `ForthInterpreter.h` -/

def kBASE : Name := "BASE".toList

/-- The member `TForthInterpreter::ReadVariable`.  Each `dynamic_cast` succeeds on the variant of its
class; `GetContainer()[ 0 ]` of an empty container, undefined in C++, reads as `0`. -/
def ReadVariable (m : Machine) (variable_name : Name) : RawByte :=
  match GetWordEntry m variable_name with
  | some base_word_entry =>
    match m.fHeap[base_word_entry.fWordUP]? with
    | some (Word.CompoWord compo_vec _) =>
      match compo_vec with
      | p0 :: _ =>
        match m.fHeap[p0]? with
        | some (Word.RawByteArray container) => container.headD 0
        | _ => 0
      | [] => 0
    | _ => 0
  | none => 0

def ReadTheBase (m : Machine) : EIntCompBase :=
  if ReadVariable m kBASE = 16 then EIntCompBase.kHex else EIntCompBase.kDec

def kWrongIntegerFormat : ForthError :=
  { what := "wrong format of the integer literal".toList }

def Word_2_Integer (m : Machine) (word : Name) : Except Thrown SignedIntType :=
  match stoll word (ReadTheBase m).toNat with
  | some v => .ok v
  | none => .error (.forthError kWrongIntegerFormat)

/-- The member `TForthInterpreter::IsInteger`; the `default` label asserts and answers `false`. -/
def IsInteger (n : Name) (expected_base : EIntCompBase) : Bool :=
  match expected_base with
  | .kDec => regex_match n kIntVal
  | .kHex => regex_match n kHexIntVal
  | _ => false

def IsFloatingPt (n : Name) : Bool :=
  regex_match n kFloatPtVal

def Erase_n_First_Words (ns : TokenStream) (to_remove : Nat) : TokenStream :=
  ns.drop to_remove

/-- The member `ExtractTextFromTokenUpToSubstr`: `n.substr( 0, pos )`, the asserted precondition
being that `letter` stands at `pos`. -/
def ExtractTextFromTokenUpToSubstr (n : Name) (pos : Nat) (_letter : Letter) : Name :=
  n.take pos

/-- The `while` loop of `CollectTextUpToTokenContaining`, one iteration per unit of
`fuel`, on the stream `ns`, the collected text `str` and the flag `internal_mode`.  The
result is the returned pair and the stream left; `none` when the iterations are used up
before the loop ends. -/
def CollectLoop (enter_letter close_letter : Letter) :
    Nat → TokenStream → Name → Bool → Option ((Bool × Name) × TokenStream)
  | _, [], _, _ => some ((false, []), [])
  | 0, _ :: _, _, _ => none
  | fuel + 1, tok :: rest, str, internal_mode =>
    let token := tok.fName
    match ContainsSubstrAt_Letter token enter_letter with
    | some _ =>
      match ContainsSubstrAt_Letter token close_letter with
      | none => CollectLoop enter_letter close_letter fuel rest (str ++ (token ++ [kSpace])) true
      | some pos =>
        let s := SplitAt token (pos + 1)
        CollectLoop enter_letter close_letter fuel ({ fName := s.2 } :: rest) (str ++ s.1)
          internal_mode
    | none =>
      match ContainsSubstrAt_Letter token close_letter with
      | some pos =>
        if internal_mode then
          CollectLoop enter_letter close_letter fuel rest (str ++ (token ++ [kSpace])) false
        else
          some ((true, str ++ ExtractTextFromTokenUpToSubstr token pos close_letter), rest)
      | none =>
        CollectLoop enter_letter close_letter fuel rest (str ++ (token ++ [kSpace]))
          internal_mode

/-- The number of iterations that always suffices for `CollectLoop`: every iteration
removes a token or replaces the first token by a shorter one. -/
def CollectBudget (ns : TokenStream) : Nat :=
  (ns.map (fun tok => tok.fName.length + 1)).sum

def CollectTextUpToTokenContaining (ns : TokenStream) (enter_letter close_letter : Letter) :
    Option ((Bool × Name) × TokenStream) :=
  CollectLoop enter_letter close_letter (CollectBudget ns) ns [] false

/-- The body of a `throw ForthError( what )` statement with the default flag. -/
def throwForth (what : String) : Except Thrown α :=
  .error (.forthError { what := what.toList })

/-! ### The debugger (`DEBUG_ON` is `1`) -/

def Machine.IsDebug (m : Machine) : Bool :=
  m.fDebugMode_On

def Machine.SetDebugMode (m : Machine) (v : Bool) : Machine :=
  { m with fDebugMode_On := v }

/-- The member `GetDebugFileName`: runs the word `DebugFileName` and pops the two cells it left.  The
name it returns is read from raw memory and only names the file the debugger writes, so
only the effect on the machine is kept. -/
def GetDebugFileName (env : Env) (m : Machine) : Step Unit :=
  match ExecWord env kDebugFileName m with
  | none => none
  | some (.error e, m1) => some (.error e, m1)
  | some (.ok false, m1) => some (.ok (), m1)
  | some (.ok true, m1) =>
    match Stack_Pop m1.fDataStack with
    | none => some (.ok (), m1)
    | some (_, s1) =>
      match Stack_Pop s1 with
      | none => some (.ok (), { m1 with fDataStack := s1 })
      | some (_, s2) => some (.ok (), { m1 with fDataStack := s2 })

/-- The expression `fSourceFilesMap[ fIdx ].string()` of `CallDebugWord`: the path stored
for the index and the map afterwards, `std::map::operator[]` inserting an empty path for
an index that has none. -/
def SourceFilesMap_at (m : Machine) (fIdx : Int) : Name × Machine :=
  match m.fSourceFilesMap.lookup fIdx with
  | some path => (path, m)
  | none => ([], { m with fSourceFilesMap := m.fSourceFilesMap ++ [(fIdx, [])] })

/-- The extraction `std::cin >> c` into a `char c {}`: white space is skipped and one
character read; at the end of the input `c` keeps its value, NUL. -/
def cin_read_char (m : Machine) : Letter × Machine :=
  match m.cin.dropWhile isspace with
  | [] => (kNulLetter, { m with cin := [] })
  | c :: rest => (c, { m with cin := rest })

/-- The member `TForthInterpreter::CallDebugWord`, the `DEBUG_ON` version.  The prompt and the stack
dumps are output only. -/
def CallDebugWord (env : Env) (_word_name : Name) (debug_file_info : DebugFileInfo)
    (m : Machine) : Step Unit :=
  if !m.IsDebug then some (.ok (), m)
  else
    let fIdx := debug_file_info.fSourceFile_Index
    let named : Name × Machine :=
      if fIdx ≠ kSourceFileIndexSentinel then SourceFilesMap_at m fIdx else ([], m)
    let opened : Step Unit :=
      if named.1.length > 0 then GetDebugFileName env named.2 else some (.ok (), named.2)
    match opened with
    | none => none
    | some (.error e, m1) => some (.error e, m1)
    | some (.ok _, m1) =>
      let answer := cin_read_char m1
      let c := answer.1
      let m2 := answer.2
      if c = 's' ∨ c = 'S' then some (.ok (), m2)
      else if c = 'd' ∨ c = 'D' then some (.ok (), m2)
      else if c = 'x' ∨ c = 'X' then some (.ok (), m2.SetDebugMode false)
      else if c = 'a' ∨ c = 'A' then some (throwForth "DEBUGGING aborted by a user", m2)
      else some (.ok (), m2)

/-! ### Context sequences -/

/-- The result of a member function working on the token stream `ns` as well: the value or
the exception, the stream and the machine as they are at that moment. -/
abbrev StreamStep (α : Type) := Option (Except Thrown α × TokenStream × Machine)

/-- The element `ns[ i ].fName` of a stream long enough. -/
def NameAt (ns : TokenStream) (i : Nat) : Name :=
  (ns.getD i {}).fName

/-- The message of the error thrown when the text opened by `,"` is not closed. -/
def kNoClosingQuote : Name :=
  "no closing ".toList ++ [kQuote] ++ " found for the opening ,".toList ++ [kQuote]

/-- The member `TForthInterpreter::ProcessContextSequences`.  `FIND` only prints. -/
def ProcessContextSequences (env : Env) (ns : TokenStream) (m : Machine) : StreamStep Unit :=
  let kNumNames := ns.length
  if kNumNames = 0 then some (.ok (), ns, m)
  else
    let leadName := NameAt ns 0
    if CheckMatch leadName kFIND then
      if kNumNames ≤ 1 then some (throwForth "Syntax missing word name", ns, m)
      else some (.ok (), Erase_n_First_Words ns 2, m)
    else if CheckMatch leadName kTick then
      if kNumNames ≤ 1 then some (throwForth "Syntax missing variable name", ns, m)
      else
        match env.Tick (NameAt ns 1) m with
        | none => none
        | some (.error e, m1) => some (.error e, ns, m1)
        | some (.ok _, m1) => some (.ok (), Erase_n_First_Words ns 2, m1)
    else if CheckMatch leadName kTO then
      if kNumNames ≤ 1 then some (throwForth "Syntax missing variable name", ns, m)
      else
        match env.To (NameAt ns 1) m with
        | none => none
        | some (.error e, m1) => some (.error e, ns, m1)
        | some (.ok _, m1) => some (.ok (), Erase_n_First_Words ns 2, m1)
    else if CheckMatch leadName kCHAR then
      if kNumNames ≤ 1 then some (throwForth "Syntax CHAR should be followed by a text", ns, m)
      else
        let c : Letter := (NameAt ns 1).headD kNulLetter
        let v := BlindValueReInterpretation sizeof_Letter sizeof_Letter c.toNat
        let m1 := m.PushData (Char_2_Cell env.kCharIsSigned v)
        some (.ok (), Erase_n_First_Words ns 2, m1)
    else if CheckMatch leadName kCommaQuote then
      let ns1 := Erase_n_First_Words ns 1
      match CollectTextUpToTokenContaining ns1 kNulLetter kQuote with
      | none => none
      | some ((flag, str), ns2) =>
        if flag then
          match env.CommaQuote str m with
          | none => none
          | some (.error e, m1) => some (.error e, ns2, m1)
          | some (.ok _, m1) => some (.ok (), ns2, m1)
        else some (.error (.forthError { what := kNoClosingQuote }), ns2, m)
    else if CheckMatch leadName kCREATE then
      match ns with
      | lead :: rest => some (.ok (), { lead with fName := kB_CREATE_B } :: rest, m)
      | [] => some (.ok (), ns, m)
    else some (.ok (), ns, m)

/-! ### Defining words -/

/-- Modelled from the spec: `IsEmpty` of a behaviour node (`Words.h`): the `CompoWord` at
the address has no child word. -/
def IsEmpty (m : Machine) (node : WordPtr) : Bool :=
  match m.fHeap[node]? with
  | some (Word.CompoWord fWordsVec _) => fWordsVec.isEmpty
  | _ => true

/-- Modelled from the spec: `TForth::InsertWord_2_Dict` of `Forth.h` for a freshly made
`CompoWord` with the body `body`: the word object gets a new address, and its entry is
put in the dictionary under the canonical name, shadowing an earlier entry of that
name. -/
def InsertWord_2_Dict (m : Machine) (name : Name) (body : List WordPtr) (comment : Name)
    (immediate defining hidden : Bool) (debug_file_info : DebugFileInfo) : Machine :=
  let entry : WordEntry :=
    { fWordUP := m.fHeap.length, fWordComment := comment, fWordIsImmediate := immediate,
      fWordIsDefining := defining, fWordIsHidden := hidden, fDebugFileInfo := debug_file_info }
  { m with
    fHeap := m.fHeap ++ [Word.CompoWord body []],
    fWordDict := (CanonicalName name, entry) :: m.fWordDict }

/-- The part of `ProcessDefiningWord` after the name check, for the `DOES` node at `does_wrd`
whose behaviour node is `behaviorNode`. -/
def DefineFromDoes (env : Env) (word_name : Name) (ns : TokenStream) (m : Machine)
    (does_wrd behaviorNode : WordPtr) : Step Bool :=
  match env.call does_wrd m with
  | none => none
  | some (.error e, m1) => some (.error e, m1)
  | some (.ok _, m1) =>
    if m1.fNodeRepo.length = 0 then
      some (throwForth "missing CREATE action in the defining word", m1)
    else
      let array_wp := m1.fNodeRepo.getD (m1.fNodeRepo.length - 1) 0
      match m1.fHeap[array_wp]? with
      | some (Word.RawByteArray _) =>
        let definedWord : List WordPtr :=
          [array_wp] ++ (if !IsEmpty m1 behaviorNode then [behaviorNode] else [])
        some (.ok true,
          InsertWord_2_Dict m1 (NameAt ns 1) definedWord (kDOES_G ++ word_name)
            false false false (ns.getD 1 {}).fDebugFileInfo)
      | _ => some (throwForth "missing CREATE action in the defining word", m1)

/-- The member `TForthInterpreter::ProcessDefiningWord`.  Each `dynamic_cast` succeeds on the variant
of its class; `assert( false )` is compiled out, the function then answering `false`. -/
def ProcessDefiningWord (env : Env) (word_name : Name) (ns : TokenStream) (m : Machine) :
    Step Bool :=
  match GetWordEntry m word_name with
  | some word_entry =>
    if word_entry.fWordIsDefining then
      match m.fHeap[word_entry.fWordUP]? with
      | some (Word.CompoWord [does_wrd] _) =>
        match m.fHeap[does_wrd]? with
        | some (Word.DOES behaviorNode) =>
          if ns.length ≤ 1 then
            some (throwForth "Syntax missing variable name for the defining word", m)
          else DefineFromDoes env word_name ns m does_wrd behaviorNode
        | _ => some (.ok false, m)
      | _ => some (.ok false, m)
    else some (.ok false, m)
  | none => some (.ok false, m)

/-! ### The interpreter -/

/-- The error thrown for a token that is no literal and no word of the dictionary:
`ForthError( "unknown word - " + word, false )`. -/
def kUnknownWord (word : Name) : ForthError :=
  { what := "unknown word - ".toList ++ word, fClearStacks := false }

/-- The member `TForthInterpreter::ExecuteWords`, `DEBUG_ON` being `1`.  Every recursive call of the
source takes one unit of `fuel`; the stream of the result is `ns` as the function left
it. -/
def ExecuteWords (env : Env) : Nat → TokenStream → Machine → StreamStep Unit
  | 0, _, _ => none
  | fuel + 1, ns, m =>
    if ns.length = 0 then some (.ok (), ns, m)
    else if CheckMatch (NameAt ns 0) kDEBUGGER then
      if ns.length ≤ 1 then
        some (throwForth "Missing 'ON' or 'OFF' in DEBUGGER command", ns, m)
      else if CheckMatch (NameAt ns 1) kON then
        some (.ok (), Erase_n_First_Words ns 2, m.SetDebugMode true)
      else if CheckMatch (NameAt ns 1) kOFF then
        some (.ok (), Erase_n_First_Words ns 2, m.SetDebugMode false)
      else some (throwForth "Missing 'ON' or 'OFF' in DEBUGGER command", ns, m)
    else
      match CallDebugWord env (NameAt ns 0) (ns.getD 0 {}).fDebugFileInfo m with
      | none => none
      | some (.error e, m1) => some (.error e, ns, m1)
      | some (.ok _, m1) =>
        match ProcessContextSequences env ns m1 with
        | none => none
        | some (.error e, ns2, m2) => some (.error e, ns2, m2)
        | some (.ok _, ns2, m2) =>
          if ns2.length = 0 then some (.ok (), ns2, m2)
          else
            let word := NameAt ns2 0
            if IsInteger word (ReadTheBase m2) then
              match Word_2_Integer m2 word with
              | .error e => some (.error e, ns2, m2)
              | .ok v =>
                ExecuteWords env fuel (Erase_n_First_Words ns2 1)
                  (m2.PushData (SignedInt_2_Cell v))
            else if IsFloatingPt word then
              match env.stod word with
              | none => some (.error .stdException, ns2, m2)
              | some bits =>
                ExecuteWords env fuel (Erase_n_First_Words ns2 1)
                  (m2.PushData (BlindValueReInterpretation 8 8 bits))
            else
              match ProcessDefiningWord env word ns2 m2 with
              | none => none
              | some (.error e, m3) => some (.error e, ns2, m3)
              | some (.ok true, m3) => ExecuteWords env fuel (Erase_n_First_Words ns2 2) m3
              | some (.ok false, m3) =>
                match ExecWord env word m3 with
                | none => none
                | some (.error e, m4) => some (.error e, ns2, m4)
                | some (.ok true, m4) => ExecuteWords env fuel (Erase_n_First_Words ns2 1) m4
                | some (.ok false, m4) =>
                  some (.error (.forthError (kUnknownWord word)), ns2, m4)

/-- The member `TForthInterpreter::CleanUpAfterRunTimeError`. -/
def CleanUpAfterRunTimeError (m : Machine) (must_clear_stacks : Bool) : Machine :=
  if must_clear_stacks then { m with fDataStack := [], fRetStack := [] } else m

/-! ## `Interfaces.h` -/

/-- The handler `catch( const ForthError & err )` of `Run`: the machine after
`F_compiler.CleanUpAfterRunTimeError( false )`; the message goes to `std::cerr`. -/
def Run_catch_ForthError (_err : ForthError) (m : Machine) : Machine :=
  CleanUpAfterRunTimeError m false


/-! ## Claim vocabulary -/

/-- A character is one of the ten decimal digits. -/
def IsDecDigit (c : Letter) : Prop :=
  48 ≤ c.toNat ∧ c.toNat ≤ 57

/-- The number written by a list of decimal digit characters, most significant first. -/
def decimalValue (ds : Name) : Nat :=
  Nat.ofDigits 10 (ds.reverse.map (fun c => c.toNat - 48))

/-- The token `tok` is a decimal rendering of the integer `n`: an optional sign `+` or
`-` followed by one or more decimal digits (leading zeros allowed) whose value is the
magnitude of `n`. -/
def IsDecimalRendering (tok : Name) (n : Int) : Prop :=
  ∃ ds : Name, ds ≠ [] ∧ (∀ c ∈ ds, IsDecDigit c) ∧
    ((tok = ds ∧ n = decimalValue ds) ∨ (tok = '+' :: ds ∧ n = decimalValue ds) ∨
      (tok = '-' :: ds ∧ n = -(decimalValue ds : Int)))

instance (c : Letter) : Decidable (IsDecDigit c) :=
  inferInstanceAs (Decidable (48 ≤ c.toNat ∧ c.toNat ≤ 57))

/-- The names that `ExecuteWords` and `ProcessContextSequences` compare the leading token
with. -/
def kLeadingKeywords : List Name :=
  [kDEBUGGER, kFIND, kTick, kTO, kCHAR, kCommaQuote, kCREATE]

/-- The text that `CollectLoop` has appended after the tokens `pre`, none of which holds
the enter or the close letter. -/
def spaced (pre : TokenStream) : Name :=
  (pre.map (fun tok => tok.fName ++ [kSpace])).flatten

/-! ## Sample inputs -/

/-- An environment for concrete runs: every word of the absent sources returns at once and
leaves the machine as it is, `std::stod` yields the bits of `0.0`, plain `char` is signed. -/
def idleEnv : Env :=
  { call := fun _ m => some (.ok (), m),
    Tick := fun _ m => some (.ok (), m),
    To := fun _ m => some (.ok (), m),
    CommaQuote := fun _ m => some (.ok (), m),
    stod := fun _ => some 0,
    kCharIsSigned := true }

/-- A machine whose dictionary has the one variable `BASE`, a `CompoWord` over a
`RawByteArray` holding the cell `b` in little-endian bytes (`b` below 256). -/
def machineWithBase (b : RawByte) : Machine :=
  { fWordDict := [(kBASE, { fWordUP := 0 })],
    fNodeRepo := [1],
    fHeap := [Word.CompoWord [1] [], Word.RawByteArray [b, 0, 0, 0, 0, 0, 0, 0]] }

/-- The token with the given text and no source locator. -/
def tokenOf (text : String) : Token :=
  { fName := text.toList }

/-- An environment whose words all act like `CREATE`: every call reserves a fresh empty
`RawByteArray` as the last node of the repository. -/
def creatingEnv : Env :=
  { idleEnv with
    call := fun _ m =>
      some (.ok (), { m with
        fHeap := m.fHeap ++ [Word.RawByteArray []],
        fNodeRepo := m.fNodeRepo ++ [m.fHeap.length] }) }

/-- A machine whose dictionary has the one defining word `X`: a `CompoWord` over a single
`DOES` node whose behaviour `CompoWord` has the children `behaviour`. -/
def definingMachine (behaviour : List WordPtr) : Machine :=
  { fWordDict := [("X".toList, { fWordUP := 0, fWordIsDefining := true })],
    fHeap := [Word.CompoWord [1] [], Word.DOES 2, Word.CompoWord behaviour []] }
/-! ## `CompoWord::operator()` (`ForthInterpreter.h`)

The functions of this section return, next to the outcome, the children whose
`operator()` was entered, in the order of the calls. -/

/-- The member `GetWordEntryAndNameFromWordAddress`: the first dictionary entry whose word
object is at `p`, with its name; no entry and the empty name when there is none. -/
def GetWordEntryAndNameFromWordAddress (m : Machine) (p : WordPtr) : Option WordEntry × Name :=
  match m.fWordDict.find? (fun kv => kv.2.fWordUP == p) with
  | some kv => (some kv.2, kv.1)
  | none => (none, [])

/-- The member `GetNameFromWordAddress`. -/
def GetNameFromWordAddress (m : Machine) (p : WordPtr) : Name :=
  match m.fWordDict.find? (fun kv => kv.2.fWordUP == p) with
  | some kv => kv.1
  | none => []

/-- The plain loop `for( const auto op : fWordsVec ) ( * op )();`. -/
def CompoWord_plainLoop (env : Env) : List WordPtr → Machine → List WordPtr × Step Unit
  | [], m => ([], some (.ok (), m))
  | op :: ops, m =>
    match env.call op m with
    | none => ([op], none)
    | some (.error e, m1) => ([op], some (.error e, m1))
    | some (.ok _, m1) =>
      let r := CompoWord_plainLoop env ops m1
      (op :: r.1, r.2)

/-- The loop of the debug-tracing path, on the children and the locators not yet visited:
each child is called and then announced to `CallDebugWord` with its locator. -/
def CompoWord_debugLoop (env : Env) :
    List WordPtr → List DebugFileInfo → Machine → List WordPtr × Step Unit
  | [], _, m => ([], some (.ok (), m))
  | op :: ops, infos, m =>
    match env.call op m with
    | none => ([op], none)
    | some (.error e, m1) => ([op], some (.error e, m1))
    | some (.ok _, m1) =>
      match CallDebugWord env (GetNameFromWordAddress m1 op) (infos.headD {}) m1 with
      | none => ([op], none)
      | some (.error e, m2) => ([op], some (.error e, m2))
      | some (.ok _, m2) =>
        let r := CompoWord_debugLoop env ops infos.tail m2
        (op :: r.1, r.2)

/-- The first statement of the debug-tracing path: the composite itself is announced to
`CallDebugWord` when the dictionary has an entry whose word object is at `self`. -/
def CompoWord_announce (env : Env) (self : WordPtr) (m : Machine) : Step Unit :=
  let found := GetWordEntryAndNameFromWordAddress m self
  match found.1 with
  | some word_entry => CallDebugWord env found.2 word_entry.fDebugFileInfo m
  | none => some (.ok (), m)

/-- The member `CompoWord::operator()`, `DEBUG_ON` being `1`, of the `CompoWord` at the
address `self` with the children `fWordsVec` and the locators `fWordsDebugInfoVec`. -/
def CompoWord_call (env : Env) (self : WordPtr) (fWordsVec : List WordPtr)
    (fWordsDebugInfoVec : List DebugFileInfo) (m : Machine) : List WordPtr × Step Unit :=
  if m.IsDebug && fWordsDebugInfoVec.length == fWordsVec.length then
    match CompoWord_announce env self m with
    | none => ([], none)
    | some (.error e, m1) => ([], some (.error e, m1))
    | some (.ok _, m1) => CompoWord_debugLoop env fWordsVec fWordsDebugInfoVec m1
  else CompoWord_plainLoop env fWordsVec m

/-- One effect after another: the second runs on the machine the first returned, and not
at all when the first raised or did not return. -/
def andThen (f g : Machine → Step Unit) : Machine → Step Unit :=
  fun m =>
    match f m with
    | some (.ok _, m1) => g m1
    | some (.error e, m1) => some (.error e, m1)
    | none => none

/-- The sequential composition of a list of effects, first to last. -/
def seqCompose (effects : List (Machine → Step Unit)) : Machine → Step Unit :=
  effects.foldr andThen (fun m => some (.ok (), m))

/-- An environment that records the calls: calling the word at `op` pushes `op` on the
data stack. -/
def recordingEnv : Env :=
  { idleEnv with call := fun op m => some (.ok (), m.PushData op) }
/-! ## `FiberRoutines.h`: the generator word `CO_RANGE`

The state of a `CoRange` object, its generator, is passed to `operator()` and returned
by it.  A coroutine is its frame: the locals and the point where it is suspended. -/

/-- The conversion of a `CellType` to a `SignedIntType` argument: the two's complement
reading of the 64 bits. -/
def Cell_2_SignedInt (c : CellType) : SignedIntType :=
  if c % kCellModulus < 2 ^ 63 then ((c % kCellModulus : Nat) : Int)
  else ((c % kCellModulus : Nat) : Int) - (kCellModulus : Int)

/-- An integer fits a `long long`. -/
def InSignedRange (x : Int) : Prop :=
  -(2 : Int) ^ 63 ≤ x ∧ x ≤ (2 : Int) ^ 63 - 1

instance (x : Int) : Decidable (InSignedRange x) :=
  inferInstanceAs (Decidable (-(2 : Int) ^ 63 ≤ x ∧ x ≤ (2 : Int) ^ 63 - 1))

/-- The result of a `long long` operation whose exact value is `x`: the value itself when
it fits; an overflow, undefined in C++, wraps around as the hardware does. -/
def wrapSigned (x : Int) : SignedIntType :=
  (x + (2 : Int) ^ 63) % (2 : Int) ^ 64 - (2 : Int) ^ 63

/-- The point at which the coroutine `CreateCoRange` is suspended: at `initial_suspend`
(the body not entered yet), at the `co_yield` of the ascending or of the descending loop,
or at `final_suspend`, where `done()` holds. -/
inductive CoRangePoint where
  | initial
  | yieldUp
  | yieldDown
  | final
deriving DecidableEq, Repr

/-- The member `value` of `generator::promise_type`, a
`std::variant< T const *, std::exception_ptr >`: index 0 is a pointer, null or the
address of the local `first` of the coroutine; index 1 is the exception caught by
`unhandled_exception`. -/
inductive PromiseValue where
  | pointer (toFirst : Bool)
  | exception (e : ForthError)
deriving DecidableEq, Repr

/-- The frame of a coroutine `CreateCoRange( first, last, step )` with its promise. -/
structure CoRangeFrame where
  first : SignedIntType
  last : SignedIntType
  step : SignedIntType
  point : CoRangePoint
  value : PromiseValue
deriving DecidableEq, Repr

/-- The error thrown by `CreateCoRange` for a triple that does not progress. -/
def kWrongIterationParameters : ForthError :=
  { what := "Wrong iteration parameters when creating CoRange".toList }

/-- The call `CreateCoRange( first, last, step )`: the coroutine is created suspended at
`initial_suspend` (`std::suspend_always`), nothing of its body has run. -/
def CreateCoRange (first last step : SignedIntType) : CoRangeFrame :=
  { first := first, last := last, step := step, point := .initial, value := .pointer false }

/-- The test of `for( ; first < last; first += step ) co_yield first;`: the coroutine
suspends at the `co_yield` with the promise pointing to `first`, or the loop is over and
the coroutine runs to `final_suspend`. -/
def CoRange_loopUp (f : CoRangeFrame) : CoRangeFrame :=
  if f.first < f.last then { f with point := .yieldUp, value := .pointer true }
  else { f with point := .final }

/-- The test of `for( ; first > last; first += step ) co_yield first;`. -/
def CoRange_loopDown (f : CoRangeFrame) : CoRangeFrame :=
  if f.first > f.last then { f with point := .yieldDown, value := .pointer true }
  else { f with point := .final }

/-- The call `fHandle.resume()` on a coroutine `CreateCoRange` that is not done: the body
runs from the point of suspension to the next one.  An exception leaving the body is
stored by `unhandled_exception` and the coroutine is done. -/
def CoRange_resume (f : CoRangeFrame) : CoRangeFrame :=
  match f.point with
  | .initial =>
    if f.first < f.last ∧ f.step > 0 then CoRange_loopUp f
    else if f.first > f.last ∧ f.step < 0 then CoRange_loopDown f
    else { f with point := .final, value := .exception kWrongIterationParameters }
  | .yieldUp => CoRange_loopUp { f with first := wrapSigned (f.first + f.step) }
  | .yieldDown => CoRange_loopDown { f with first := wrapSigned (f.first + f.step) }
  | .final => f

/-- The result of `CoRange::operator()`: the generator of the object afterwards (`none`
for a null `fHandle`), whether the call returned or threw, and the machine. -/
abbrev CoRangeStep := Option CoRangeFrame × Except Thrown Unit × Machine

/-- The error thrown by the first call of a `CoRange` (and of a `CoRoFiber`) on a data
stack that is too short. -/
def kEmptyStackCoRange : ForthError :=
  { what := "unexpectedly empty stack when creating CoRange".toList }

/-- The member `CoRange::operator()`. -/
def CoRange_call (fCoRoutine : Option CoRangeFrame) (m : Machine) : CoRangeStep :=
  match fCoRoutine with
  | none =>
    match Stack_Pop m.fDataStack with
    | none => (none, .error (.forthError kEmptyStackCoRange), m)
    | some (step, s1) =>
      match Stack_Pop s1 with
      | none => (none, .error (.forthError kEmptyStackCoRange), { m with fDataStack := s1 })
      | some (to_, s2) =>
        match Stack_Pop s2 with
        | none => (none, .error (.forthError kEmptyStackCoRange), { m with fDataStack := s2 })
        | some (frm, s3) =>
          (some (CreateCoRange (Cell_2_SignedInt frm) (Cell_2_SignedInt to_)
              (Cell_2_SignedInt step)),
            .ok (), { m with fDataStack := s3 })
  | some f =>
    if f.point ≠ .final then
      let f1 := CoRange_resume f
      if f1.point ≠ .final then
        match f1.value with
        | .pointer _ =>
          (some f1, .ok (),
            m.PushData (BlindValueReInterpretation 8 8 (SignedInt_2_Cell f1.first)))
        | .exception _ => (some f1, .ok (), m)
      else
        match f1.value with
        | .exception e => (some f1, .error (.forthError e), m)
        | .pointer _ => (some f1, .ok (), m)
    else (some f, .ok (), m)

/-- The first `n` calls of one `CoRange` word, made one after the other on the machine
the previous call left; after a call that threw no further call is made. -/
def CoRange_calls : Nat → Option CoRangeFrame → Machine → CoRangeStep
  | 0, g, m => (g, .ok (), m)
  | n + 1, g, m =>
    match CoRange_calls n g m with
    | (g1, .ok _, m1) => CoRange_call g1 m1
    | (g1, .error e, m1) => (g1, .error e, m1)

/-- The range has not reached its end at the value `x`: `x < to_` for an ascending
range, `x > to_` for a descending one. -/
def StrictlyBefore (from_ to_ step x : Int) : Prop :=
  (from_ < to_ ∧ step > 0 ∧ x < to_) ∨ (from_ > to_ ∧ step < 0 ∧ x > to_)

instance (from_ to_ step x : Int) : Decidable (StrictlyBefore from_ to_ step x) :=
  inferInstanceAs
    (Decidable ((from_ < to_ ∧ step > 0 ∧ x < to_) ∨ (from_ > to_ ∧ step < 0 ∧ x > to_)))

/-- The frame of a generator suspended at the `co_yield` of its loop with the value `x`. -/
def CoRange_yielded (to_ step x : SignedIntType) : CoRangeFrame :=
  { first := x, last := to_, step := step,
    point := if 0 < step then .yieldUp else .yieldDown, value := .pointer true }

/-- The frame of a generator that ran to its end with `first` equal to `x`. -/
def CoRange_finished (to_ step x : SignedIntType) (b : Bool) : CoRangeFrame :=
  { first := x, last := to_, step := step, point := .final, value := .pointer b }

/-- The shape of the generator of a range after the first call and `j` resumes: new,
suspended at the value of index `j - 1` when that value is strictly before the end, and
finished otherwise. -/
def RangeShape (from_ to_ step : SignedIntType) (j : Nat) (g : CoRangeFrame) : Prop :=
  (j = 0 ∧ g = CreateCoRange from_ to_ step) ∨
    (∃ i : Nat, j = i + 1 ∧ StrictlyBefore from_ to_ step (from_ + (i : Int) * step) ∧
      g = CoRange_yielded to_ step (from_ + (i : Int) * step)) ∨
    (∃ (i : Nat) (x : Int) (b : Bool), j = i + 1 ∧
      ¬ StrictlyBefore from_ to_ step (from_ + (i : Int) * step) ∧
      g = CoRange_finished to_ step x b)
/-! ## `FiberRoutines.h`: the fiber word `CO_FIBER` and the scheduler

A coroutine handle is the address of a coroutine frame; the frames of the fibers are kept
in a list, the handle `h + 1` being the frame of index `h` and `0` the null handle.  The
clock `GetTimePoint` is an input: a function giving the reading of each call, in
milliseconds, and the number of readings taken so far.  The words run by a fiber body
act on the machine of the interpreter. -/

abbrev CoroHandle := Nat

/-- The point at which the coroutine `CreateFiberCoro` is suspended: at `initial_suspend`,
at the `co_await` in its loop, or at `final_suspend`, where `done()` holds. -/
inductive FiberPoint where
  | initial
  | awaiting
  | final
deriving DecidableEq, Repr

/-- The frame of a coroutine `CreateFiberCoro( rotations, time_slice, p )`: its
parameters, its locals `i` and `tp0` and the point of suspension.  Two fields are not in
the source and only observe it: `bodyCalls` counts the calls `( * p )()` made so far,
`statuses` lists the status cells popped so far, the latest first. -/
structure FiberFrame where
  rotations : SignedIntType
  time_slice : SignedIntType
  p : WordPtr
  i : Int := 0
  tp0 : Int := 0
  point : FiberPoint := .initial
  bodyCalls : Nat := 0
  statuses : List CellType := []
deriving DecidableEq, Repr

/-- The result of an `int` operation whose exact value is `x`; an overflow, undefined in
C++, wraps around. -/
def wrapInt32 (x : Int) : Int :=
  (x + (2 : Int) ^ 31) % (2 : Int) ^ 32 - (2 : Int) ^ 31

/-- The error thrown by a fiber whose body left no status cell. -/
def kEmptyStackFiber : ForthError :=
  { what :=
      "unexpectedly empty stack - the coroutine word should leave a status value 1/0 on the stack".toList }

/-- What one `resume()` of a fiber yields: whether it returned or threw, the frame, the
machine and the number of clock readings afterwards; `none` when it does not return. -/
abbrev FiberStep := Option (Except Thrown Unit × FiberFrame × Machine × Nat)

/-- The `for` loop of `CreateFiberCoro` from its test `pre_cond || i < rotations`, one
iteration per unit of `fuel`, with the clock readings `clock` of which `reads` are taken.
An exception leaving the body is rethrown by `unhandled_exception`, which leaves the
coroutine at its final suspend point. -/
def Fiber_loop (env : Env) (clock : Nat → Int) :
    Nat → FiberFrame → Machine → Nat → FiberStep
  | 0, _, _, _ => none
  | fuel + 1, f, m, reads =>
    let pre_cond : Bool := f.rotations == -1
    if pre_cond = true ∨ f.i < f.rotations then
      match env.call f.p m with
      | none => none
      | some (.error e, m1) =>
        some (.error e, { f with point := .final, bodyCalls := f.bodyCalls + 1 }, m1, reads)
      | some (.ok _, m1) =>
        match Stack_Pop m1.fDataStack with
        | none =>
          some (.error (.forthError kEmptyStackFiber),
            { f with point := .final, bodyCalls := f.bodyCalls + 1 }, m1, reads)
        | some (t, s1) =>
          let m2 : Machine := { m1 with fDataStack := s1 }
          let f1 : FiberFrame :=
            { f with bodyCalls := f.bodyCalls + 1, statuses := t :: f.statuses }
          if t = 0 then some (.ok (), { f1 with point := .final }, m2, reads)
          else if clock reads - f.tp0 > f.time_slice then
            some (.ok (), { f1 with point := .awaiting }, m2, reads + 1)
          else Fiber_loop env clock fuel { f1 with i := wrapInt32 (f.i + 1) } m2 (reads + 1)
    else some (.ok (), { f with point := .final }, m, reads)

/-- The call `resume()` on the handle of a fiber that is not done: from `initial_suspend`
the body starts (`tp0` is read, `i` is zero); from the `co_await` the body goes on with
`tp0 = GetTimePoint()` and the `++ i` of the loop. -/
def Fiber_resume (env : Env) (clock : Nat → Int) (fuel : Nat) (f : FiberFrame) (m : Machine)
    (reads : Nat) : FiberStep :=
  match f.point with
  | .initial => Fiber_loop env clock fuel { f with tp0 := clock reads, i := 0 } m (reads + 1)
  | .awaiting =>
    Fiber_loop env clock fuel { f with tp0 := clock reads, i := wrapInt32 (f.i + 1) } m
      (reads + 1)
  | .final => some (.ok (), f, m, reads)

/-- The state that the fiber words and the scheduler work on: the machine of the
interpreter, the static queue `fCoroScheduler`, the frames of the fiber coroutines and
the number of clock readings taken. -/
structure FiberWorld where
  machine : Machine := {}
  fCoroScheduler : List CoroHandle := []
  frames : List FiberFrame := []
  clockReads : Nat := 0
deriving DecidableEq, Repr

/-- The call `CreateFiberCoro( rotations, time_slice, p )`: the coroutine is created
suspended at `initial_suspend`. -/
def CreateFiberCoro (rotations time_slice : SignedIntType) (p : WordPtr) : FiberFrame :=
  { rotations := rotations, time_slice := time_slice, p := p }

/-- The member `CoRoFiber::operator()` of a fiber object whose handle is `fHandle` and
whose associated word is at `fAssocWord`: the handle of the object afterwards, whether the
call returned or threw, and the world. -/
def CoRoFiber_call (fHandle : CoroHandle) (fAssocWord : WordPtr) (w : FiberWorld) :
    CoroHandle × Except Thrown Unit × FiberWorld :=
  if fHandle = 0 then
    match Stack_Pop w.machine.fDataStack with
    | none => (0, .error (.forthError kEmptyStackCoRange), w)
    | some (time_slice, s1) =>
      match Stack_Pop s1 with
      | none =>
        (0, .error (.forthError kEmptyStackCoRange),
          { w with machine := { w.machine with fDataStack := s1 } })
      | some (rotations, s2) =>
        (w.frames.length + 1, .ok (),
          { w with
            machine := { w.machine with fDataStack := s2 },
            frames := w.frames ++
              [CreateFiberCoro (Cell_2_SignedInt rotations) (Cell_2_SignedInt time_slice)
                fAssocWord] })
  else
    let h := fHandle
    if h ∈ w.fCoroScheduler then (fHandle, .ok (), w)
    else (fHandle, .ok (), { w with fCoroScheduler := w.fCoroScheduler ++ [h] })

/-- The test `hdl.done()`; a handle without a frame counts as done. -/
def FiberWorld.done (w : FiberWorld) (hdl : CoroHandle) : Bool :=
  match w.frames[hdl - 1]? with
  | some f => f.point == .final
  | none => true

/-- The call `hdl.resume()` of the scheduler on a handle that is not null and not done. -/
def FiberWorld.resume (env : Env) (clock : Nat → Int) (fuel : Nat) (w : FiberWorld)
    (hdl : CoroHandle) : Option (Except Thrown Unit × FiberWorld) :=
  match w.frames[hdl - 1]? with
  | none => some (.ok (), w)
  | some f =>
    match Fiber_resume env clock fuel f w.machine w.clockReads with
    | none => none
    | some (r, f1, m1, reads1) =>
      some (r, { w with
        machine := m1, frames := w.frames.set (hdl - 1) f1, clockReads := reads1 })

/-- The loop of `ProcessCoros` from its test `i < sch.size()`, one iteration per unit of
`steps`; `fuel` bounds the iterations of a fiber body within one `resume()`.  An exception
leaving a `resume()` leaves `ProcessCoros`. -/
def ProcessCoros_loop (env : Env) (clock : Nat → Int) (fuel : Nat) :
    Nat → Nat → FiberWorld → Option (Except Thrown Unit × FiberWorld)
  | 0, i, w => if i < w.fCoroScheduler.length then none else some (.ok (), w)
  | steps + 1, i, w =>
    if i < w.fCoroScheduler.length then
      let hdl := w.fCoroScheduler.getD i 0
      if hdl ≠ 0 ∧ w.done hdl = false then
        match w.resume env clock fuel hdl with
        | none => none
        | some (.error e, w1) => some (.error e, w1)
        | some (.ok _, w1) => ProcessCoros_loop env clock fuel steps (i + 1) w1
      else
        ProcessCoros_loop env clock fuel steps (i + 1)
          { w with fCoroScheduler := w.fCoroScheduler.eraseIdx i }
    else some (.ok (), w)

/-- The function `ProcessCoros`: the loop from `i = 0`.  As many iterations as the queue
has handles always suffice, the index growing and the queue not. -/
def ProcessCoros (env : Env) (clock : Nat → Int) (fuel : Nat) (w : FiberWorld) :
    Option (Except Thrown Unit × FiberWorld) :=
  ProcessCoros_loop env clock fuel w.fCoroScheduler.length 0 w

/-- An environment whose words all leave the status 1: every call pushes the cell 1. -/
def statusOneEnv : Env :=
  { idleEnv with call := fun _ m => some (.ok (), m.PushData 1) }

/-- An operation on the ready-queue: the invocation of a `CO_FIBER` word whose object
holds the handle `fHandle` (null before its first call) and the word `fAssocWord`, or a
sweep of the scheduler with the budget `fuel` for each `resume()`. -/
inductive FiberOp where
  | invoke (fHandle : CoroHandle) (fAssocWord : WordPtr)
  | sweep (fuel : Nat)
deriving DecidableEq, Repr

/-- A sequence of operations, each on the world the previous one left, whether it returned
or threw; `none` when a sweep does not return. -/
def runFiberOps (env : Env) (clock : Nat → Int) : List FiberOp → FiberWorld → Option FiberWorld
  | [], w => some w
  | .invoke fHandle fAssocWord :: ops, w =>
    runFiberOps env clock ops (CoRoFiber_call fHandle fAssocWord w).2.2
  | .sweep fuel :: ops, w =>
    match ProcessCoros env clock fuel w with
    | none => none
    | some (_, w1) => runFiberOps env clock ops w1

/-- The resumes of one fiber by the scheduler, at most `n` of them and none once it is
done, each on the machine and the clock the previous one left. -/
def Fiber_life (env : Env) (clock : Nat → Int) (fuel : Nat) :
    Nat → FiberFrame → Machine → Nat → FiberStep
  | 0, f, m, reads => some (.ok (), f, m, reads)
  | n + 1, f, m, reads =>
    if f.point = .final then some (.ok (), f, m, reads)
    else
      match Fiber_resume env clock fuel f m reads with
      | none => none
      | some (.error e, r) => some (.error e, r)
      | some (.ok _, f1, m1, reads1) => Fiber_life env clock fuel n f1 m1 reads1

/-- The first `n` sweeps of the scheduler, each on the world the previous one left; after
a sweep that threw no further sweep is made. -/
def ProcessCoros_times (env : Env) (clock : Nat → Int) (fuel : Nat) :
    Nat → FiberWorld → Option (Except Thrown Unit × FiberWorld)
  | 0, w => some (.ok (), w)
  | n + 1, w =>
    match ProcessCoros_times env clock fuel n w with
    | some (.ok _, w1) => ProcessCoros env clock fuel w1
    | r => r
/-- A fiber frame of `r` rotations over the word `p` whose count of body calls agrees
with its suspension point: none before the first resume, `i + 1` while it awaits inside
the iteration `i < r`, and `r` once it is done. -/
def FiberOnTrack (r : Int) (p : WordPtr) (f : FiberFrame) : Prop :=
  f.rotations = r ∧ f.p = p ∧
    match f.point with
    | .initial => f.bodyCalls = 0
    | .awaiting => 0 ≤ f.i ∧ f.i < r ∧ (f.bodyCalls : Int) = f.i + 1
    | .final => (f.bodyCalls : Int) = r

/-- A fiber frame of endless rotations over the word `p` that stops at a status 0: each
body call so far left a status cell, the fiber is done exactly when the latest status is
0, and every earlier status is not 0. -/
def FiberStops (p : WordPtr) (f : FiberFrame) : Prop :=
  f.rotations = -1 ∧ f.p = p ∧ f.bodyCalls = f.statuses.length ∧
    (f.point = .final ↔ f.statuses.head? = some 0) ∧ ∀ t ∈ f.statuses.tail, t ≠ 0

/-- An environment whose words all count the top cell of the data stack down: a top cell
`c + 1` becomes `c` under the status 1, and otherwise the status 0 is pushed. -/
def countdownEnv : Env :=
  { idleEnv with call := fun _ m =>
      match m.fDataStack with
      | (c + 1) :: s => some (.ok (), { m with fDataStack := 1 :: c :: s })
      | s => some (.ok (), { m with fDataStack := 0 :: s }) }

/-! ## `BaseDefinitions.h`: re-interpretation and the byte encoding of a cell -/

/-- The constant `CellTypeSize`, `sizeof( CellType )`. -/
def CellTypeSize : Nat := 8

/-- The size in bytes of `std::byte`. -/
def sizeof_byte : Nat := 1

/-- The loop of `PushValTo` with `count` iterations left: each pushes `val & 0xFF`,
narrowed to a `RawByte`, and shifts `val` right by 8 bits. -/
def PushValTo_loop : Nat → List RawByte → Nat → List RawByte
  | 0, byte_ar, _ => byte_ar
  | count + 1, byte_ar, val =>
    PushValTo_loop count (byte_ar ++ [(val &&& 0xFF) % 256]) (val >>> 8)

/-- The template `PushValTo( byte_ar, val )` for an unsigned `V` of `sizeofV` bytes. -/
def PushValTo (sizeofV : Nat) (byte_ar : List RawByte) (val : Nat) : List RawByte :=
  PushValTo_loop sizeofV byte_ar val
/-! ## `Tokenizer.h`: the reader `TForthReader_4_Debugging` (`DEBUG_ON` is `1`)

An input stream is the text still to be read.  The counters of the reader are exact
integers; a source position is narrowed to `short` when a `LnCol` is built from it.  The
`assert`s of the reader are taken as compiled out: the reader goes on where one of them
would stop the program. -/

def kNewLine : Letter := Char.ofNat 10

/-- The call `std::getline( i, ln )`: it fails, `none`, when no character is left;
otherwise the line is the text before the first newline, which is consumed with it. -/
def getline (i : List Letter) : Option (Name × List Letter) :=
  match i with
  | [] => none
  | _ :: _ =>
    some (i.takeWhile (fun c => c != kNewLine), (i.dropWhile (fun c => c != kNewLine)).drop 1)

/-- The conversion of an `int` to `short`: reduction to the range of 16 bits. -/
def wrapInt16 (x : Int) : Int :=
  (x + (2 : Int) ^ 15) % (2 : Int) ^ 16 - (2 : Int) ^ 15

/-- The member `IsSeparateSymbol( str, p )`: the neighbours of position `p`, a line
boundary counting as a space, are both a space or a tab. -/
def IsSeparateSymbol (str : Name) (p : Nat) : Bool :=
  let left : Letter := if p > 0 then str.getD (p - 1) kSpace else kSpace
  let right : Letter := if p + 1 < str.length then str.getD (p + 1) kSpace else kSpace
  (left == kSpace || left == kTab) && (right == kSpace || right == kTab)

/-- The member `StripEndingComment( ln )`: the line cut before its first backslash. -/
def StripEndingComment (ln : Name) : Name :=
  match std_find ln [kBackSlash] with
  | some pos => ln.take pos
  | none => ln

/-- The locals of `TForthReader_4_Debugging::operator()` and the member
`fTotalCharCounter`. -/
structure ReaderState where
  outTokenStream : TokenStream := []
  tokName : Name := []
  enterDefinition : Bool := false
  skipCommentLine : Bool := false
  fTotalCharCounter : Int := 0
deriving DecidableEq, Repr

/-- The token `Token { name, { { start, size }, fSourceFileIndex } }`. -/
def mkToken (name : Name) (start size : Int) (fSourceFileIndex : Int) : Token :=
  { fName := name,
    fDebugFileInfo :=
      { fSourceFile_LnCol := (wrapInt16 start, wrapInt16 size),
        fSourceFile_Index := fSourceFileIndex } }

/-- The branch of the `switch` taken for a colon or a semicolon that `IsSeparateSymbol`
accepts: a pending name is emitted, then the symbol as a token of its own, and
`enterDefinition` is set to `enter`.  The size in the locator of the pending name is read
after `std::move( tokName )`, from a moved-from and so empty string. -/
def ReadSeparateSymbol (fSourceFileIndex : Int) (symbol : Letter) (enter : Bool)
    (st : ReaderState) : ReaderState :=
  let st1 : ReaderState :=
    if st.tokName ≠ [] then
      { st with
        outTokenStream := st.outTokenStream ++
          [mkToken st.tokName (st.fTotalCharCounter - 0) 0 fSourceFileIndex],
        tokName := [] }
    else st
  { st1 with
    outTokenStream := st1.outTokenStream ++
      [mkToken (Letter_2_Name symbol) st1.fTotalCharCounter 1 fSourceFileIndex],
    enterDefinition := enter }

/-- The body of the `switch` of `operator()` for the character at column `colCnt` of the
line `ln`.  After `std::move( tokName )` at the end of a line the name is not read
again; it is left empty here. -/
def ReadChar (fSourceFileIndex : Int) (ln : Name) (colCnt : Nat) (st : ReaderState) :
    ReaderState :=
  let c : Letter := ln.getD colCnt kSpace
  if c = kSpace ∨ c = kTab then
    let tokSize : Int := st.tokName.length
    if tokSize > 0 then
      { st with
        outTokenStream := st.outTokenStream ++
          [mkToken st.tokName (st.fTotalCharCounter - tokSize) tokSize fSourceFileIndex],
        tokName := [] }
    else st
  else if c = kBackSlash then
    { st with
      fTotalCharCounter := st.fTotalCharCounter + (ln.length : Int) - (colCnt : Int) - 1,
      skipCommentLine := true }
  else if c = kColon then
    if IsSeparateSymbol ln colCnt then ReadSeparateSymbol fSourceFileIndex kColon true st
    else { st with tokName := st.tokName ++ [c] }
  else if c = kSemColon then
    if IsSeparateSymbol ln colCnt then ReadSeparateSymbol fSourceFileIndex kSemColon false st
    else { st with tokName := st.tokName ++ [c] }
  else
    let tokName : Name := st.tokName ++ [c]
    if colCnt + 1 = ln.length then
      let tokSize : Int := tokName.length
      { st with
        outTokenStream := st.outTokenStream ++
          [mkToken tokName (st.fTotalCharCounter + 1 - tokSize) tokSize fSourceFileIndex],
        tokName := [] }
    else { st with tokName := tokName }

/-- The inner `for` loop of `operator()` from its test
`colCnt < ln.size() && skipCommentLine == false`, with `left` characters of the line not
yet visited. -/
def ReadLine_loop (fSourceFileIndex : Int) (ln : Name) : Nat → Nat → ReaderState → ReaderState
  | 0, _, st => st
  | left + 1, colCnt, st =>
    if colCnt < ln.length ∧ st.skipCommentLine = false then
      let st1 := ReadChar fSourceFileIndex ln colCnt st
      ReadLine_loop fSourceFileIndex ln left (colCnt + 1)
        { st1 with fTotalCharCounter := st1.fTotalCharCounter + 1 }
    else st

/-- The body of the outer `for` loop of `operator()` for the line `ln`: the fresh locals
`tokName` and `skipCommentLine`, the inner loop and the count of the hidden newline. -/
def ReadLine (fSourceFileIndex : Int) (ln : Name) (st : ReaderState) : ReaderState :=
  let st1 := ReadLine_loop fSourceFileIndex ln ln.length 0
    { st with tokName := [], skipCommentLine := false }
  { st1 with fTotalCharCounter := st1.fTotalCharCounter + 2 }

/-- The outer `for` loop of `operator()` from its test: a line is read when this is the
first line and no definition is open, or when a definition is open.  The last component
of the result tells whether a `std::getline` failed, which leaves the stream in the
failed state.  At most `budget` lines are read. -/
def Reader_loop (fSourceFileIndex : Int) :
    Nat → Nat → List Letter → ReaderState → ReaderState × List Letter × Bool
  | 0, _, i, st => (st, i, false)
  | budget + 1, lineCnt, i, st =>
    if (st.enterDefinition = false ∧ lineCnt = 0) ∨ st.enterDefinition = true then
      match getline i with
      | none => (st, i, true)
      | some (ln, i1) =>
        Reader_loop fSourceFileIndex budget (lineCnt + 1) i1 (ReadLine fSourceFileIndex ln st)
    else (st, i, false)

/-- The member `TForthReader_4_Debugging::operator()( i )` of a reader whose members are
`fSourceFileIndex` and `fTotalCharCounter`: the tokens returned, the counter and the
stream afterwards, and whether the stream has failed.  Every line read takes a character
from the stream, so the budget of `i.length + 1` lines is never used up. -/
def TForthReader_4_Debugging_call (fSourceFileIndex : Int) (fTotalCharCounter : Int)
    (i : List Letter) : TokenStream × Int × List Letter × Bool :=
  let r := Reader_loop fSourceFileIndex (i.length + 1) 0 i
    { fTotalCharCounter := fTotalCharCounter }
  (r.1.outTokenStream, r.1.fTotalCharCounter, r.2.1, r.2.2)

/-! ### The reader `TForthReader_Release` (the branch for `DEBUG_ON` being `0`) -/

def kBlanks : Name := [kSpace, kTab, kNewLine]

def kCR : Name := [kNewLine]

/-- The member `std::string::find_first_not_of( set )`: the first position whose
character is not in `set`. -/
def find_first_not_of (n set : Name) : Option Nat :=
  match n with
  | [] => none
  | c :: cs =>
    if c ∈ set then (find_first_not_of cs set).map (fun pos => pos + 1) else some 0

/-- The loop `while( ln.find( kSemColon, pos ) == Name::npos && std::getline( i, ln ) )`
of the release reader, which appends the lines of a definition to `lines`; at most
`budget` lines are read. -/
def Release_while : Nat → Nat → Name → Name → List Letter → Name × List Letter
  | 0, _, _, lines, i => (lines, i)
  | budget + 1, pos, ln, lines, i =>
    if (std_find (ln.drop pos) [kSemColon]).isNone then
      match getline i with
      | none => (lines, i)
      | some (ln1, i1) =>
        Release_while budget pos (StripEndingComment ln1)
          (lines ++ kCR ++ StripEndingComment ln1) i1
    else (lines, i)

/-- The pieces that `std::sregex_token_iterator( ..., kBlanksRe, -1 )` splits a text
into, `kBlanksRe` being one or more white-space characters: the text between the
white-space characters.  The iterator yields fewer empty pieces; the reader filters the
empty pieces out. -/
def sregex_token_split (lines : Name) : List Name :=
  lines.splitOnP isspace

/-- The member `TForthReader_Release::operator()( i )`: the tokens returned and the stream
afterwards.  Every line read takes a character from the stream, so the budget of
`i.length + 1` lines is never used up. -/
def TForthReader_Release_call (i : List Letter) : TokenStream × List Letter :=
  let read : Name × List Letter :=
    match getline i with
    | none => ([], i)
    | some (ln0, i1) =>
      let ln := StripEndingComment ln0
      match find_first_not_of ln kBlanks with
      | some pos =>
        if ln.getD pos kSpace = kColon then Release_while (i1.length + 1) pos ln ln i1
        else (ln, i1)
      | none => (ln, i1)
  (((sregex_token_split read.1).filter (fun s => s.length > 0)).map
    (fun a => ({ fName := a } : Token)), read.2)
/-! ## `Interfaces.h`: the system words and the loop of `Run`

The compiler `TForthCompiler` (`ForthCompiler.h`) and the file system are not among the
sources at hand: the call `F_compiler( tokens )` and the opening of a file are taken from
a host.  What goes to `std::cout` and `std::cerr` is output only. -/

def kMenu_ExitWords : List Name := ["BYE".toList, "EXIT".toList]

def kMenu_FileLoadWord : Name := "LOAD".toList

def kMenu_Help : Name := "HELP".toList

/-- The code called by `Run` and `SystemProcessTokens` that is not among the sources:
`TForthCompiler::operator()` on a token batch, which acts on the machine and, through the
fiber words, on the ready-queue; and `std::ifstream fs( path )`, the text of the file or
`none` when it cannot be opened. -/
structure Host where
  F_compiler : TokenStream → FiberWorld → Option (Except Thrown Unit × FiberWorld)
  openFile : Name → Option (List Letter)

/-- The variables of `Run`: the compiler with the fiber scheduler, `exit_flag`, and the
static `id` of `SourceFileIndex::GetUniqueFileId`.  The field `prompts` is not in the
source: it counts the prompts `OK:` written so far. -/
structure ReplState where
  world : FiberWorld := {}
  exit_flag : Bool := false
  id : Int := 0
  prompts : Nat := 0
deriving DecidableEq, Repr

/-- The function `SourceFileIndex::GetUniqueFileId`: returns `id ++` of the static
`short id`. -/
def GetUniqueFileId (st : ReplState) : Int × ReplState :=
  (st.id, { st with id := wrapInt16 (st.id + 1) })

/-- The assignment `F_compiler.GetSourceFilesMap()[ index ] = path`. -/
def SourceFilesMap_set (m : Machine) (index : Int) (path : Name) : Machine :=
  if (m.fSourceFilesMap.lookup index).isSome then
    { m with fSourceFilesMap :=
        m.fSourceFilesMap.map (fun kv => if kv.1 = index then (kv.1, path) else kv) }
  else { m with fSourceFilesMap := m.fSourceFilesMap ++ [(index, path)] }

/-- The extraction `std::cin >> forth_source` into a `std::string`: white space is
skipped and the characters up to the next white space are read; it fails, `none`, when no
character is left to read. -/
def cin_read_word (cin : List Letter) : Option (Name × List Letter) :=
  match cin.dropWhile isspace with
  | [] => none
  | c :: rest =>
    some ((c :: rest).takeWhile (fun x => !isspace x), (c :: rest).dropWhile (fun x => !isspace x))

/-- The loop `for( TForthReader_4_Debugging fileReader( file_index ); fs;
F_compiler( fileReader( fs ) ) )` of the `LOAD` branch from its test `fs`: `good` tells
that the stream has not failed, `fTotalCharCounter` is the counter of `fileReader`. -/
def LoadFile_loop (host : Host) (file_index : Int) :
    Nat → List Letter → Bool → Int → FiberWorld → Option (Except Thrown Unit × FiberWorld)
  | 0, _, _, _, _ => none
  | fuel + 1, fs, good, fTotalCharCounter, w =>
    if good then
      let r := TForthReader_4_Debugging_call file_index fTotalCharCounter fs
      match host.F_compiler r.1 w with
      | none => none
      | some (.error e, w1) => some (.error e, w1)
      | some (.ok _, w1) => LoadFile_loop host file_index fuel r.2.2.1 (!r.2.2.2) r.2.1 w1
    else some (.ok (), w)

/-- The branch of `SystemProcessTokens` taken for the word `LOAD`, from the prompt for
the path to its `return true`.  Every batch read from the file takes a character or
fails, so the budget of the loop is never used up by a compiler that returns. -/
def SystemProcessTokens_load (host : Host) (st0 : ReplState) :
    Option (Except Thrown Bool × ReplState) :=
  match cin_read_word st0.world.machine.cin with
  | some (forth_source, cin1) =>
    let st1 : ReplState :=
      { st0 with world := { st0.world with machine := { st0.world.machine with cin := cin1 } } }
    match host.openFile forth_source with
    | some text =>
      let got := GetUniqueFileId st1
      let st2 : ReplState :=
        { got.2 with world := { got.2.world with
            machine := SourceFilesMap_set got.2.world.machine got.1 forth_source } }
      match LoadFile_loop host got.1 (text.length + 2) text true 0 st2.world with
      | none => none
      | some (.error e, w) => some (.error e, { st2 with world := w })
      | some (.ok _, w) => some (.ok true, { st2 with world := w })
    | none => some (.ok true, st1)
  | none => some (.ok true, st0)

/-- The function `SystemProcessTokens( F_compiler, ns, exit_flag )`: the value returned
or the exception that leaves it, and the state afterwards. -/
def SystemProcessTokens (host : Host) (ns : TokenStream) (st : ReplState) :
    Option (Except Thrown Bool × ReplState) :=
  match ns with
  | [] => some (.ok false, st)
  | t0 :: _ =>
    let st0 : ReplState := { st with exit_flag := false }
    let str : Name := if FORTH_IS_CASE_INSENSITIVE then ToUpper t0.fName else t0.fName
    if kMenu_ExitWords.any (fun ex_word => (std_find str ex_word).isSome) then
      some (.ok true, { st0 with exit_flag := true })
    else if (std_find str kMenu_FileLoadWord).isSome then SystemProcessTokens_load host st0
    else if (std_find str kMenu_Help).isSome then some (.ok true, st0)
    else some (.ok false, st0)

/-- The loop `while( ! exit_flag )` of `Run` for the reader `theReader( terminal_input_index )`
whose counter is `fTotalCharCounter`: one iteration per unit of `fuel`, `none` when they
do not suffice; an exception leaves the loop.  The fibers are resumed with the words of
`env`, under the clock `clock`, each `resume()` within `resumeFuel` iterations. -/
def Run_while (host : Host) (env : Env) (clock : Nat → Int) (resumeFuel : Nat)
    (terminal_input_index : Int) :
    Nat → Int → ReplState → Option (Except Thrown Unit × ReplState)
  | 0, _, st => if st.exit_flag = false then none else some (.ok (), st)
  | fuel + 1, fTotalCharCounter, st =>
    if st.exit_flag = false then
      let r := TForthReader_4_Debugging_call terminal_input_index fTotalCharCounter
        st.world.machine.cin
      let tokens := r.1
      let st1 : ReplState :=
        { st with
          prompts := st.prompts + 1,
          world := { st.world with machine := { st.world.machine with cin := r.2.2.1 } } }
      match SystemProcessTokens host tokens st1 with
      | none => none
      | some (.error e, st2) => some (.error e, st2)
      | some (.ok preempted, st2) =>
        let compiled : Option (Except Thrown Unit × FiberWorld) :=
          if preempted = false then host.F_compiler tokens st2.world
          else some (.ok (), st2.world)
        match compiled with
        | none => none
        | some (.error e, w3) => some (.error e, { st2 with world := w3 })
        | some (.ok _, w3) =>
          match ProcessCoros env clock resumeFuel w3 with
          | none => none
          | some (.error e, w4) => some (.error e, { st2 with world := w4 })
          | some (.ok _, w4) =>
            Run_while host env clock resumeFuel terminal_input_index fuel r.2.1
              { st2 with world := w4 }
    else some (.ok (), st)

/-- The handlers of the `try` block of `Run`: a `ForthError` and any other
`std::exception` are reported and the loop goes on; anything else sets `exit_flag`. -/
def Run_catch (thrown : Thrown) (st : ReplState) : ReplState :=
  match thrown with
  | .forthError err =>
    { st with world := { st.world with machine := Run_catch_ForthError err st.world.machine } }
  | .stdException => st
  | .other => { st with exit_flag := true }

/-- The loop `do { try { ... } catch ... } while( exit_flag == false )` of `Run`, from the
state that the constructors and the modules leave: the state when `Run` returns, `none`
when it has not returned within `fuel` iterations of its loops. -/
def Run (host : Host) (env : Env) (clock : Nat → Int) (resumeFuel : Nat) :
    Nat → ReplState → Option ReplState
  | 0, _ => none
  | fuel + 1, st =>
    let got := GetUniqueFileId st
    let st1 : ReplState :=
      { got.2 with world := { got.2.world with
          machine := SourceFilesMap_set got.2.world.machine got.1 "Terminal".toList } }
    match Run_while host env clock resumeFuel got.1 fuel 0 st1 with
    | none => none
    | some (r, st2) =>
      let st3 : ReplState :=
        match r with
        | .ok _ => st2
        | .error thrown => Run_catch thrown st2
      if st3.exit_flag = false then Run host env clock resumeFuel fuel st3 else some st3

/-! ## Vocabulary of the claims on the bytes, the base, the readers and `Run` -/

/-- The number that `bytes` encode in little-endian order, the first byte being the
least significant. -/
def decodeLittleEndian (bytes : List RawByte) : Nat :=
  bytes.foldr (fun b acc => b + 256 * acc) 0

/-- A name of ASCII characters only. -/
def IsAsciiName (n : Name) : Prop :=
  ∀ c ∈ n, c.toNat < 128

instance (n : Name) : Decidable (IsAsciiName n) := by
  unfold IsAsciiName
  infer_instance

/-- The cell value stored in the variable `variable_name`: the little-endian value of the
first `CellTypeSize` bytes of the byte array that its `CompoWord` starts with; `none` when
the name is not defined or is no variable. -/
def VariableCell (m : Machine) (variable_name : Name) : Option CellType :=
  match GetWordEntry m variable_name with
  | some entry =>
    match m.fHeap[entry.fWordUP]? with
    | some (Word.CompoWord (p0 :: _) _) =>
      match m.fHeap[p0]? with
      | some (Word.RawByteArray container) =>
        some (decodeLittleEndian (container.take CellTypeSize))
      | _ => none
    | _ => none
  | none => none

/-- The byte arrays of a machine hold bytes: values below 256. -/
def BytesInRange (m : Machine) : Prop :=
  ∀ (p : WordPtr) (container : List RawByte),
    m.fHeap[p]? = some (Word.RawByteArray container) → ∀ b ∈ container, b < 256

/-- A space or a tab. -/
def IsBlankLetter (c : Letter) : Bool :=
  c == kSpace || c == kTab

/-- The maximal runs of characters of a line that are neither a space nor a tab, in
order: the pieces between the spaces and tabs, the empty ones left out. -/
def maximalRuns (line : Name) : List Name :=
  (line.splitOnP IsBlankLetter).filter (fun run => run != [])

/-- The line ends with a colon or a semicolon glued to a character before it that is no
blank. -/
def EndsGlued (line : Name) : Prop :=
  ∃ (pre : Name) (x c : Letter), line = pre ++ [x, c] ∧ IsBlankLetter x = false ∧
    (c = kColon ∨ c = kSemColon)

/-- The token names that the debug reader returns for the input `text`, read by a new
reader. -/
def debugReaderNames (text : List Letter) : List Name :=
  (TForthReader_4_Debugging_call kSourceFileIndexSentinel 0 text).1.map (fun t => t.fName)

/-- The token names that the release reader returns for the input `text`. -/
def releaseReaderNames (text : List Letter) : List Name :=
  (TForthReader_Release_call text).1.map (fun t => t.fName)

/-- The names that the inner loop of the debug reader emits from a column on, told by the
character `left` before the column, the pending name `tok` and the rest `post` of the
line: the names of `ReadChar` without the locators. -/
def ReadLine_names (left : Letter) (tok : Name) : List Letter → List Name
  | [] => []
  | c :: cs =>
    if c = kSpace ∨ c = kTab then
      (if tok ≠ [] then [tok] else []) ++ ReadLine_names c [] cs
    else if c = kBackSlash then []
    else if c = kColon ∨ c = kSemColon then
      if (IsBlankLetter left && IsBlankLetter (cs.headD kSpace)) = true then
        (if tok ≠ [] then [tok] else []) ++ [[c]] ++ ReadLine_names c [] cs
      else ReadLine_names c (tok ++ [c]) cs
    else if cs = [] then [tok ++ [c]]
    else ReadLine_names c (tok ++ [c]) cs

/-- The maximal runs of the text `tok ++ post`, for a name `tok` without a blank. -/
def runsFrom (tok : Name) (post : List Letter) : List Name :=
  ((post.splitOnP IsBlankLetter).modifyHead (fun run => tok ++ run)).filter
    (fun run => run != [])

/-- The text `post`, which follows the character `left`, ends with a colon or a
semicolon glued to the character before it. -/
def endsGluedAfter (left : Letter) : List Letter → Bool
  | [] => false
  | [c] => (c == kColon || c == kSemColon) && !IsBlankLetter left
  | c :: d :: cs => endsGluedAfter c (d :: cs)

/-- The state of `Run` when the input stream is at its end: no text is left on `std::cin`,
the ready-queue of the scheduler is empty and `exit_flag` is not set. -/
def AtEndOfInput (st : ReplState) : Prop :=
  st.world.machine.cin = [] ∧ st.world.fCoroScheduler = [] ∧ st.exit_flag = false

/-! ## Further sample inputs -/

/-- A machine whose dictionary has the one variable `BASE`, a `CompoWord` over a
`RawByteArray` holding the cell `v` as `PushValTo` stores it. -/
def machineWithBaseCell (v : CellType) : Machine :=
  { fWordDict := [(kBASE, { fWordUP := 0 })],
    fNodeRepo := [1],
    fHeap := [Word.CompoWord [1] [], Word.RawByteArray (PushValTo CellTypeSize [] v)] }

/-- A host whose compiler returns at once and leaves the world as it is, and that has no
file. -/
def idleHost : Host :=
  { F_compiler := fun _ w => some (.ok (), w),
    openFile := fun _ => none }

/-- The state in which `Run` enters its loop with the text `text` on `std::cin`. -/
def replWithInput (text : String) : ReplState :=
  { world := { machine := { cin := text.toList } } }

/-! ## Vocabulary of the claim on the time slice of a fiber -/

/-- The value of the loop counter `i` with which a resume of the fiber enters the `for`
loop: zero at the first resume, the `++ i` of the loop at a later one. -/
def Fiber_resumeIndex (f : FiberFrame) : Int :=
  match f.point with
  | .initial => 0
  | _ => wrapInt32 (f.i + 1)
/-! ## Vocabulary of the claims on the lines of the debug reader -/

/-- The separate colons and semicolons that the debug reader sees in the text `post`,
which follows the character `left`, in order: those with a space, a tab or a line boundary
on both sides, up to the first backslash of the text. -/
def separateSymbols (left : Letter) : List Letter → List Letter
  | [] => []
  | c :: cs =>
    if c = kBackSlash then []
    else if (c = kColon ∨ c = kSemColon) ∧
        (IsBlankLetter left && IsBlankLetter (cs.headD kSpace)) = true then
      c :: separateSymbols c cs
    else separateSymbols c cs

/-- Whether a definition is open after the separate symbols `symbols` have been seen: the
most recent of them is a colon; without any, as it was before. -/
def openAfterSymbols (isOpen : Bool) (symbols : List Letter) : Bool :=
  match symbols.getLast? with
  | none => isOpen
  | some c => c == kColon

/-- Whether a definition is open after the line `line`. -/
def definitionOpenAfter (isOpen : Bool) (line : Name) : Bool :=
  openAfterSymbols isOpen (separateSymbols kSpace line)

/-- The input stream made of the lines `lines`, each ended by a newline, and of a last
line `tail` that no newline ends (no such line when `tail` is empty). -/
def textOfLines (lines : List Name) (tail : Name) : List Letter :=
  (lines.map (fun l => l ++ [kNewLine])).flatten ++ tail

/-- The lines of the stream `textOfLines lines tail`. -/
def linesOfText (lines : List Name) (tail : Name) : List Name :=
  lines ++ (if tail = [] then [] else [tail])

/-- The number of lines that one call of the reader takes from the lines `all`: the first
line when `first` holds, and then a line after each line that leaves a definition open. -/
def linesRead (first isOpen : Bool) : List Name → Nat
  | [] => 0
  | l :: rest =>
    if first = true ∨ isOpen = true then
      linesRead false (definitionOpenAfter isOpen l) rest + 1
    else 0
/-- A character that the debug reader puts in a token name: no space, no tab and no
backslash. -/
def IsNameLetter (c : Letter) : Prop :=
  c ≠ kSpace ∧ c ≠ kTab ∧ c ≠ kBackSlash

/-! ## Vocabulary of the claim on the status 0 of a fiber -/

/-- The first `k` iterations of the body of a fiber from the machine `m`, each the call of
the word at `p` followed by the pop of its status cell: the statuses popped, the latest
first, and the machine afterwards; `none` when one of the calls does not return, raises or
leaves no status cell. -/
def Fiber_bodyRuns (env : Env) (p : WordPtr) : Nat → Machine → Option (List CellType × Machine)
  | 0, m => some ([], m)
  | k + 1, m =>
    match env.call p m with
    | some (.ok _, m1) =>
      match Stack_Pop m1.fDataStack with
      | some (t, s1) =>
        match Fiber_bodyRuns env p k { m1 with fDataStack := s1 } with
        | some (sts, mk) => some (sts ++ [t], mk)
        | none => none
      | none => none
    | _ => none

/-- A fiber of endless rotations over the word at `p` that is not done, on the way to its
iteration number `J`: the statuses popped so far are the earliest of `sts`, and the
iterations still to run before that one, from the machine `m`, pop the others and lead to
the machine `mJ`. -/
def FiberBeforeZero (env : Env) (p : WordPtr) (J : Nat) (sts : List CellType) (mJ : Machine)
    (f : FiberFrame) (m : Machine) : Prop :=
  f.rotations = -1 ∧ f.p = p ∧ f.point ≠ .final ∧
    ∃ (d : Nat) (rest : List CellType),
      Fiber_bodyRuns env p d m = some (rest, mJ) ∧ rest ++ f.statuses = sts ∧
        f.bodyCalls + d = J

/-! ## Lemmas -/

theorem IsDecDigit.mem_class {c : Letter} (h : IsDecDigit c) : c ∈ kDigitClass := by
  have hc := Char.ofNat_toNat c
  obtain ⟨h1, h2⟩ := h
  generalize c.toNat = n at hc h1 h2
  subst hc
  interval_cases n <;> decide

theorem mem_class_IsDecDigit {c : Letter} (h : c ∈ kDigitClass) : IsDecDigit c := by
  have : ∀ d ∈ kDigitClass, 48 ≤ d.toNat ∧ d.toNat ≤ 57 := by decide
  exact this c h

theorem CheckMatch_eq (a b : Name) :
    CheckMatch a b = decide (a.map toupper = b.map toupper) := by
  simp only [CheckMatch, FORTH_IS_CASE_INSENSITIVE, if_true]
  induction a generalizing b with
  | nil => cases b <;> simp [std_equal]
  | cons x xs ih =>
    cases b with
    | nil => simp [std_equal]
    | cons y ys =>
      simp only [std_equal, ih, List.map_cons, List.cons.injEq]
      by_cases h1 : toupper x = toupper y <;> by_cases h2 : xs.map toupper = ys.map toupper <;>
        simp [h1, h2]


/-! ### The languages of the patterns -/

theorem mem_anyOf (cs : List Letter) (x : Name) :
    x ∈ (anyOf cs).matches' ↔ ∃ c ∈ cs, x = [c] := by
  induction cs with
  | nil => simp [anyOf]
  | cons a as ih =>
    have hstep : anyOf (a :: as) = RegularExpression.char a + anyOf as := rfl
    rw [hstep, RegularExpression.matches'_add, Language.mem_add, ih,
      RegularExpression.matches'_char]
    constructor
    · rintro (h | ⟨c, hc, rfl⟩)
      · exact ⟨a, List.mem_cons_self _ _, h⟩
      · exact ⟨c, List.mem_cons_of_mem _ hc, rfl⟩
    · rintro ⟨c, hc, rfl⟩
      rcases List.mem_cons.mp hc with rfl | hc
      · exact Or.inl rfl
      · exact Or.inr ⟨c, hc, rfl⟩

theorem mem_star_anyOf (cs : List Letter) (x : Name) :
    x ∈ (anyOf cs).star.matches' ↔ ∀ c ∈ x, c ∈ cs := by
  rw [RegularExpression.matches'_star, Language.mem_kstar]
  constructor
  · rintro ⟨L, rfl, hL⟩ c hc
    obtain ⟨l, hl, hcl⟩ := List.mem_flatten.mp hc
    obtain ⟨d, hd, rfl⟩ := (mem_anyOf cs l).mp (hL l hl)
    simp at hcl
    subst hcl
    exact hd
  · intro h
    refine ⟨x.map (fun c => [c]), ?_, ?_⟩
    · induction x with
      | nil => rfl
      | cons a as ih =>
        simp only [List.map_cons, List.flatten_cons, List.singleton_append, List.cons.injEq,
          true_and]
        exact ih (fun c hc => h c (List.mem_cons_of_mem _ hc))
    · intro y hy
      obtain ⟨c, hc, rfl⟩ := List.mem_map.mp hy
      exact (mem_anyOf cs [c]).mpr ⟨c, h c hc, rfl⟩

theorem mem_plus1_anyOf (cs : List Letter) (x : Name) :
    x ∈ (plus1 (anyOf cs)).matches' ↔ x ≠ [] ∧ ∀ c ∈ x, c ∈ cs := by
  rw [plus1, RegularExpression.matches'_mul, Language.mem_mul]
  constructor
  · rintro ⟨a, ha, b, hb, rfl⟩
    obtain ⟨c, hc, rfl⟩ := (mem_anyOf cs a).mp ha
    refine ⟨by simp, ?_⟩
    intro d hd
    rcases List.mem_append.mp hd with h | h
    · simp at h
      subst h
      exact hc
    · exact (mem_star_anyOf cs b).mp hb d h
  · rintro ⟨hne, h⟩
    cases x with
    | nil => exact absurd rfl hne
    | cons a as =>
      refine ⟨[a], (mem_anyOf cs [a]).mpr ⟨a, h a (List.mem_cons_self _ _), rfl⟩, as, ?_, rfl⟩
      exact (mem_star_anyOf cs as).mpr (fun c hc => h c (List.mem_cons_of_mem _ hc))

theorem mem_opt (r : RegularExpression Letter) (x : Name) :
    x ∈ (opt r).matches' ↔ x ∈ r.matches' ∨ x = [] := by
  rw [opt, RegularExpression.matches'_add, Language.mem_add, RegularExpression.matches'_epsilon,
    Language.mem_one]

/-- The language of `kIntVal`: an optional sign, then one or more digits. -/
theorem mem_kIntVal (x : Name) :
    x ∈ kIntVal.matches' ↔
      ∃ s d : Name, x = s ++ d ∧ (s = [] ∨ s = ['+'] ∨ s = ['-']) ∧ d ≠ [] ∧
        ∀ c ∈ d, c ∈ kDigitClass := by
  rw [kIntVal, RegularExpression.matches'_mul, Language.mem_mul]
  constructor
  · rintro ⟨s, hs, d, hd, rfl⟩
    refine ⟨s, d, rfl, ?_, (mem_plus1_anyOf _ d).mp hd⟩
    rcases (mem_opt _ s).mp hs with h | h
    · obtain ⟨c, hc, rfl⟩ := (mem_anyOf _ s).mp h
      have : c = '+' ∨ c = '-' := by simpa using hc
      rcases this with rfl | rfl
      · exact Or.inr (Or.inl rfl)
      · exact Or.inr (Or.inr rfl)
    · exact Or.inl h
  · rintro ⟨s, d, rfl, hs, hd⟩
    refine ⟨s, ?_, d, (mem_plus1_anyOf _ d).mpr hd, rfl⟩
    rw [mem_opt]
    rcases hs with rfl | rfl | rfl
    · exact Or.inr rfl
    · exact Or.inl ((mem_anyOf _ _).mpr ⟨'+', by decide, rfl⟩)
    · exact Or.inl ((mem_anyOf _ _).mpr ⟨'-', by decide, rfl⟩)

theorem IsInteger_kDec_iff (x : Name) :
    IsInteger x EIntCompBase.kDec = true ↔ x ∈ kIntVal.matches' := by
  simp only [IsInteger, regex_match]
  exact RegularExpression.rmatch_iff_matches' _ _

theorem IsFloatingPt_iff (x : Name) :
    IsFloatingPt x = true ↔ x ∈ kFloatPtVal.matches' := by
  simp only [IsFloatingPt, regex_match]
  exact RegularExpression.rmatch_iff_matches' _ _


/-! ### `stoll` on decimal renderings -/

theorem IsDecDigit.digitInBase {c : Letter} (h : IsDecDigit c) :
    digitInBase 10 c = some (c.toNat - 48) := by
  obtain ⟨h1, h2⟩ := h
  have h3 : c.toNat - 48 < 10 := by omega
  simp [BCForth.digitInBase, digitValue, h1, h2, Option.filter, h3]

theorem takeDigits_decimal (ds : Name) (hd : ∀ c ∈ ds, IsDecDigit c) :
    takeDigits 10 ds = ds.map (fun c => c.toNat - 48) := by
  induction ds with
  | nil => rfl
  | cons c cs ih =>
    have hc := (hd c (List.mem_cons_self _ _)).digitInBase
    simp only [takeDigits, hc, List.map_cons]
    rw [ih (fun d hdm => hd d (List.mem_cons_of_mem _ hdm))]

theorem foldl_decimal (ds : List Nat) (a : Int) :
    ds.foldl (fun (acc : Int) (d : Nat) => acc * ((10 : Nat) : Int) + (d : Int)) a
      = a * 10 ^ ds.length + ((Nat.ofDigits (10 : Nat) ds.reverse : Nat) : Int) := by
  induction ds generalizing a with
  | nil => simp [Nat.ofDigits_nil]
  | cons d ds ih =>
    rw [List.foldl_cons, ih, List.reverse_cons, Nat.ofDigits_append]
    simp only [List.length_cons, List.length_reverse, Nat.ofDigits_singleton]
    push_cast
    ring

theorem skipHexMark_decimal (s : Name) : skipHexMark 10 s = s := by
  unfold skipHexMark
  split
  · simp
  · rfl

theorem IsDecDigit.not_space {c : Letter} (h : IsDecDigit c) : isspace c = false := by
  obtain ⟨h1, h2⟩ := h
  simp only [isspace, Bool.or_eq_false_iff, Bool.and_eq_false_iff, decide_eq_false_iff_not,
    beq_eq_false_iff_ne]
  omega

theorem IsDecDigit.takeSign {c : Letter} (h : IsDecDigit c) (cs : Name) :
    takeSign (c :: cs) = (false, c :: cs) := by
  obtain ⟨h1, h2⟩ := h
  have hm : c ≠ '-' := by
    rintro rfl
    revert h1
    decide
  have hp : c ≠ '+' := by
    rintro rfl
    revert h1
    decide
  unfold BCForth.takeSign
  split
  · rename_i heq
    simp only [List.cons.injEq] at heq
    exact absurd heq.1 hm
  · rename_i heq
    simp only [List.cons.injEq] at heq
    exact absurd heq.1 hp
  · rfl

/-- The digits and the sign that `stoll` reads from a text without leading white space. -/
theorem stoll_digits (neg : Bool) (s ds : Name) (hs : s.dropWhile isspace = s)
    (hsign : takeSign s = (neg, ds)) (hne : ds ≠ []) (hd : ∀ c ∈ ds, IsDecDigit c)
    (hr : -(2 : Int) ^ 63 ≤ (if neg then -(decimalValue ds : Int) else decimalValue ds) ∧
      (if neg then -(decimalValue ds : Int) else (decimalValue ds : Int)) ≤ (2 : Int) ^ 63 - 1) :
    stoll s 10 = some (if neg then -(decimalValue ds : Int) else decimalValue ds) := by
  have hempty : (List.map (fun c : Letter => c.toNat - 48) ds).isEmpty = false := by
    cases ds with
    | nil => exact absurd rfl hne
    | cons _ _ => rfl
  have hfold := foldl_decimal (List.map (fun c : Letter => c.toNat - 48) ds) 0
  simp only [zero_mul, zero_add, ← List.map_reverse] at hfold
  unfold stoll
  simp only [hs, hsign, skipHexMark_decimal, takeDigits_decimal ds hd, hempty,
    Bool.false_eq_true, if_false]
  rw [hfold]
  simp only [decimalValue] at hr ⊢
  rw [if_pos hr]

theorem stoll_of_rendering {tok : Name} {n : Int} (h : IsDecimalRendering tok n)
    (hr : -(2 : Int) ^ 63 ≤ n ∧ n ≤ (2 : Int) ^ 63 - 1) : stoll tok 10 = some n := by
  have hplus : isspace '+' = false := by decide
  have hminus : isspace '-' = false := by decide
  obtain ⟨ds, hne, hd, h⟩ := h
  rcases h with ⟨rfl, rfl⟩ | ⟨rfl, rfl⟩ | ⟨rfl, rfl⟩
  · cases tok with
    | nil => exact absurd rfl hne
    | cons c cs =>
      have hc := hd c (List.mem_cons_self _ _)
      have := stoll_digits false (c :: cs) (c :: cs)
        (by simp [List.dropWhile, hc.not_space]) (hc.takeSign cs) hne hd
        (by simpa using hr)
      simpa using this
  · have := stoll_digits false ('+' :: ds) ds (by simp [List.dropWhile, hplus]) rfl hne hd
      (by simpa using hr)
    simpa using this
  · have := stoll_digits true ('-' :: ds) ds (by simp [List.dropWhile, hminus]) rfl hne hd
      (by simpa using hr)
    simpa using this


/-! ### The driver on a token that is no keyword -/

theorem CheckMatch_head_ne {c d : Letter} (h : toupper c ≠ toupper d) (cs ds : Name) :
    CheckMatch (c :: cs) (d :: ds) = false := by
  rw [CheckMatch_eq]
  simp [h]

theorem literal_head_not_keyword {c : Letter} (hc : c ∈ '+' :: '-' :: kDigitClass)
    (cs : Name) {k : Name} (hk : k ∈ kLeadingKeywords) : CheckMatch (c :: cs) k = false := by
  have key : ∀ c ∈ '+' :: '-' :: kDigitClass, ∀ k ∈ kLeadingKeywords,
      (k.map toupper).head? ≠ some (toupper c) := by decide
  rw [CheckMatch_eq]
  simp only [decide_eq_false_iff_not, List.map_cons]
  intro heq
  apply key c hc k hk
  rw [← heq]
  rfl

theorem CallDebugWord_off (env : Env) (word_name : Name) (dfi : DebugFileInfo) (m : Machine)
    (hdbg : m.fDebugMode_On = false) : CallDebugWord env word_name dfi m = some (.ok (), m) := by
  simp [CallDebugWord, Machine.IsDebug, hdbg]

theorem ProcessContextSequences_plain (env : Env) (tok : Token) (rest : TokenStream)
    (m : Machine) (hFIND : CheckMatch tok.fName kFIND = false)
    (hTick : CheckMatch tok.fName kTick = false) (hTO : CheckMatch tok.fName kTO = false)
    (hCHAR : CheckMatch tok.fName kCHAR = false)
    (hCommaQuote : CheckMatch tok.fName kCommaQuote = false)
    (hCREATE : CheckMatch tok.fName kCREATE = false) :
    ProcessContextSequences env (tok :: rest) m = some (.ok (), tok :: rest, m) := by
  simp [ProcessContextSequences, NameAt, hFIND, hTick, hTO, hCHAR, hCommaQuote, hCREATE]

theorem ExecuteWords_nil (env : Env) (fuel : Nat) (m : Machine) :
    ExecuteWords env (fuel + 1) [] m = some (.ok (), [], m) := by
  simp [ExecuteWords]

/-- The first character of a decimal rendering is a sign or a digit. -/
theorem IsDecimalRendering.head {tok : Name} {n : Int} (h : IsDecimalRendering tok n) :
    ∃ c cs, tok = c :: cs ∧ c ∈ '+' :: '-' :: kDigitClass := by
  obtain ⟨ds, hne, hd, h⟩ := h
  rcases h with ⟨rfl, -⟩ | ⟨rfl, -⟩ | ⟨rfl, -⟩
  · cases tok with
    | nil => exact absurd rfl hne
    | cons c cs =>
      exact ⟨c, cs, rfl, List.mem_cons_of_mem _ (List.mem_cons_of_mem _
        (hd c (List.mem_cons_self _ _)).mem_class)⟩
  · exact ⟨'+', ds, rfl, by simp⟩
  · exact ⟨'-', ds, rfl, by simp⟩

theorem IsDecimalRendering.isInteger {tok : Name} {n : Int} (h : IsDecimalRendering tok n) :
    IsInteger tok EIntCompBase.kDec = true := by
  rw [IsInteger_kDec_iff, mem_kIntVal]
  obtain ⟨ds, hne, hd, h⟩ := h
  have hcls : ∀ c ∈ ds, c ∈ kDigitClass := fun c hc => (hd c hc).mem_class
  rcases h with ⟨rfl, -⟩ | ⟨rfl, -⟩ | ⟨rfl, -⟩
  · exact ⟨[], tok, rfl, Or.inl rfl, hne, hcls⟩
  · exact ⟨['+'], ds, rfl, Or.inr (Or.inl rfl), hne, hcls⟩
  · exact ⟨['-'], ds, rfl, Or.inr (Or.inr rfl), hne, hcls⟩

/-- The driver on a one-token stream whose token is a decimal rendering, `BASE` reading
decimal and the debugger off. -/
theorem ExecuteWords_decimal_core (env : Env) (fuel : Nat) (m : Machine) (tok : Name)
    (dfi : DebugFileInfo) (n : Int) (hbase : ReadTheBase m = EIntCompBase.kDec)
    (hdbg : m.fDebugMode_On = false)
    (hrange : -(2 : Int) ^ 63 ≤ n ∧ n ≤ (2 : Int) ^ 63 - 1)
    (hrender : IsDecimalRendering tok n) :
    ExecuteWords env (fuel + 2) [{ fName := tok, fDebugFileInfo := dfi }] m
      = some (.ok (), [],
          { m with fDataStack := (n % (2 : Int) ^ 64).toNat :: m.fDataStack }) := by
  obtain ⟨c, cs, rfl, hc⟩ := hrender.head
  have hkw : ∀ k ∈ kLeadingKeywords, CheckMatch (c :: cs) k = false :=
    fun k hk => literal_head_not_keyword hc cs hk
  have hpcs := ProcessContextSequences_plain env { fName := c :: cs, fDebugFileInfo := dfi } [] m
    (hkw _ (by simp [kLeadingKeywords])) (hkw _ (by simp [kLeadingKeywords]))
    (hkw _ (by simp [kLeadingKeywords])) (hkw _ (by simp [kLeadingKeywords]))
    (hkw _ (by simp [kLeadingKeywords])) (hkw _ (by simp [kLeadingKeywords]))
  have hint := hrender.isInteger
  have hval : Word_2_Integer m (c :: cs) = .ok n := by
    simp [Word_2_Integer, hbase, EIntCompBase.toNat, stoll_of_rendering hrender hrange]
  rw [ExecuteWords]
  simp only [List.length_singleton, one_ne_zero, if_false, NameAt, List.getD_cons_zero,
    hkw kDEBUGGER (by simp [kLeadingKeywords]), Bool.false_eq_true,
    CallDebugWord_off env _ _ m hdbg, hpcs, hbase, hint, if_true, hval,
    Erase_n_First_Words, List.drop_one, List.tail_cons, ExecuteWords_nil]
  rfl

/-- The driver on a stream whose first token is no keyword, no literal and no word of the
dictionary, the debugger being off: the error `unknown word`, nothing else changed. -/
theorem ExecuteWords_unknown_core (env : Env) (fuel : Nat) (tok : Token) (rest : TokenStream)
    (m : Machine) (hdbg : m.fDebugMode_On = false)
    (hkw : ∀ k ∈ kLeadingKeywords, CheckMatch tok.fName k = false)
    (hint : IsInteger tok.fName (ReadTheBase m) = false)
    (hfloat : IsFloatingPt tok.fName = false)
    (hdict : GetWordEntry m tok.fName = none) :
    ExecuteWords env (fuel + 1) (tok :: rest) m
      = some (.error (.forthError (kUnknownWord tok.fName)), tok :: rest, m) := by
  have hpcs := ProcessContextSequences_plain env tok rest m
    (hkw _ (by simp [kLeadingKeywords])) (hkw _ (by simp [kLeadingKeywords]))
    (hkw _ (by simp [kLeadingKeywords])) (hkw _ (by simp [kLeadingKeywords]))
    (hkw _ (by simp [kLeadingKeywords])) (hkw _ (by simp [kLeadingKeywords]))
  rw [ExecuteWords]
  simp [NameAt, hkw kDEBUGGER (by simp [kLeadingKeywords]), CallDebugWord_off env _ _ m hdbg,
    hpcs, hint, hfloat, ProcessDefiningWord, ExecWord, hdict]

theorem ReadTheBase_of_ne_16 (m : Machine) (h : ReadVariable m kBASE ≠ 16) :
    ReadTheBase m = EIntCompBase.kDec := by
  simp [ReadTheBase, h]

theorem ReadTheBase_of_16 (m : Machine) (h : ReadVariable m kBASE = 16) :
    ReadTheBase m = EIntCompBase.kHex := by
  simp [ReadTheBase, h]

/-- The driver on a one-token stream whose token starts with a digit and is classified
as an integer literal with the value `v`, the debugger being off. -/
theorem ExecuteWords_literal_core (env : Env) (fuel : Nat) (m : Machine) (c : Letter)
    (cs : Name) (dfi : DebugFileInfo) (v : Int) (hc : c ∈ '+' :: '-' :: kDigitClass)
    (hdbg : m.fDebugMode_On = false)
    (hint : IsInteger (c :: cs) (ReadTheBase m) = true)
    (hval : Word_2_Integer m (c :: cs) = .ok v) :
    ExecuteWords env (fuel + 2) [{ fName := c :: cs, fDebugFileInfo := dfi }] m
      = some (.ok (), [], m.PushData (SignedInt_2_Cell v)) := by
  have hkw : ∀ k ∈ kLeadingKeywords, CheckMatch (c :: cs) k = false :=
    fun k hk => literal_head_not_keyword hc cs hk
  have hpcs := ProcessContextSequences_plain env { fName := c :: cs, fDebugFileInfo := dfi } [] m
    (hkw _ (by simp [kLeadingKeywords])) (hkw _ (by simp [kLeadingKeywords]))
    (hkw _ (by simp [kLeadingKeywords])) (hkw _ (by simp [kLeadingKeywords]))
    (hkw _ (by simp [kLeadingKeywords])) (hkw _ (by simp [kLeadingKeywords]))
  rw [ExecuteWords]
  simp only [List.length_singleton, one_ne_zero, if_false, NameAt, List.getD_cons_zero,
    hkw kDEBUGGER (by simp [kLeadingKeywords]), Bool.false_eq_true,
    CallDebugWord_off env _ _ m hdbg, hpcs, hint, if_true, hval,
    Erase_n_First_Words, List.drop_one, List.tail_cons, ExecuteWords_nil]

/-- A name that matches one keyword matches no keyword with other letters. -/
theorem CheckMatch_exclusive {lead k : Name} (k2 : Name) (h : CheckMatch lead k = true)
    (hne : k.map toupper ≠ k2.map toupper) : CheckMatch lead k2 = false := by
  rw [CheckMatch_eq] at h ⊢
  simp only [decide_eq_true_eq] at h
  simp only [decide_eq_false_iff_not]
  rw [h]
  exact hne

/-! ### Single letters in a token -/

theorem std_find_letter_none {n : Name} {c : Letter} (h : c ∉ n) : std_find n [c] = none := by
  induction n with
  | nil => simp [std_find]
  | cons x xs ih =>
    have hx : c ≠ x := fun e => h (e ▸ List.mem_cons_self _ _)
    have hxs : c ∉ xs := fun e => h (List.mem_cons_of_mem _ e)
    simp [std_find, List.isPrefixOf, hx, ih hxs]

theorem std_find_letter_first (body tail : Name) {c : Letter} (h : c ∉ body) :
    std_find (body ++ c :: tail) [c] = some body.length := by
  induction body with
  | nil => simp [std_find, List.isPrefixOf]
  | cons x xs ih =>
    have hx : c ≠ x := fun e => h (e ▸ List.mem_cons_self _ _)
    have hxs : c ∉ xs := fun e => h (List.mem_cons_of_mem _ e)
    simp [std_find, List.isPrefixOf, hx, ih hxs]

theorem ContainsSubstrAt_Letter_none {n : Name} {c : Letter} (h : c ∉ n) :
    ContainsSubstrAt_Letter n c = none := by
  simp only [ContainsSubstrAt_Letter, ContainsSubstrAt, Letter_2_Name, sizeof_Letter,
    List.replicate]
  exact std_find_letter_none h

theorem ContainsSubstrAt_Letter_first (body tail : Name) {c : Letter} (h : c ∉ body) :
    ContainsSubstrAt_Letter (body ++ c :: tail) c = some body.length := by
  simp only [ContainsSubstrAt_Letter, ContainsSubstrAt, Letter_2_Name, sizeof_Letter,
    List.replicate]
  exact std_find_letter_first body tail h

/-! ### Collecting a quoted text -/

theorem CollectLoop_plain (enter_letter close_letter : Letter) (pre : TokenStream)
    (last : Token) (body tail : Name) (rest : TokenStream)
    (hpre : ∀ t ∈ pre, enter_letter ∉ t.fName ∧ close_letter ∉ t.fName)
    (hlast : last.fName = body ++ close_letter :: tail)
    (henter : enter_letter ∉ last.fName) (hbody : close_letter ∉ body) :
    ∀ (fuel : Nat) (str : Name), pre.length < fuel →
      CollectLoop enter_letter close_letter fuel (pre ++ last :: rest) str false
        = some ((true, str ++ (spaced pre ++ body)), rest) := by
  induction pre with
  | nil =>
    intro fuel str hfuel
    obtain ⟨f, rfl⟩ : ∃ f, fuel = f + 1 := ⟨fuel - 1, by simp at hfuel; omega⟩
    have h1 := ContainsSubstrAt_Letter_none henter
    have h2 : ContainsSubstrAt_Letter last.fName close_letter = some body.length := by
      rw [hlast]
      exact ContainsSubstrAt_Letter_first body tail hbody
    simp only [List.nil_append, CollectLoop, h1, h2, ExtractTextFromTokenUpToSubstr]
    simp [spaced, hlast]
  | cons t ts ih =>
    intro fuel str hfuel
    obtain ⟨f, rfl⟩ : ∃ f, fuel = f + 1 := ⟨fuel - 1, by simp at hfuel; omega⟩
    have ht := hpre t (List.mem_cons_self _ _)
    have h1 := ContainsSubstrAt_Letter_none ht.1
    have h2 := ContainsSubstrAt_Letter_none ht.2
    have hrec := ih (fun u hu => hpre u (List.mem_cons_of_mem _ hu)) f
      (str ++ (t.fName ++ [kSpace])) (by simp at hfuel; omega)
    simp only [List.cons_append, CollectLoop, h1, h2]
    refine hrec.trans ?_
    simp [spaced]

theorem length_le_CollectBudget (ns : TokenStream) : ns.length ≤ CollectBudget ns := by
  induction ns with
  | nil => simp [CollectBudget]
  | cons t ts ih =>
    simp only [CollectBudget, List.map_cons, List.sum_cons, List.length_cons] at ih ⊢
    omega

theorem intercalate_snoc (sep : Name) (xs : List Name) (body : Name) :
    List.intercalate sep (xs ++ [body]) = (xs.map (fun x => x ++ sep)).flatten ++ body := by
  induction xs with
  | nil => simp [List.intercalate, List.intersperse]
  | cons a as ih =>
    cases h : as ++ [body] with
    | nil => simp at h
    | cons b l =>
      rw [h] at ih
      simp only [List.cons_append, h, List.intercalate, List.intersperse, List.flatten_cons,
        List.map_cons, List.append_assoc] at ih ⊢
      rw [← ih]

/-- The seven comparisons of the leading token, gathered. -/
theorem keywords_of {n : Name} (hDEBUGGER : CheckMatch n kDEBUGGER = false)
    (hFIND : CheckMatch n kFIND = false) (hTick : CheckMatch n kTick = false)
    (hTO : CheckMatch n kTO = false) (hCHAR : CheckMatch n kCHAR = false)
    (hCommaQuote : CheckMatch n kCommaQuote = false)
    (hCREATE : CheckMatch n kCREATE = false) :
    ∀ k ∈ kLeadingKeywords, CheckMatch n k = false := by
  intro k hk
  simp only [kLeadingKeywords, List.mem_cons, List.mem_singleton, List.not_mem_nil,
    or_false] at hk
  rcases hk with rfl | rfl | rfl | rfl | rfl | rfl | rfl <;> assumption

/-! ## Theorems -/

/-- C1: with `BASE` decimal and the debugger off, for every integer `n` of the signed
64-bit range and every token that is a decimal rendering of `n`, `ExecuteWords` on the
one-token stream returns normally, has pushed exactly the cell `n mod 2 ^ 64` on top of
the unchanged data stack, has changed nothing else in the machine, and has consumed the
token. -/
theorem ExecuteWords_decimal_literal (env : Env) (fuel : Nat) (m : Machine) (tok : Name)
    (dfi : DebugFileInfo) (n : Int) (hbase : ReadTheBase m = EIntCompBase.kDec)
    (hdbg : m.fDebugMode_On = false)
    (hrange : -(2 : Int) ^ 63 ≤ n ∧ n ≤ (2 : Int) ^ 63 - 1)
    (hrender : IsDecimalRendering tok n) :
    ExecuteWords env (fuel + 2) [{ fName := tok, fDebugFileInfo := dfi }] m
      = some (.ok (), [],
          { m with fDataStack := (n % (2 : Int) ^ 64).toNat :: m.fDataStack }) :=
  ExecuteWords_decimal_core env fuel m tok dfi n hbase hdbg hrange hrender

/-- C1, an instance: the token `-42` on the empty machine pushes `2 ^ 64 - 42`. -/
theorem ExecuteWords_decimal_literal_witness :
    IsDecimalRendering "-42".toList (-42) ∧
      ExecuteWords idleEnv 2 [{ fName := "-42".toList }] {}
        = some (.ok (), [], { fDataStack := [18446744073709551574] }) := by
  have hr : IsDecimalRendering "-42".toList (-42) :=
    ⟨"42".toList, by decide, by decide, Or.inr (Or.inr ⟨rfl, by decide⟩)⟩
  exact ⟨hr, ExecuteWords_decimal_literal idleEnv 0 {} "-42".toList {} (-42) rfl rfl
    (by decide) hr⟩


/-- C2, refuted as stated: with `BASE` holding 16 the token `1A` is not classified as an
integer literal; on a machine whose dictionary has no word `1A` the driver raises
`unknown word - 1A` and pushes nothing.  And with the debugger on, a user answering `a` at
its prompt, even `0x1A` pushes nothing. -/
theorem hex_literal_without_mark_counterexample :
    ReadVariable (machineWithBase 16) kBASE = 16 ∧
      IsInteger "1A".toList (ReadTheBase (machineWithBase 16)) = false ∧
      ExecuteWords idleEnv 2 [tokenOf "1A"] (machineWithBase 16)
        = some (.error (.forthError (kUnknownWord "1A".toList)), [tokenOf "1A"],
            machineWithBase 16) ∧
      ExecuteWords idleEnv 2 [tokenOf "0x1A"]
          { machineWithBase 16 with fDebugMode_On := true, cin := "a".toList }
        = some (throwForth "DEBUGGING aborted by a user", [tokenOf "0x1A"],
            { machineWithBase 16 with fDebugMode_On := true }) := by
  refine ⟨by decide, by decide, rfl, rfl⟩


/-- C2, amended: with `BASE` holding 16 and the debugger off, the token `0x1A` is
classified as an integer literal and the driver pushes the cell 26; the token `1A` is not
classified as an integer literal, and when the dictionary has no word `1A` the driver
raises `unknown word - 1A` and leaves the machine and the stream as they were. -/
theorem hex_literal_needs_mark (env : Env) (fuel : Nat) (m : Machine) (dfi : DebugFileInfo)
    (hbase : ReadVariable m kBASE = 16) (hdbg : m.fDebugMode_On = false) :
    IsInteger "0x1A".toList (ReadTheBase m) = true ∧
      ExecuteWords env (fuel + 2) [{ fName := "0x1A".toList, fDebugFileInfo := dfi }] m
        = some (.ok (), [], { m with fDataStack := 26 :: m.fDataStack }) ∧
      IsInteger "1A".toList (ReadTheBase m) = false ∧
      (GetWordEntry m "1A".toList = none →
        ExecuteWords env (fuel + 1) [{ fName := "1A".toList, fDebugFileInfo := dfi }] m
          = some (.error (.forthError (kUnknownWord "1A".toList)),
              [{ fName := "1A".toList, fDebugFileInfo := dfi }], m)) := by
  have hhex := ReadTheBase_of_16 m hbase
  have h1 : IsInteger "0x1A".toList (ReadTheBase m) = true := by
    rw [hhex]
    decide
  have h2 : IsInteger "1A".toList (ReadTheBase m) = false := by
    rw [hhex]
    decide
  refine ⟨h1, ?_, h2, ?_⟩
  · have hval : Word_2_Integer m "0x1A".toList = .ok 26 := by
      have hst : stoll "0x1A".toList EIntCompBase.kHex.toNat = some 26 := by decide
      simp only [Word_2_Integer, hhex, hst]
    exact ExecuteWords_literal_core env fuel m '0' "x1A".toList dfi 26 (by decide) hdbg h1 hval
  · intro hdict
    exact ExecuteWords_unknown_core env fuel { fName := "1A".toList, fDebugFileInfo := dfi } []
      m hdbg (fun k hk => literal_head_not_keyword (by decide) "A".toList hk) h2
      (show IsFloatingPt "1A".toList = false by decide) hdict

/-- C2, an instance of the amended claim: the machine whose only word is `BASE`,
holding 16. -/
theorem hex_literal_needs_mark_witness :
    ExecuteWords idleEnv 2 [tokenOf "0x1A"] (machineWithBase 16)
        = some (.ok (), [], { machineWithBase 16 with fDataStack := [26] }) ∧
      IsInteger "1A".toList (ReadTheBase (machineWithBase 16)) = false :=
  have h := hex_literal_needs_mark idleEnv 0 (machineWithBase 16) {} (by decide) rfl
  ⟨h.2.1, h.2.2.1⟩

/-- C3, refuted as stated: with `BASE` holding 2 the token `101` pushes 101, not 5, and
with `BASE` holding 8 it pushes 101, not 65.  And with the debugger on, a user answering
`a` at its prompt, the token pushes nothing. -/
theorem base_2_and_8_counterexample :
    ReadVariable (machineWithBase 2) kBASE = 2 ∧
      ExecuteWords idleEnv 2 [tokenOf "101"] (machineWithBase 2)
        = some (.ok (), [], { machineWithBase 2 with fDataStack := [101] }) ∧
      ReadVariable (machineWithBase 8) kBASE = 8 ∧
      ExecuteWords idleEnv 2 [tokenOf "101"] (machineWithBase 8)
        = some (.ok (), [], { machineWithBase 8 with fDataStack := [101] }) ∧
      ExecuteWords idleEnv 2 [tokenOf "101"]
          { machineWithBase 2 with fDebugMode_On := true, cin := "a".toList }
        = some (throwForth "DEBUGGING aborted by a user", [tokenOf "101"],
            { machineWithBase 2 with fDebugMode_On := true }) :=
  ⟨by decide, rfl, by decide, rfl, rfl⟩

/-- C3, amended: when the `BASE` variable holds 2 or 8 and the debugger is off,
`ReadTheBase` reports decimal, so integer-literal tokens are recognised and converted in
base 10: every decimal rendering of an `n` of the signed 64-bit range pushes `n mod 2 ^ 64`,
and the single token `101` pushes 101. -/
theorem base_2_and_8_read_decimal (env : Env) (fuel : Nat) (m : Machine) (dfi : DebugFileInfo)
    (hbase : ReadVariable m kBASE = 2 ∨ ReadVariable m kBASE = 8)
    (hdbg : m.fDebugMode_On = false) :
    ReadTheBase m = EIntCompBase.kDec ∧
      (∀ (tok : Name) (n : Int), -(2 : Int) ^ 63 ≤ n ∧ n ≤ (2 : Int) ^ 63 - 1 →
        IsDecimalRendering tok n →
        ExecuteWords env (fuel + 2) [{ fName := tok, fDebugFileInfo := dfi }] m
          = some (.ok (), [],
              { m with fDataStack := (n % (2 : Int) ^ 64).toNat :: m.fDataStack })) ∧
      ExecuteWords env (fuel + 2) [{ fName := "101".toList, fDebugFileInfo := dfi }] m
        = some (.ok (), [], { m with fDataStack := 101 :: m.fDataStack }) := by
  have hdec : ReadTheBase m = EIntCompBase.kDec := by
    apply ReadTheBase_of_ne_16
    rcases hbase with h | h <;> rw [h] <;> decide
  refine ⟨hdec, fun tok n hr hren => ExecuteWords_decimal_core env fuel m tok dfi n hdec hdbg
    hr hren, ?_⟩
  have hren : IsDecimalRendering "101".toList 101 :=
    ⟨"101".toList, by decide, by decide, Or.inl ⟨rfl, by decide⟩⟩
  exact ExecuteWords_decimal_core env fuel m "101".toList dfi 101 hdec hdbg (by decide) hren

/-- C3, an instance of the amended claim: the machine whose only word is `BASE`,
holding 2. -/
theorem base_2_and_8_read_decimal_witness :
    ReadVariable (machineWithBase 2) kBASE = 2 ∧
      ExecuteWords idleEnv 2 [tokenOf "101"] (machineWithBase 2)
        = some (.ok (), [], { machineWithBase 2 with fDataStack := [101] }) :=
  ⟨by decide,
    (base_2_and_8_read_decimal idleEnv 0 (machineWithBase 2) {} (Or.inl (by decide)) rfl).2.2⟩

/-- C4: every token that `IsFloatingPt` accepts contains the character `.`, and no token
is accepted both by the pattern `kIntVal` of decimal integer literals and by the pattern
`kFloatPtVal` of float literals. -/
theorem IsFloatingPt_requires_dot (n : Name) :
    (IsFloatingPt n = true → '.' ∈ n) ∧
      ¬ (IsInteger n EIntCompBase.kDec = true ∧ IsFloatingPt n = true) := by
  have hdot : IsFloatingPt n = true → '.' ∈ n := by
    intro h
    rw [IsFloatingPt_iff, kFloatPtVal, RegularExpression.matches'_mul, Language.mem_mul] at h
    obtain ⟨s, -, y, hy, rfl⟩ := h
    rw [RegularExpression.matches'_add, Language.mem_add] at hy
    apply List.mem_append_right
    rcases hy with hy | hy
    · simp only [RegularExpression.matches'_mul, Language.mem_mul] at hy
      obtain ⟨a, ⟨b, ⟨c, -, d, hd, rfl⟩, e, -, rfl⟩, f, -, rfl⟩ := hy
      obtain ⟨p, hp, rfl⟩ := (mem_anyOf _ d).mp hd
      have : p = '.' := by simpa using hp
      subst this
      simp
    · simp only [RegularExpression.matches'_mul, Language.mem_mul] at hy
      obtain ⟨a, ⟨b, hb, c, -, rfl⟩, f, -, rfl⟩ := hy
      obtain ⟨p, hp, rfl⟩ := (mem_anyOf _ b).mp hb
      have : p = '.' := by simpa using hp
      subst this
      simp
  refine ⟨hdot, ?_⟩
  rintro ⟨hi, hf⟩
  have hmem := hdot hf
  rw [IsInteger_kDec_iff, mem_kIntVal] at hi
  obtain ⟨s, d, rfl, hs, -, hd⟩ := hi
  rcases List.mem_append.mp hmem with h | h
  · rcases hs with rfl | rfl | rfl
    · simp at h
    · revert h
      decide
    · revert h
      decide
  · exact absurd (hd _ h) (by decide)

/-- C4, an instance: the float literal `1.5` holds a dot. -/
theorem IsFloatingPt_requires_dot_witness :
    IsFloatingPt "1.5".toList = true ∧ '.' ∈ "1.5".toList :=
  ⟨by decide, (IsFloatingPt_requires_dot "1.5".toList).1 (by decide)⟩


/-- C5, refuted as stated: `DEBUGGER` is no context-sequence prefix, no literal and no
word of the empty dictionary, yet the driver on `DEBUGGER ON` raises nothing and switches
the debugger on; and with the debugger on, a user answering `a` at its prompt, the
undefined word `FOO` raises the error of the debugger instead. -/
theorem unknown_word_counterexample :
    (∀ k ∈ [kFIND, kTick, kTO, kCHAR, kCommaQuote, kCREATE], CheckMatch kDEBUGGER k = false) ∧
      IsInteger kDEBUGGER (ReadTheBase {}) = false ∧ IsFloatingPt kDEBUGGER = false ∧
      GetWordEntry {} kDEBUGGER = none ∧
      ExecuteWords idleEnv 1 [tokenOf "DEBUGGER", tokenOf "ON"] {}
        = some (.ok (), [], { fDebugMode_On := true }) ∧
      ExecuteWords idleEnv 1 [tokenOf "FOO"] { fDebugMode_On := true, cin := "a".toList }
        = some (throwForth "DEBUGGING aborted by a user", [tokenOf "FOO"],
            { fDebugMode_On := true }) :=
  ⟨by decide, by decide, by decide, by decide, rfl, rfl⟩

/-- C5, amended: with the debugger off, for every token stream whose first token is not
`DEBUGGER`, not a context-sequence prefix (`FIND`, the tick, `TO`, `CHAR`, `,"`, `CREATE`),
not an integer or float literal and not a name of the dictionary (so no defining word
either), `ExecuteWords` raises a `ForthError` with the message `unknown word - ` followed
by the token, leaves the machine unchanged (nothing is pushed) and leaves the whole stream
in place (no later token is dispatched). -/
theorem ExecuteWords_unknown_word (env : Env) (fuel : Nat) (tok : Token) (rest : TokenStream)
    (m : Machine) (hdbg : m.fDebugMode_On = false)
    (hDEBUGGER : CheckMatch tok.fName kDEBUGGER = false)
    (hFIND : CheckMatch tok.fName kFIND = false) (hTick : CheckMatch tok.fName kTick = false)
    (hTO : CheckMatch tok.fName kTO = false) (hCHAR : CheckMatch tok.fName kCHAR = false)
    (hCommaQuote : CheckMatch tok.fName kCommaQuote = false)
    (hCREATE : CheckMatch tok.fName kCREATE = false)
    (hint : IsInteger tok.fName (ReadTheBase m) = false)
    (hfloat : IsFloatingPt tok.fName = false)
    (hdict : GetWordEntry m tok.fName = none) :
    ∃ e : ForthError,
      ExecuteWords env (fuel + 1) (tok :: rest) m
        = some (.error (.forthError e), tok :: rest, m) ∧
      e.what = "unknown word - ".toList ++ tok.fName :=
  ⟨kUnknownWord tok.fName,
    ExecuteWords_unknown_core env fuel tok rest m hdbg
      (keywords_of hDEBUGGER hFIND hTick hTO hCHAR hCommaQuote hCREATE) hint hfloat hdict,
    rfl⟩

/-- C5, an instance of the amended claim: `FOO 1` on the empty machine. -/
theorem ExecuteWords_unknown_word_witness :
    ∃ e : ForthError,
      ExecuteWords idleEnv 1 [tokenOf "FOO", tokenOf "1"] {}
        = some (.error (.forthError e), [tokenOf "FOO", tokenOf "1"], {}) ∧
      e.what = "unknown word - FOO".toList :=
  ExecuteWords_unknown_word idleEnv 0 (tokenOf "FOO") [tokenOf "1"] {} rfl (by decide)
    (by decide) (by decide) (by decide) (by decide) (by decide) (by decide) (by decide)
    (by decide) (by decide)

/-- C6, refuted as stated: the error raised for the undefined word `FOO` on the empty
machine carries `clear_stacks = false`. -/
theorem unknown_word_flag_counterexample :
    ExecuteWords idleEnv 1 [tokenOf "FOO"] {}
        = some (.error (.forthError
            { what := "unknown word - FOO".toList, fClearStacks := false }),
            [tokenOf "FOO"], {}) ∧
      ForthError.MustClearStacks
        { what := "unknown word - FOO".toList, fClearStacks := false } = false :=
  ⟨rfl, rfl⟩

/-- C6, amended: the `ForthError` raised by `ExecuteWords` for an undefined word in
interpret mode (debugger off, first token no keyword, no literal, no name of the
dictionary) carries `clear_stacks = false`: `MustClearStacks()` returns `false`. -/
theorem ExecuteWords_unknown_word_keeps_stacks (env : Env) (fuel : Nat) (tok : Token)
    (rest : TokenStream) (m : Machine) (hdbg : m.fDebugMode_On = false)
    (hDEBUGGER : CheckMatch tok.fName kDEBUGGER = false)
    (hFIND : CheckMatch tok.fName kFIND = false) (hTick : CheckMatch tok.fName kTick = false)
    (hTO : CheckMatch tok.fName kTO = false) (hCHAR : CheckMatch tok.fName kCHAR = false)
    (hCommaQuote : CheckMatch tok.fName kCommaQuote = false)
    (hCREATE : CheckMatch tok.fName kCREATE = false)
    (hint : IsInteger tok.fName (ReadTheBase m) = false)
    (hfloat : IsFloatingPt tok.fName = false)
    (hdict : GetWordEntry m tok.fName = none) :
    ∃ e : ForthError,
      ExecuteWords env (fuel + 1) (tok :: rest) m
        = some (.error (.forthError e), tok :: rest, m) ∧
      e.MustClearStacks = false :=
  ⟨kUnknownWord tok.fName,
    ExecuteWords_unknown_core env fuel tok rest m hdbg
      (keywords_of hDEBUGGER hFIND hTick hTO hCHAR hCommaQuote hCREATE) hint hfloat hdict,
    rfl⟩

/-- C6, an instance of the amended claim: `BAR` on a machine with one cell on the
data stack. -/
theorem ExecuteWords_unknown_word_keeps_stacks_witness :
    ∃ e : ForthError,
      ExecuteWords idleEnv 1 [tokenOf "BAR"] { fDataStack := [7] }
        = some (.error (.forthError e), [tokenOf "BAR"], { fDataStack := [7] }) ∧
      e.MustClearStacks = false :=
  ExecuteWords_unknown_word_keeps_stacks idleEnv 0 (tokenOf "BAR") [] { fDataStack := [7] } rfl
    (by decide) (by decide) (by decide) (by decide) (by decide) (by decide) (by decide)
    (by decide) (by decide) (by decide)

/-- C7, the code at the failing input: the batch `1 FIND` pushes 1 and then raises a
`ForthError` whose flag `clear_stacks` is `true`; the handler of `Run` leaves the data
stack `[1]` in place.  The handler returns every machine as it got it, whatever the
flag of the error. -/
theorem Run_catch_ForthError_ignores_flag :
    ExecuteWords idleEnv 3 [tokenOf "1", tokenOf "FIND"] {}
        = some (.error (.forthError
            { what := "Syntax missing word name".toList, fClearStacks := true }),
            [tokenOf "FIND"], { fDataStack := [1] }) ∧
      (Run_catch_ForthError { what := "Syntax missing word name".toList, fClearStacks := true }
        { fDataStack := [1] }).fDataStack = [1] ∧
      ∀ (err : ForthError) (m : Machine), Run_catch_ForthError err m = m :=
  ⟨rfl, rfl, fun _ _ => rfl⟩

/-- C8: when one of the context-sequence prefixes `FIND`, the tick, `TO` and `CHAR`, in any
letter case, is the only token of the stream, `ProcessContextSequences` raises a
`ForthError` and leaves the token stream and the whole machine (data stack, return stack,
dictionary) unchanged. -/
theorem ProcessContextSequences_lone_keyword (env : Env) (lead : Token) (m : Machine)
    (h : CheckMatch lead.fName kFIND = true ∨ CheckMatch lead.fName kTick = true ∨
      CheckMatch lead.fName kTO = true ∨ CheckMatch lead.fName kCHAR = true) :
    ∃ e : ForthError,
      ProcessContextSequences env [lead] m = some (.error (.forthError e), [lead], m) := by
  by_cases h1 : CheckMatch lead.fName kFIND = true
  · exact ⟨{ what := "Syntax missing word name".toList },
      by simp [ProcessContextSequences, NameAt, h1, throwForth]⟩
  by_cases h2 : CheckMatch lead.fName kTick = true
  · exact ⟨{ what := "Syntax missing variable name".toList },
      by simp [ProcessContextSequences, NameAt, h1, h2, throwForth]⟩
  by_cases h3 : CheckMatch lead.fName kTO = true
  · exact ⟨{ what := "Syntax missing variable name".toList },
      by simp [ProcessContextSequences, NameAt, h1, h2, h3, throwForth]⟩
  have h4 : CheckMatch lead.fName kCHAR = true := by
    rcases h with h | h | h | h
    · exact absurd h h1
    · exact absurd h h2
    · exact absurd h h3
    · exact h
  exact ⟨{ what := "Syntax CHAR should be followed by a text".toList },
    by simp [ProcessContextSequences, NameAt, h1, h2, h3, h4, throwForth]⟩

/-- C8, an instance: the lone token `to`, in lower case. -/
theorem ProcessContextSequences_lone_keyword_witness :
    CheckMatch (tokenOf "to").fName kTO = true ∧
      ∃ e : ForthError,
        ProcessContextSequences idleEnv [tokenOf "to"] { fDataStack := [5] }
          = some (.error (.forthError e), [tokenOf "to"], { fDataStack := [5] }) :=
  ⟨by decide,
    ProcessContextSequences_lone_keyword idleEnv (tokenOf "to") { fDataStack := [5] }
      (Or.inr (Or.inr (Or.inl (by decide))))⟩

/-- C9: for every stream `CHAR t rest...` (the prefix in any letter case) where the token
`t` is not empty and its first character `c` is ASCII, `ProcessContextSequences` returns
normally, has pushed exactly the code of `c` on top of the unchanged data stack, has
removed exactly the two tokens `CHAR` and `t`, and has left the remaining tokens and the
rest of the machine unchanged. -/
theorem ProcessContextSequences_CHAR (env : Env) (lead t : Token) (rest : TokenStream)
    (m : Machine) (c : Letter) (cs : Name) (hlead : CheckMatch lead.fName kCHAR = true)
    (ht : t.fName = c :: cs) (hascii : c.toNat < 128) :
    ProcessContextSequences env (lead :: t :: rest) m
      = some (.ok (), rest, { m with fDataStack := c.toNat :: m.fDataStack }) := by
  have h1 := CheckMatch_exclusive kFIND hlead (by decide)
  have h2 := CheckMatch_exclusive kTick hlead (by decide)
  have h3 := CheckMatch_exclusive kTO hlead (by decide)
  have hmod : c.toNat % 256 = c.toNat := Nat.mod_eq_of_lt (by omega)
  have hneg : ¬ 128 ≤ c.toNat := by omega
  simp [ProcessContextSequences, NameAt, h1, h2, h3, hlead, ht, Erase_n_First_Words,
    BlindValueReInterpretation, sizeof_Letter, Char_2_Cell, Machine.PushData, Stack_Push, hmod,
    hneg]

/-- C9, an instance: `char Abc 7` pushes 65 and leaves the token `7`. -/
theorem ProcessContextSequences_CHAR_witness :
    ProcessContextSequences idleEnv [tokenOf "char", tokenOf "Abc", tokenOf "7"]
        { fDataStack := [3] }
      = some (.ok (), [tokenOf "7"], { fDataStack := [65, 3] }) :=
  ProcessContextSequences_CHAR idleEnv (tokenOf "char") (tokenOf "Abc") [tokenOf "7"]
    { fDataStack := [3] } 'A' "bc".toList (by decide) rfl (by decide)

/-- C10, refuted as stated: the single token `a"b"` ends with a quote and holds no NUL, yet
the text returned is `a`, the part before its first quote, not `a"b`. -/
theorem CollectText_inner_quote_counterexample :
    CollectTextUpToTokenContaining [{ fName := ['a', kQuote, 'b', kQuote] }, tokenOf "f"]
        kNulLetter kQuote
      = some ((true, ['a']), [tokenOf "f"]) ∧
      (['a'] : Name) ≠ List.intercalate [kSpace] [['a', kQuote, 'b']] :=
  ⟨by decide, by decide⟩

/-- C10, amended: for every token list `t1..tk` (`k >= 1`, no token containing a NUL
character) in which `t1..t(k-1)` contain no quote and `tk` contains exactly one quote, its
last character, `CollectTextUpToTokenContaining( ns, NUL, quote )` on a stream starting
with `t1..tk` returns `(true, s)` where `s` is `t1..t(k-1)` and `tk` without its final
quote joined by single spaces, removes exactly those `k` tokens from the stream and
leaves the following tokens unchanged. -/
theorem CollectText_up_to_closing_quote (pre : TokenStream) (last : Token) (body : Name)
    (rest : TokenStream)
    (hpre : ∀ t ∈ pre, kNulLetter ∉ t.fName ∧ kQuote ∉ t.fName)
    (hlast : last.fName = body ++ [kQuote]) (hnul : kNulLetter ∉ body)
    (hbody : kQuote ∉ body) :
    CollectTextUpToTokenContaining (pre ++ last :: rest) kNulLetter kQuote
      = some ((true, List.intercalate [kSpace] (pre.map (fun t => t.fName) ++ [body])),
          rest) := by
  have henter : kNulLetter ∉ last.fName := by
    rw [hlast]
    intro hmem
    rcases List.mem_append.mp hmem with h | h
    · exact hnul h
    · revert h
      decide
  have hfuel : pre.length < CollectBudget (pre ++ last :: rest) := by
    have := length_le_CollectBudget (pre ++ last :: rest)
    simp only [List.length_append, List.length_cons] at this
    omega
  have hloop := CollectLoop_plain kNulLetter kQuote pre last body [] rest hpre hlast henter
    hbody (CollectBudget (pre ++ last :: rest)) [] hfuel
  rw [CollectTextUpToTokenContaining, hloop, intercalate_snoc]
  simp [spaced, List.map_map, Function.comp_def]

/-- C10, an instance: `University of Science"` followed by the token `f`. -/
theorem CollectText_up_to_closing_quote_witness :
    CollectTextUpToTokenContaining
        [tokenOf "University", tokenOf "of", { fName := "Science".toList ++ [kQuote] },
          tokenOf "f"] kNulLetter kQuote
      = some ((true, "University of Science".toList), [tokenOf "f"]) :=
  CollectText_up_to_closing_quote [tokenOf "University", tokenOf "of"]
    { fName := "Science".toList ++ [kQuote] } "Science".toList [tokenOf "f"]
    (by decide) rfl (by decide) (by decide)

/-! ### Defining words -/

theorem getD_last_of_getLast? {l : List WordPtr} {a : WordPtr} (h : l.getLast? = some a) :
    l.length ≠ 0 ∧ l.getD (l.length - 1) 0 = a := by
  cases l with
  | nil => simp at h
  | cons x xs =>
    refine ⟨by simp, ?_⟩
    rw [List.getLast?_eq_getElem?] at h
    simp only [List.getD_eq_getElem?_getD, h, Option.getD_some]

/-- The defining word found by `ProcessDefiningWord`: what it does once the entry, the
`CompoWord` and its single `DOES` node are read. -/
theorem ProcessDefiningWord_of_does (env : Env) (word_name : Name) (ns : TokenStream)
    (m : Machine) (entry : WordEntry) (does_wrd B : WordPtr) (dbg : List DebugFileInfo)
    (hentry : GetWordEntry m word_name = some entry) (hdef : entry.fWordIsDefining = true)
    (hcompo : m.fHeap[entry.fWordUP]? = some (Word.CompoWord [does_wrd] dbg))
    (hdoes : m.fHeap[does_wrd]? = some (Word.DOES B)) :
    ProcessDefiningWord env word_name ns m
      = if ns.length ≤ 1 then
          some (throwForth "Syntax missing variable name for the defining word", m)
        else DefineFromDoes env word_name ns m does_wrd B := by
  simp only [ProcessDefiningWord, hentry, hdef, if_true, hcompo, hdoes]

/-- C11, refuted as stated: for the defining word `X` whose behaviour is empty, `X Y`
installs under `Y` a new `CompoWord` whose body is the single reference `[3]` to the
`RawByteArray` just created, not `[3, 2]`. -/
theorem defining_word_empty_behaviour_counterexample :
    (creatingEnv.call 1 (definingMachine [])).map (fun r => r.2.fNodeRepo.getLast?)
        = some (some 3) ∧
      (ProcessDefiningWord creatingEnv "X".toList [tokenOf "X", tokenOf "Y"]
          (definingMachine [])).map (fun r => (r.1, GetWordEntry r.2 "Y".toList, r.2.fHeap))
        = some (.ok true,
            some { fWordUP := 4, fWordComment := "DOES>X".toList },
            [Word.CompoWord [1] [], Word.DOES 2, Word.CompoWord [] [], Word.RawByteArray [],
              Word.CompoWord [3] []]) :=
  ⟨rfl, rfl⟩

/-- C11, amended: for `X newName` where `X` is flagged defining, the body of its
`CompoWord` is a single `DOES` node, and running its creation branch leaves a
`RawByteArray` `A` as the last node of the repository, `ProcessDefiningWord` returns
`true` and installs under `newName` a new `CompoWord` (at an address the heap did not
have) whose body is exactly `[A, B]` when the behaviour `CompoWord` `B` of the `DOES`
node is not empty, and exactly `[A]` when `B` is empty. -/
theorem ProcessDefiningWord_installs (env : Env) (word_name : Name) (tokX tokNew : Token)
    (rest : TokenStream) (m m1 : Machine) (entry : WordEntry) (does_wrd A B : WordPtr)
    (dbg : List DebugFileInfo) (bytes : List RawByte)
    (hentry : GetWordEntry m word_name = some entry) (hdef : entry.fWordIsDefining = true)
    (hcompo : m.fHeap[entry.fWordUP]? = some (Word.CompoWord [does_wrd] dbg))
    (hdoes : m.fHeap[does_wrd]? = some (Word.DOES B))
    (hcall : env.call does_wrd m = some (.ok (), m1))
    (hlast : m1.fNodeRepo.getLast? = some A)
    (harr : m1.fHeap[A]? = some (Word.RawByteArray bytes)) :
    ∃ (m2 : Machine) (e : WordEntry),
      ProcessDefiningWord env word_name (tokX :: tokNew :: rest) m = some (.ok true, m2) ∧
      GetWordEntry m2 tokNew.fName = some e ∧
      e.fWordUP = m1.fHeap.length ∧
      m2.fHeap = m1.fHeap ++
        [Word.CompoWord (if IsEmpty m1 B = true then [A] else [A, B]) []] ∧
      m2.fHeap[e.fWordUP]? =
        some (Word.CompoWord (if IsEmpty m1 B = true then [A] else [A, B]) []) := by
  obtain ⟨hlen, hget⟩ := getD_last_of_getLast? hlast
  have hpdw := ProcessDefiningWord_of_does env word_name (tokX :: tokNew :: rest) m entry
    does_wrd B dbg hentry hdef hcompo hdoes
  have hbody : ([A] ++ if (!IsEmpty m1 B) = true then [B] else [])
      = if IsEmpty m1 B = true then [A] else [A, B] := by
    cases IsEmpty m1 B <;> simp
  refine ⟨InsertWord_2_Dict m1 tokNew.fName (if IsEmpty m1 B = true then [A] else [A, B])
    (kDOES_G ++ word_name) false false false tokNew.fDebugFileInfo,
    { fWordUP := m1.fHeap.length, fWordComment := kDOES_G ++ word_name,
      fDebugFileInfo := tokNew.fDebugFileInfo }, ?_, ?_, rfl, rfl, ?_⟩
  · rw [hpdw]
    simp only [List.length_cons, DefineFromDoes, hcall, hlen, if_false, hget, harr, NameAt,
      hbody]
    simp
  · simp [GetWordEntry, InsertWord_2_Dict, List.lookup]
  · simp [InsertWord_2_Dict]

/-- C11, an instance of the amended claim: the defining word `X` with the behaviour `[7]`
installs under `Y` the body `[3, 2]`. -/
theorem ProcessDefiningWord_installs_witness :
    ∃ (m2 : Machine) (e : WordEntry),
      ProcessDefiningWord creatingEnv "X".toList [tokenOf "X", tokenOf "Y"]
          (definingMachine [7]) = some (.ok true, m2) ∧
      GetWordEntry m2 "Y".toList = some e ∧ m2.fHeap[e.fWordUP]? = some (Word.CompoWord [3, 2] []) := by
  obtain ⟨m2, e, h1, h2, -, -, h5⟩ := ProcessDefiningWord_installs creatingEnv "X".toList
    (tokenOf "X") (tokenOf "Y") [] (definingMachine [7])
    { definingMachine [7] with
      fHeap := (definingMachine [7]).fHeap ++ [Word.RawByteArray []], fNodeRepo := [3] }
    { fWordUP := 0, fWordIsDefining := true } 1 3 2 [] [] rfl rfl rfl rfl rfl rfl rfl
  exact ⟨m2, e, h1, h2, h5⟩

/-- C12: if a defining word `X` (flagged defining, its `CompoWord` holding a single `DOES`
node) is the last token of the stream, `ProcessDefiningWord` raises the `ForthError`
`Syntax missing variable name for the defining word` without running the creation
branch: the machine (data stack, return stack, node repository, dictionary) is
unchanged. -/
theorem ProcessDefiningWord_missing_name (env : Env) (tokX : Token) (m : Machine)
    (entry : WordEntry) (does_wrd B : WordPtr) (dbg : List DebugFileInfo)
    (hentry : GetWordEntry m tokX.fName = some entry) (hdef : entry.fWordIsDefining = true)
    (hcompo : m.fHeap[entry.fWordUP]? = some (Word.CompoWord [does_wrd] dbg))
    (hdoes : m.fHeap[does_wrd]? = some (Word.DOES B)) :
    ProcessDefiningWord env tokX.fName [tokX] m
      = some (.error (.forthError
          { what := "Syntax missing variable name for the defining word".toList }), m) := by
  rw [ProcessDefiningWord_of_does env tokX.fName [tokX] m entry does_wrd B dbg hentry hdef
    hcompo hdoes]
  simp [throwForth]

/-- C12, an instance: the lone token `X` on the machine whose only word is the defining
word `X`, an environment whose creation branch would change the machine. -/
theorem ProcessDefiningWord_missing_name_witness :
    ProcessDefiningWord creatingEnv "X".toList [tokenOf "X"] (definingMachine [7])
      = some (.error (.forthError
          { what := "Syntax missing variable name for the defining word".toList }),
          definingMachine [7]) :=
  ProcessDefiningWord_missing_name creatingEnv (tokenOf "X") (definingMachine [7])
    { fWordUP := 0, fWordIsDefining := true } 1 2 [] rfl rfl rfl rfl

/-- C13: if, after running the creation branch of a defining word `X`, the node
repository is empty or its last node is not a `RawByteArray`, then `X newName` raises
the `ForthError` `missing CREATE action in the defining word`, and the machine is
exactly as the creation branch left it: `ProcessDefiningWord` has put no new or changed
entry in the dictionary, for `newName` or any other name. -/
theorem ProcessDefiningWord_missing_CREATE (env : Env) (word_name : Name)
    (tokX tokNew : Token) (rest : TokenStream) (m m1 : Machine) (entry : WordEntry)
    (does_wrd B : WordPtr) (dbg : List DebugFileInfo)
    (hentry : GetWordEntry m word_name = some entry) (hdef : entry.fWordIsDefining = true)
    (hcompo : m.fHeap[entry.fWordUP]? = some (Word.CompoWord [does_wrd] dbg))
    (hdoes : m.fHeap[does_wrd]? = some (Word.DOES B))
    (hcall : env.call does_wrd m = some (.ok (), m1))
    (hrepo : m1.fNodeRepo = [] ∨
      ∃ p, m1.fNodeRepo.getLast? = some p ∧
        ∀ bytes, m1.fHeap[p]? ≠ some (Word.RawByteArray bytes)) :
    ∃ m2 : Machine,
      ProcessDefiningWord env word_name (tokX :: tokNew :: rest) m
        = some (.error (.forthError
            { what := "missing CREATE action in the defining word".toList }), m2) ∧
      m2 = m1 ∧ GetWordEntry m2 tokNew.fName = GetWordEntry m1 tokNew.fName := by
  refine ⟨m1, ?_, rfl, rfl⟩
  rw [ProcessDefiningWord_of_does env word_name (tokX :: tokNew :: rest) m entry does_wrd B
    dbg hentry hdef hcompo hdoes]
  rcases hrepo with hnil | ⟨p, hlast, hnot⟩
  · simp [DefineFromDoes, hcall, hnil, throwForth]
  · obtain ⟨hlen, hget⟩ := getD_last_of_getLast? hlast
    simp only [List.length_cons, DefineFromDoes, hcall, hlen, if_false, hget]
    cases hp : m1.fHeap[p]? with
    | none => simp [throwForth]
    | some w =>
      cases w with
      | RawByteArray bytes => exact absurd hp (hnot bytes)
      | CompoWord a b => simp [throwForth]
      | DOES a => simp [throwForth]
      | Leaf a => simp [throwForth]

/-- C13, an instance: the creation branch of `X` does nothing (the idle environment), so
the repository stays empty and `X Y` raises; the dictionary still has no word `Y`. -/
theorem ProcessDefiningWord_missing_CREATE_witness :
    ∃ m2 : Machine,
      ProcessDefiningWord idleEnv "X".toList [tokenOf "X", tokenOf "Y"] (definingMachine [7])
        = some (.error (.forthError
            { what := "missing CREATE action in the defining word".toList }), m2) ∧
      m2 = definingMachine [7] ∧
      GetWordEntry m2 "Y".toList = GetWordEntry (definingMachine [7]) "Y".toList :=
  ProcessDefiningWord_missing_CREATE idleEnv "X".toList (tokenOf "X") (tokenOf "Y") []
    (definingMachine [7]) (definingMachine [7]) { fWordUP := 0, fWordIsDefining := true } 1 2 []
    rfl rfl rfl rfl rfl (Or.inl rfl)

/-! ### Composite words -/

theorem CompoWord_plainLoop_trace (env : Env) (vec : List WordPtr) (m : Machine) :
    (CompoWord_plainLoop env vec m).1 <+: vec ∧
      ∀ m2, (CompoWord_plainLoop env vec m).2 = some (.ok (), m2) →
        (CompoWord_plainLoop env vec m).1 = vec := by
  induction vec generalizing m with
  | nil => simp [CompoWord_plainLoop]
  | cons op ops ih =>
    simp only [CompoWord_plainLoop]
    rcases hcall : env.call op m with _ | ⟨r, m1⟩
    · simp [List.prefix_cons_inj]
    · cases r with
      | error e => simp [List.prefix_cons_inj]
      | ok u =>
        obtain ⟨h1, h2⟩ := ih m1
        refine ⟨(List.prefix_cons_inj op).mpr h1, fun m2 hm2 => ?_⟩
        simp only [List.cons.injEq, true_and]
        exact h2 m2 hm2

theorem CompoWord_debugLoop_trace (env : Env) (vec : List WordPtr)
    (infos : List DebugFileInfo) (m : Machine) :
    (CompoWord_debugLoop env vec infos m).1 <+: vec ∧
      ∀ m2, (CompoWord_debugLoop env vec infos m).2 = some (.ok (), m2) →
        (CompoWord_debugLoop env vec infos m).1 = vec := by
  induction vec generalizing m infos with
  | nil => simp [CompoWord_debugLoop]
  | cons op ops ih =>
    simp only [CompoWord_debugLoop]
    rcases hcall : env.call op m with _ | ⟨r, m1⟩
    · simp [List.prefix_cons_inj]
    · cases r with
      | error e => simp [List.prefix_cons_inj]
      | ok u =>
        simp only
        rcases hdbg : CallDebugWord env (GetNameFromWordAddress m1 op) (infos.headD {}) m1
          with _ | ⟨r2, m2⟩
        · simp [List.prefix_cons_inj]
        · cases r2 with
          | error e => simp [List.prefix_cons_inj]
          | ok u2 =>
            obtain ⟨h1, h2⟩ := ih infos.tail m2
            refine ⟨(List.prefix_cons_inj op).mpr h1, fun m3 hm3 => ?_⟩
            simp only [List.cons.injEq, true_and]
            exact h2 m3 hm3

theorem CompoWord_plainLoop_seqCompose (env : Env) (vec : List WordPtr) (m : Machine) :
    (CompoWord_plainLoop env vec m).2 = seqCompose (vec.map env.call) m := by
  induction vec generalizing m with
  | nil => rfl
  | cons op ops ih =>
    simp only [CompoWord_plainLoop, seqCompose, List.map_cons, List.foldr_cons, andThen]
    rcases hcall : env.call op m with _ | ⟨r, m1⟩
    · rfl
    · cases r with
      | error e => rfl
      | ok u => exact ih m1

/-- C14, refuted as stated: the composite with the children `[10, 20]`, invoked with the
debugger on and a user answering `a` at the prompt that follows the first child, raises
after having executed the child `10` only, whereas the plain path (debugger off)
executes `10` and then `20`. -/
theorem CompoWord_debugger_abort_counterexample :
    CompoWord_call recordingEnv 0 [10, 20] [{}, {}] {}
        = ([10, 20], some (.ok (), { fDataStack := [20, 10] })) ∧
      CompoWord_call recordingEnv 0 [10, 20] [{}, {}]
          { fDebugMode_On := true, cin := "a".toList }
        = ([10], some (throwForth "DEBUGGING aborted by a user",
            { fDataStack := [10], fDebugMode_On := true })) :=
  ⟨rfl, rfl⟩

/-- C14, amended: an invocation of a Composite enters its child words in stored order
(the children entered are an initial part of the stored list, so none is entered twice),
and when the invocation returns normally every child has been executed exactly once,
first to last, on the plain path and on the debug-tracing path alike; on the plain path
(debugger off, or locators not matching the children) the effect on the machine is the
sequential composition of the effects of the children. -/
theorem CompoWord_call_children (env : Env) (self : WordPtr) (fWordsVec : List WordPtr)
    (fWordsDebugInfoVec : List DebugFileInfo) (m : Machine) :
    (CompoWord_call env self fWordsVec fWordsDebugInfoVec m).1 <+: fWordsVec ∧
      (∀ m2, (CompoWord_call env self fWordsVec fWordsDebugInfoVec m).2 = some (.ok (), m2) →
        (CompoWord_call env self fWordsVec fWordsDebugInfoVec m).1 = fWordsVec) ∧
      (m.fDebugMode_On = false ∨ fWordsDebugInfoVec.length ≠ fWordsVec.length →
        (CompoWord_call env self fWordsVec fWordsDebugInfoVec m).2
          = seqCompose (fWordsVec.map env.call) m) := by
  by_cases hpath : (m.IsDebug && fWordsDebugInfoVec.length == fWordsVec.length) = true
  · have hdbg : m.fDebugMode_On = true ∧ fWordsDebugInfoVec.length = fWordsVec.length := by
      simpa [Machine.IsDebug] using hpath
    have hnot : ¬ (m.fDebugMode_On = false ∨ fWordsDebugInfoVec.length ≠ fWordsVec.length) := by
      simp [hdbg.1, hdbg.2]
    simp only [CompoWord_call, hpath, if_true]
    rcases hann : CompoWord_announce env self m with _ | ⟨r, m1⟩
    · exact ⟨by simp, by simp, fun h => absurd h hnot⟩
    · cases r with
      | error e => exact ⟨by simp, by simp, fun h => absurd h hnot⟩
      | ok u =>
        obtain ⟨h1, h2⟩ := CompoWord_debugLoop_trace env fWordsVec fWordsDebugInfoVec m1
        exact ⟨h1, h2, fun h => absurd h hnot⟩
  · simp only [CompoWord_call, hpath, Bool.false_eq_true, if_false]
    obtain ⟨h1, h2⟩ := CompoWord_plainLoop_trace env fWordsVec m
    exact ⟨h1, h2, fun _ => CompoWord_plainLoop_seqCompose env fWordsVec m⟩

/-- C14, an instance of the amended claim: with the debugger on and a user answering `c`
at both prompts the invocation returns normally, having executed `10` and then `20`. -/
theorem CompoWord_call_children_witness :
    (CompoWord_call recordingEnv 0 [10, 20] [{}, {}]
        { fDebugMode_On := true, cin := "cc".toList }).2
        = some (.ok (), { fDataStack := [20, 10], fDebugMode_On := true }) ∧
      (CompoWord_call recordingEnv 0 [10, 20] [{}, {}]
        { fDebugMode_On := true, cin := "cc".toList }).1 = [10, 20] :=
  ⟨rfl, (CompoWord_call_children recordingEnv 0 [10, 20] [{}, {}]
    { fDebugMode_On := true, cin := "cc".toList }).2.1 _ rfl⟩

/-! ### The generator word `CO_RANGE` -/

theorem two_pow_63_int : (2 : Int) ^ 63 = 9223372036854775808 := by norm_num

theorem two_pow_64_int : (2 : Int) ^ 64 = 18446744073709551616 := by norm_num

theorem kCellModulus_int : ((kCellModulus : Nat) : Int) = 18446744073709551616 := by
  norm_num [kCellModulus]

theorem kCellModulus_nat : kCellModulus = 18446744073709551616 := by
  norm_num [kCellModulus]

theorem InSignedRange_iff (x : Int) :
    InSignedRange x ↔ -9223372036854775808 ≤ x ∧ x ≤ 9223372036854775807 := by
  unfold InSignedRange
  rw [two_pow_63_int]
  norm_num

theorem wrapSigned_of_inRange {x : Int} (h : InSignedRange x) : wrapSigned x = x := by
  rw [InSignedRange_iff] at h
  show ((x + (2 : Int) ^ 63) % (2 : Int) ^ 64 - (2 : Int) ^ 63 : Int) = x
  rw [two_pow_63_int, two_pow_64_int]
  omega

theorem SignedInt_2_Cell_eq (x : Int) :
    SignedInt_2_Cell x = (x % (18446744073709551616 : Int)).toNat := by
  unfold SignedInt_2_Cell
  rw [kCellModulus_int]

theorem SignedInt_2_Cell_lt (x : Int) :
    (SignedInt_2_Cell x : Nat) < (18446744073709551616 : Nat) := by
  rw [SignedInt_2_Cell_eq]
  have h : ((x % (18446744073709551616 : Int)).toNat : Nat) < (18446744073709551616 : Nat) := by
    omega
  exact h

theorem Cell_2_SignedInt_of_SignedInt {x : Int} (h : InSignedRange x) :
    Cell_2_SignedInt (SignedInt_2_Cell x) = x := by
  rw [InSignedRange_iff] at h
  have hlt := SignedInt_2_Cell_lt x
  have hmod : SignedInt_2_Cell x % kCellModulus = SignedInt_2_Cell x := by
    rw [kCellModulus_nat]
    exact Nat.mod_eq_of_lt hlt
  unfold Cell_2_SignedInt
  rw [hmod, kCellModulus_int]
  have hnat : (2 : Nat) ^ 63 = 9223372036854775808 := by norm_num
  rw [hnat, SignedInt_2_Cell_eq]
  show (if (x % (18446744073709551616 : Int)).toNat < (9223372036854775808 : Nat) then
      (((x % (18446744073709551616 : Int)).toNat : Nat) : Int)
    else (((x % (18446744073709551616 : Int)).toNat : Nat) : Int) - 18446744073709551616) = x
  split <;> omega

theorem BlindValueReInterpretation_cell (x : Int) :
    BlindValueReInterpretation 8 8 (SignedInt_2_Cell x) = SignedInt_2_Cell x := by
  have hlt := SignedInt_2_Cell_lt x
  simp only [BlindValueReInterpretation, gt_iff_lt, lt_self_iff_false, if_false]
  exact Nat.mod_eq_of_lt (by norm_num; exact hlt)

theorem range_value_succ (from_ step : Int) (j : Nat) :
    from_ + ((j + 1 : Nat) : Int) * step = from_ + (j : Int) * step + step := by
  push_cast
  ring

/-- The generator that `CoRange::operator()` leaves in an object that had one. -/
theorem CoRange_call_generator (f : CoRangeFrame) (m : Machine) :
    (CoRange_call (some f) m).1
      = some (if f.point ≠ .final then CoRange_resume f else f) := by
  simp only [CoRange_call]
  by_cases h : f.point ≠ .final
  · rw [if_pos h, if_pos h]
    by_cases h1 : (CoRange_resume f).point ≠ .final
    · rw [if_pos h1]
      cases (CoRange_resume f).value <;> rfl
    · rw [if_neg h1]
      cases (CoRange_resume f).value <;> rfl
  · rw [if_neg h, if_neg h]

theorem CoRange_resume_new (from_ to_ step : Int)
    (hvalid : (from_ < to_ ∧ step > 0) ∨ (from_ > to_ ∧ step < 0)) :
    CoRange_resume (CreateCoRange from_ to_ step) = CoRange_yielded to_ step from_ := by
  rcases hvalid with ⟨h1, h2⟩ | ⟨h1, h2⟩
  · have h3 : (0 : Int) < step := h2
    simp [CoRange_resume, CreateCoRange, CoRange_loopUp, CoRange_yielded, h1, h2, h3]
  · have h3 : ¬ (0 : Int) < step := by omega
    have h4 : ¬ from_ < to_ := by omega
    simp [CoRange_resume, CreateCoRange, CoRange_loopDown, CoRange_yielded, h1, h2, h3, h4]

theorem CoRange_resume_yielded (from_ to_ step x : Int)
    (hvalid : (from_ < to_ ∧ step > 0) ∨ (from_ > to_ ∧ step < 0))
    (hrange : InSignedRange (x + step)) :
    CoRange_resume (CoRange_yielded to_ step x)
      = if StrictlyBefore from_ to_ step (x + step) then CoRange_yielded to_ step (x + step)
        else CoRange_finished to_ step (x + step) true := by
  have hw := wrapSigned_of_inRange hrange
  rcases hvalid with ⟨h1, h2⟩ | ⟨h1, h2⟩
  · have h3 : (0 : Int) < step := h2
    have h4 : ¬ from_ > to_ := by omega
    by_cases hb : x + step < to_
    · simp [CoRange_resume, CoRange_loopUp, CoRange_yielded, StrictlyBefore, h1, h2, h3, h4,
        hw, hb]
    · simp [CoRange_resume, CoRange_loopUp, CoRange_yielded, CoRange_finished, StrictlyBefore,
        h1, h2, h3, h4, hw, hb]
  · have h3 : ¬ (0 : Int) < step := by omega
    have h4 : ¬ from_ < to_ := by omega
    by_cases hb : x + step > to_
    · simp [CoRange_resume, CoRange_loopDown, CoRange_yielded, StrictlyBefore, h1, h2, h3, h4,
        hw, hb]
    · simp [CoRange_resume, CoRange_loopDown, CoRange_yielded, CoRange_finished,
        StrictlyBefore, h1, h2, h3, h4, hw, hb]

theorem CoRange_yielded_point (to_ step x : Int) :
    (CoRange_yielded to_ step x).point ≠ .final := by
  unfold CoRange_yielded
  by_cases h : (0 : Int) < step <;> simp [h]

/-- Once a range is at or past its end it stays so. -/
theorem StrictlyBefore_mono (from_ to_ step x : Int)
    (h : ¬ StrictlyBefore from_ to_ step x) : ¬ StrictlyBefore from_ to_ step (x + step) := by
  unfold StrictlyBefore at h ⊢
  omega

theorem CoRange_call_yield (f : CoRangeFrame) (m : Machine) (b : Bool)
    (h : f.point ≠ .final) (h1 : (CoRange_resume f).point ≠ .final)
    (hv : (CoRange_resume f).value = .pointer b) :
    CoRange_call (some f) m
      = (some (CoRange_resume f), .ok (),
          { m with fDataStack := SignedInt_2_Cell (CoRange_resume f).first :: m.fDataStack }) := by
  simp only [CoRange_call]
  rw [if_pos h, if_pos h1, hv]
  simp only [BlindValueReInterpretation_cell, Machine.PushData, Stack_Push]

theorem CoRange_call_end (f : CoRangeFrame) (m : Machine) (b : Bool)
    (h : f.point ≠ .final) (h1 : (CoRange_resume f).point = .final)
    (hv : (CoRange_resume f).value = .pointer b) :
    CoRange_call (some f) m = (some (CoRange_resume f), .ok (), m) := by
  simp only [CoRange_call]
  rw [if_pos h, if_neg (by simp [h1]), hv]

theorem CoRange_call_raise (f : CoRangeFrame) (m : Machine) (e : ForthError)
    (h : f.point ≠ .final) (h1 : (CoRange_resume f).point = .final)
    (hv : (CoRange_resume f).value = .exception e) :
    CoRange_call (some f) m = (some (CoRange_resume f), .error (.forthError e), m) := by
  simp only [CoRange_call]
  rw [if_pos h, if_neg (by simp [h1]), hv]

theorem CoRange_call_done (f : CoRangeFrame) (m : Machine) (h : f.point = .final) :
    CoRange_call (some f) m = (some f, .ok (), m) := by
  simp only [CoRange_call]
  rw [if_neg (by simp [h])]

/-- One call of a `CoRange` word whose generator has the shape of index `j`: the cell
pushed, if any, and the shape of the generator afterwards. -/
theorem CoRange_call_of_shape (from_ to_ step : Int)
    (hvalid : (from_ < to_ ∧ step > 0) ∨ (from_ > to_ ∧ step < 0))
    (hno : ∀ j : Nat, StrictlyBefore from_ to_ step (from_ + (j : Int) * step) →
      InSignedRange (from_ + ((j + 1 : Nat) : Int) * step))
    (j : Nat) (g : CoRangeFrame) (hshape : RangeShape from_ to_ step j g) (m : Machine) :
    ∃ g2 : CoRangeFrame, RangeShape from_ to_ step (j + 1) g2 ∧
      CoRange_call (some g) m
        = (some g2, .ok (),
            if StrictlyBefore from_ to_ step (from_ + (j : Int) * step) then
              { m with
                fDataStack := SignedInt_2_Cell (from_ + (j : Int) * step) :: m.fDataStack }
            else m) := by
  rcases hshape with ⟨rfl, rfl⟩ | ⟨i, rfl, hbefore, rfl⟩ | ⟨i, x, b, rfl, hnot, rfl⟩
  · have hres := CoRange_resume_new from_ to_ step hvalid
    have hb : StrictlyBefore from_ to_ step (from_ + ((0 : Nat) : Int) * step) := by
      unfold StrictlyBefore
      simp only [Nat.cast_zero, zero_mul, add_zero]
      omega
    refine ⟨CoRange_yielded to_ step (from_ + ((0 : Nat) : Int) * step),
      Or.inr (Or.inl ⟨0, rfl, hb, rfl⟩), ?_⟩
    rw [CoRange_call_yield (CreateCoRange from_ to_ step) m true (by simp [CreateCoRange])
      (by rw [hres]; exact CoRange_yielded_point _ _ _) (by rw [hres]; rfl), hres, if_pos hb]
    simp [CoRange_yielded]
  · have hrange := hno i hbefore
    rw [range_value_succ] at hrange
    have hres := CoRange_resume_yielded from_ to_ step (from_ + (i : Int) * step) hvalid hrange
    have hpt := CoRange_yielded_point to_ step (from_ + (i : Int) * step)
    rw [range_value_succ]
    by_cases hb : StrictlyBefore from_ to_ step (from_ + (i : Int) * step + step)
    · rw [if_pos hb] at hres
      refine ⟨CoRange_yielded to_ step (from_ + ((i + 1 : Nat) : Int) * step),
        Or.inr (Or.inl ⟨i + 1, rfl, by rw [range_value_succ]; exact hb, rfl⟩), ?_⟩
      rw [CoRange_call_yield _ m true hpt (by rw [hres]; exact CoRange_yielded_point _ _ _)
        (by rw [hres]; rfl), hres, if_pos hb, range_value_succ]
      simp [CoRange_yielded]
    · rw [if_neg hb] at hres
      refine ⟨CoRange_finished to_ step (from_ + (i : Int) * step + step) true,
        Or.inr (Or.inr ⟨i + 1, _, true, rfl, by rw [range_value_succ]; exact hb, rfl⟩), ?_⟩
      rw [CoRange_call_end _ m true hpt (by rw [hres]; rfl) (by rw [hres]; rfl), hres,
        if_neg hb]
  · have hb : ¬ StrictlyBefore from_ to_ step (from_ + ((i + 1 : Nat) : Int) * step) := by
      rw [range_value_succ]
      exact StrictlyBefore_mono _ _ _ _ hnot
    refine ⟨CoRange_finished to_ step x b, Or.inr (Or.inr ⟨i + 1, x, b, rfl, hb, rfl⟩), ?_⟩
    rw [CoRange_call_done _ m rfl, if_neg hb]

/-- The first call of a `CoRange` word on a data stack holding the three cells. -/
theorem CoRange_call_first (from_ to_ step : Int) (hf : InSignedRange from_)
    (ht : InSignedRange to_) (hs : InSignedRange step) (m : Machine) (rest : List CellType)
    (hstack : m.fDataStack
      = SignedInt_2_Cell step :: SignedInt_2_Cell to_ :: SignedInt_2_Cell from_ :: rest) :
    CoRange_call none m
      = (some (CreateCoRange from_ to_ step), .ok (), { m with fDataStack := rest }) := by
  simp only [CoRange_call, hstack, Stack_Pop, Cell_2_SignedInt_of_SignedInt hf,
    Cell_2_SignedInt_of_SignedInt ht, Cell_2_SignedInt_of_SignedInt hs]

/-- The calls of a fresh `CoRange` word on a valid triple, up to call number `j + 1`: all
return normally and leave a generator of the shape of index `j`. -/
theorem CoRange_calls_shape (from_ to_ step : Int) (hf : InSignedRange from_)
    (ht : InSignedRange to_) (hs : InSignedRange step)
    (hvalid : (from_ < to_ ∧ step > 0) ∨ (from_ > to_ ∧ step < 0))
    (hno : ∀ j : Nat, StrictlyBefore from_ to_ step (from_ + (j : Int) * step) →
      InSignedRange (from_ + ((j + 1 : Nat) : Int) * step))
    (m : Machine) (rest : List CellType)
    (hstack : m.fDataStack
      = SignedInt_2_Cell step :: SignedInt_2_Cell to_ :: SignedInt_2_Cell from_ :: rest)
    (j : Nat) :
    ∃ (g : CoRangeFrame) (mj : Machine), RangeShape from_ to_ step j g ∧
      CoRange_calls (j + 1) none m = (some g, .ok (), mj) := by
  induction j with
  | zero =>
    refine ⟨CreateCoRange from_ to_ step, { m with fDataStack := rest }, Or.inl ⟨rfl, rfl⟩, ?_⟩
    simp only [CoRange_calls]
    exact CoRange_call_first from_ to_ step hf ht hs m rest hstack
  | succ j ih =>
    obtain ⟨g, mj, hshape, hcalls⟩ := ih
    obtain ⟨g2, hshape2, hcall⟩ := CoRange_call_of_shape from_ to_ step hvalid hno j g hshape mj
    exact ⟨g2, _, hshape2, by rw [CoRange_calls, hcalls]; exact hcall⟩

/-- C15: for a fresh `CO_RANGE` word called with `from_`, `to_`, `step` on the data stack
(`step` on top), the triple ascending or descending and no value computed by the
generator overflowing signed 64 bits: the first call returns normally, pops the three
cells and pushes nothing; for every `k = j + 1 >= 1` the first `k` calls return normally,
and call number `k + 1`, on whatever machine it is made, returns normally and pushes
exactly the cell of `from_ + (k - 1) * step` when that value is strictly before `to_`, and
otherwise leaves the machine unchanged. -/
theorem CoRange_yields_range (from_ to_ step : Int) (hf : InSignedRange from_)
    (ht : InSignedRange to_) (hs : InSignedRange step)
    (hvalid : (from_ < to_ ∧ step > 0) ∨ (from_ > to_ ∧ step < 0))
    (hno : ∀ j : Nat, StrictlyBefore from_ to_ step (from_ + (j : Int) * step) →
      InSignedRange (from_ + ((j + 1 : Nat) : Int) * step))
    (m : Machine) (rest : List CellType)
    (hstack : m.fDataStack
      = SignedInt_2_Cell step :: SignedInt_2_Cell to_ :: SignedInt_2_Cell from_ :: rest) :
    CoRange_calls 1 none m
        = (some (CreateCoRange from_ to_ step), .ok (), { m with fDataStack := rest }) ∧
      ∀ j : Nat, ∃ (g g2 : CoRangeFrame) (mj : Machine),
        CoRange_calls (j + 1) none m = (some g, .ok (), mj) ∧
        ∀ m2 : Machine,
          CoRange_call (some g) m2
            = (some g2, .ok (),
                if StrictlyBefore from_ to_ step (from_ + (j : Int) * step) then
                  { m2 with
                    fDataStack :=
                      SignedInt_2_Cell (from_ + (j : Int) * step) :: m2.fDataStack }
                else m2) := by
  refine ⟨?_, fun j => ?_⟩
  · simp only [CoRange_calls]
    exact CoRange_call_first from_ to_ step hf ht hs m rest hstack
  · obtain ⟨g, mj, hshape, hcalls⟩ :=
      CoRange_calls_shape from_ to_ step hf ht hs hvalid hno m rest hstack j
    have hgen : ∀ m2 : Machine, (CoRange_call (some g) m2).1
        = some (if g.point ≠ .final then CoRange_resume g else g) :=
      fun m2 => CoRange_call_generator g m2
    refine ⟨g, if g.point ≠ .final then CoRange_resume g else g, mj, hcalls, fun m2 => ?_⟩
    obtain ⟨g2, -, hcall⟩ := CoRange_call_of_shape from_ to_ step hvalid hno j g hshape m2
    have h1 := hgen m2
    rw [hcall] at h1
    simp only [Option.some.injEq] at h1
    rw [hcall, h1]

/-- C15, an instance: the range `0 3 1` on a stack that also holds 99; the fifth call,
on the stack `[2, 1, 0, 99]` that four calls leave, pushes nothing. -/
theorem CoRange_yields_range_witness :
    CoRange_calls 1 none { fDataStack := [1, 3, 0, 99] }
        = (some (CreateCoRange 0 3 1), .ok (), { fDataStack := [99] }) ∧
      (CoRange_calls 4 none { fDataStack := [1, 3, 0, 99] }).2.2.fDataStack = [2, 1, 0, 99] ∧
      (CoRange_calls 5 none { fDataStack := [1, 3, 0, 99] }).2.2.fDataStack = [2, 1, 0, 99] := by
  have h := CoRange_yields_range 0 3 1 (by decide) (by decide) (by decide)
    (Or.inl ⟨by decide, by decide⟩)
    (fun j hj => by
      unfold StrictlyBefore at hj
      rw [InSignedRange_iff]
      push_cast
      omega)
    { fDataStack := [1, 3, 0, 99] } [99] rfl
  exact ⟨h.1, rfl, rfl⟩

/-- C16, refuted as stated: the first call of a `CO_RANGE` word on the triple
`from = 5, to = 5, step = 1` does not fail: it returns normally with the three cells
popped and the generator stored, suspended before its body. -/
theorem CoRange_first_call_counterexample :
    ¬ ((5 : Int) < 5 ∧ (1 : Int) > 0) ∧ ¬ ((5 : Int) > 5 ∧ (1 : Int) < 0) ∧
      CoRange_call none { fDataStack := [1, 5, 5, 99] }
        = (some (CreateCoRange 5 5 1), .ok (), { fDataStack := [99] }) :=
  ⟨by decide, by decide, rfl⟩

/-- C16, amended: when the initialising (first) call of a `CO_RANGE` word pops a triple
that satisfies neither (`from < to` and `step > 0`) nor (`from > to` and `step < 0`),
including every triple with `from = to`, that call raises nothing (it pops the three
cells and stores the suspended generator); the next call of the word, on whatever
machine it is made, fails with the range error
`Wrong iteration parameters when creating CoRange` and leaves the machine as it was. -/
theorem CoRange_invalid_triple (from_ to_ step : Int) (hf : InSignedRange from_)
    (ht : InSignedRange to_) (hs : InSignedRange step)
    (hup : ¬ (from_ < to_ ∧ step > 0)) (hdown : ¬ (from_ > to_ ∧ step < 0))
    (m : Machine) (rest : List CellType)
    (hstack : m.fDataStack
      = SignedInt_2_Cell step :: SignedInt_2_Cell to_ :: SignedInt_2_Cell from_ :: rest) :
    CoRange_call none m
        = (some (CreateCoRange from_ to_ step), .ok (), { m with fDataStack := rest }) ∧
      ∀ m2 : Machine, ∃ g2 : CoRangeFrame,
        CoRange_call (some (CreateCoRange from_ to_ step)) m2
          = (some g2, .error (.forthError
              { what := "Wrong iteration parameters when creating CoRange".toList }), m2) := by
  refine ⟨CoRange_call_first from_ to_ step hf ht hs m rest hstack, fun m2 => ?_⟩
  have hres : CoRange_resume (CreateCoRange from_ to_ step)
      = { CreateCoRange from_ to_ step with
          point := .final, value := .exception kWrongIterationParameters } := by
    have h1 : ¬ ((CreateCoRange from_ to_ step).first < (CreateCoRange from_ to_ step).last ∧
        (CreateCoRange from_ to_ step).step > 0) := hup
    have h2 : ¬ ((CreateCoRange from_ to_ step).first > (CreateCoRange from_ to_ step).last ∧
        (CreateCoRange from_ to_ step).step < 0) := hdown
    have hp : (CreateCoRange from_ to_ step).point = .initial := rfl
    simp only [CoRange_resume, hp, h1, h2, if_false]
  refine ⟨_, CoRange_call_raise (CreateCoRange from_ to_ step) m2 kWrongIterationParameters
    (by simp [CreateCoRange]) (by rw [hres]) (by rw [hres])⟩

/-- C16, an instance of the amended claim: the triple `5 5 1`. -/
theorem CoRange_invalid_triple_witness :
    CoRange_calls 1 none { fDataStack := [1, 5, 5, 99] }
        = (some (CreateCoRange 5 5 1), .ok (), { fDataStack := [99] }) ∧
      ∃ g2 : CoRangeFrame,
        CoRange_call (some (CreateCoRange 5 5 1)) { fDataStack := [99] }
          = (some g2, .error (.forthError
              { what := "Wrong iteration parameters when creating CoRange".toList }),
              { fDataStack := [99] }) :=
  have h := CoRange_invalid_triple 5 5 1 (by decide) (by decide) (by decide) (by decide)
    (by decide) { fDataStack := [1, 5, 5, 99] } [99] rfl
  ⟨h.1, h.2 { fDataStack := [99] }⟩

/-! ### Fibers -/

theorem CoRoFiber_call_nodup (fHandle : CoroHandle) (fAssocWord : WordPtr) (w : FiberWorld)
    (h : w.fCoroScheduler.Nodup) :
    (CoRoFiber_call fHandle fAssocWord w).2.2.fCoroScheduler.Nodup := by
  unfold CoRoFiber_call
  by_cases h0 : fHandle = 0
  · simp only [h0, if_true]
    cases h1 : Stack_Pop w.machine.fDataStack with
    | none => exact h
    | some r1 =>
      obtain ⟨t, s1⟩ := r1
      simp only
      cases h2 : Stack_Pop s1 with
      | none => exact h
      | some r2 => exact h
  · simp only [h0, if_false]
    by_cases hmem : fHandle ∈ w.fCoroScheduler
    · simp only [hmem, if_true]
      exact h
    · simp only [hmem, if_false]
      exact List.Nodup.append h (List.nodup_singleton _) (by simpa using hmem)

theorem FiberWorld.resume_queue (env : Env) (clock : Nat → Int) (fuel : Nat) (w w1 : FiberWorld)
    (hdl : CoroHandle) (r : Except Thrown Unit)
    (h : w.resume env clock fuel hdl = some (r, w1)) :
    w1.fCoroScheduler = w.fCoroScheduler := by
  unfold FiberWorld.resume at h
  cases hf : w.frames[hdl - 1]? with
  | none =>
    simp only [hf, Option.some.injEq, Prod.mk.injEq] at h
    rw [← h.2]
  | some f =>
    simp only [hf] at h
    cases hres : Fiber_resume env clock fuel f w.machine w.clockReads with
    | none => simp [hres] at h
    | some q =>
      obtain ⟨r1, f1, m1, reads1⟩ := q
      simp only [hres, Option.some.injEq, Prod.mk.injEq] at h
      rw [← h.2]

theorem ProcessCoros_loop_nodup (env : Env) (clock : Nat → Int) (fuel : Nat) :
    ∀ (steps i : Nat) (w w1 : FiberWorld) (r : Except Thrown Unit),
      w.fCoroScheduler.Nodup → ProcessCoros_loop env clock fuel steps i w = some (r, w1) →
      w1.fCoroScheduler.Nodup := by
  intro steps
  induction steps with
  | zero =>
    intro i w w1 r hnd h
    simp only [ProcessCoros_loop] at h
    split at h
    · simp at h
    · simp only [Option.some.injEq, Prod.mk.injEq] at h
      rw [← h.2]
      exact hnd
  | succ steps ih =>
    intro i w w1 r hnd h
    simp only [ProcessCoros_loop] at h
    split at h
    · split at h
      · cases hres : w.resume env clock fuel (w.fCoroScheduler.getD i 0) with
        | none =>
          rw [hres] at h
          simp at h
        | some q =>
          obtain ⟨r2, w2⟩ := q
          have hq := FiberWorld.resume_queue env clock fuel w w2 _ r2 hres
          rw [hres] at h
          cases r2 with
          | error e =>
            simp only [Option.some.injEq, Prod.mk.injEq] at h
            rw [← h.2, hq]
            exact hnd
          | ok u => exact ih (i + 1) w2 w1 r (by rw [hq]; exact hnd) h
      · exact ih (i + 1) _ w1 r (List.Nodup.sublist (List.eraseIdx_sublist _ _) hnd) h
    · simp only [Option.some.injEq, Prod.mk.injEq] at h
      rw [← h.2]
      exact hnd

/-- C17: the fiber ready-queue never contains the same coroutine handle twice: starting
from a duplicate-free queue, every sequence of invocations of `CO_FIBER` words and of
scheduler sweeps (`ProcessCoros`) that runs to its end leaves it duplicate-free, and
invoking a fiber word whose handle is already enqueued leaves the queue, and the whole
world, unchanged. -/
theorem fiber_queue_duplicate_free (env : Env) (clock : Nat → Int) :
    (∀ (ops : List FiberOp) (w w1 : FiberWorld), w.fCoroScheduler.Nodup →
        runFiberOps env clock ops w = some w1 → w1.fCoroScheduler.Nodup) ∧
      ∀ (fHandle : CoroHandle) (fAssocWord : WordPtr) (w : FiberWorld), fHandle ≠ 0 →
        fHandle ∈ w.fCoroScheduler →
        CoRoFiber_call fHandle fAssocWord w = (fHandle, .ok (), w) := by
  constructor
  · intro ops
    induction ops with
    | nil =>
      intro w w1 hnd h
      simp only [runFiberOps, Option.some.injEq] at h
      rw [← h]
      exact hnd
    | cons op ops ih =>
      intro w w1 hnd h
      cases op with
      | invoke fHandle fAssocWord =>
        simp only [runFiberOps] at h
        exact ih _ w1 (CoRoFiber_call_nodup fHandle fAssocWord w hnd) h
      | sweep fuel =>
        simp only [runFiberOps] at h
        cases hs : ProcessCoros env clock fuel w with
        | none => simp [hs] at h
        | some q =>
          obtain ⟨r, w2⟩ := q
          simp only [hs] at h
          exact ih w2 w1 (ProcessCoros_loop_nodup env clock fuel _ 0 w w2 r hnd hs) h
  · intro fHandle fAssocWord w h0 hmem
    simp [CoRoFiber_call, h0, hmem]

/-- C17, an instance: a fiber word is created, registered, invoked again, swept and
invoked once more; the queue holds its handle once. -/
theorem fiber_queue_duplicate_free_witness :
    ∃ w1 : FiberWorld,
      runFiberOps statusOneEnv (fun n => 60 * (n : Int))
        [.invoke 0 7, .invoke 1 7, .invoke 1 7, .sweep 5, .invoke 1 7]
        { machine := { fDataStack := [50, 3] } } = some w1 ∧
      w1.fCoroScheduler = [1] ∧ w1.fCoroScheduler.Nodup := by
  have hq : (runFiberOps statusOneEnv (fun n => 60 * (n : Int))
      [.invoke 0 7, .invoke 1 7, .invoke 1 7, .sweep 5, .invoke 1 7]
      { machine := { fDataStack := [50, 3] } }).map (fun w => w.fCoroScheduler)
      = some [1] := rfl
  obtain ⟨w1, h1⟩ : ∃ w1, runFiberOps statusOneEnv (fun n => 60 * (n : Int))
      [.invoke 0 7, .invoke 1 7, .invoke 1 7, .sweep 5, .invoke 1 7]
      { machine := { fDataStack := [50, 3] } } = some w1 := ⟨_, rfl⟩
  rw [h1] at hq
  exact ⟨w1, h1, by simpa using hq,
    (fiber_queue_duplicate_free statusOneEnv (fun n => 60 * (n : Int))).1 _ _ w1
      List.nodup_nil h1⟩
theorem wrapInt32_of_small (x : Int) (h0 : 0 ≤ x) (h1 : x < 2 ^ 31) : wrapInt32 x = x := by
  have e31 : ((2 : Int) ^ 31) = 2147483648 := by norm_num
  have e32 : ((2 : Int) ^ 32) = 4294967296 := by norm_num
  rw [e31] at h1
  unfold wrapInt32
  rw [e31, e32]
  omega

/-- The loop of a fiber of `r` rotations whose body always leaves a non-zero cell, entered
at the iteration `i` after `i` body calls: it returns, done after `r` body calls or
awaiting inside an iteration. -/
theorem Fiber_loop_onTrack (env : Env) (clock : Nat → Int) (r : Int) (p : WordPtr)
    (hr : r < 2 ^ 31)
    (hbody : ∀ m : Machine, ∃ m1 v s,
      env.call p m = some (.ok (), m1) ∧ m1.fDataStack = v :: s ∧ v ≠ 0) :
    ∀ (fuel : Nat) (f : FiberFrame) (m : Machine) (reads : Nat),
      f.rotations = r → f.p = p → 0 ≤ f.i → f.i ≤ r → (f.bodyCalls : Int) = f.i →
      r - f.i < (fuel : Int) →
      ∃ f1 m1 reads1, Fiber_loop env clock fuel f m reads = some (.ok (), f1, m1, reads1) ∧
        FiberOnTrack r p f1 ∧ f1.point ≠ .initial ∧
        (f1.point = .final ∨ f.bodyCalls < f1.bodyCalls) := by
  intro fuel
  induction fuel with
  | zero =>
    intro f m reads _ _ _ hi _ hfuel
    exfalso
    have : r - f.i < 0 := by simpa using hfuel
    omega
  | succ fuel ih =>
    intro f m reads hrot hp h0 hi hcalls hfuel
    have hpre : (f.rotations == -1) = false := by
      rw [hrot]
      have : r ≠ -1 := by omega
      simpa using this
    simp only [Fiber_loop, hpre, Bool.false_eq_true, false_or]
    by_cases hlt : f.i < f.rotations
    · rw [if_pos hlt]
      obtain ⟨m1, v, s, hcall, hstack, hv⟩ := hbody m
      rw [← hp] at hcall
      rw [hcall]
      simp only [hstack, Stack_Pop, if_neg hv]
      rw [hrot] at hlt
      by_cases hclock : clock reads - f.tp0 > f.time_slice
      · rw [if_pos hclock]
        refine ⟨_, _, _, rfl, ⟨hrot, hp, ?_⟩, by simp, Or.inr (by simp)⟩
        simp only
        refine ⟨h0, hlt, ?_⟩
        push_cast
        omega
      · rw [if_neg hclock]
        have hw : wrapInt32 (f.i + 1) = f.i + 1 :=
          wrapInt32_of_small _ (by omega) (by omega)
        rw [hw]
        obtain ⟨f1, m2, reads1, hloop, htrack, hne, hprog⟩ :=
          ih { f with bodyCalls := f.bodyCalls + 1, statuses := v :: f.statuses,
                      i := f.i + 1 }
            { m1 with fDataStack := s } (reads + 1) hrot hp (by simp only; omega)
            (by simp only; omega) (by simp only; push_cast; omega)
            (by simp only; push_cast at hfuel; omega)
        refine ⟨f1, m2, reads1, hloop, htrack, hne, ?_⟩
        rcases hprog with h | h
        · exact Or.inl h
        · exact Or.inr (by simp only at h; omega)
    · rw [if_neg hlt]
      refine ⟨_, _, _, rfl, ⟨hrot, hp, ?_⟩, by simp, Or.inl rfl⟩
      simp only
      rw [hrot] at hlt
      omega

/-- One resume of a fiber of `r` rotations that is not done and whose body always leaves a
non-zero cell: it returns, the frame stays on track, and the fiber is done or has made a
further body call. -/
theorem Fiber_resume_onTrack (env : Env) (clock : Nat → Int) (r : Int) (p : WordPtr)
    (hr0 : 0 ≤ r) (hr : r < 2 ^ 31)
    (hbody : ∀ m : Machine, ∃ m1 v s,
      env.call p m = some (.ok (), m1) ∧ m1.fDataStack = v :: s ∧ v ≠ 0)
    (fuel : Nat) (hfuel : r < (fuel : Int)) (f : FiberFrame) (m : Machine) (reads : Nat)
    (htrack : FiberOnTrack r p f) (hne : f.point ≠ .final) :
    ∃ f1 m1 reads1, Fiber_resume env clock fuel f m reads = some (.ok (), f1, m1, reads1) ∧
      FiberOnTrack r p f1 ∧ (f1.point = .final ∨ f.bodyCalls < f1.bodyCalls) := by
  obtain ⟨hrot, hp, hpt⟩ := htrack
  have e31 : ((2 : Int) ^ 31) = 2147483648 := by norm_num
  cases hpoint : f.point with
  | initial =>
    rw [hpoint] at hpt
    simp only at hpt
    obtain ⟨f1, m1, reads1, hloop, ht, _, hprog⟩ :=
      Fiber_loop_onTrack env clock r p hr hbody fuel { f with tp0 := clock reads, i := 0 } m
        (reads + 1) hrot hp (le_refl _) hr0 (by simp only; rw [hpt]; rfl)
        (by simp only; omega)
    refine ⟨f1, m1, reads1, ?_, ht, hprog⟩
    simp only [hpoint] at hloop
    simp only [Fiber_resume, hpoint]
    exact hloop
  | awaiting =>
    rw [hpoint] at hpt
    simp only at hpt
    obtain ⟨hi0, hir, hcalls⟩ := hpt
    have hw : wrapInt32 (f.i + 1) = f.i + 1 :=
      wrapInt32_of_small _ (by omega) (by omega)
    obtain ⟨f1, m1, reads1, hloop, ht, _, hprog⟩ :=
      Fiber_loop_onTrack env clock r p hr hbody fuel
        { f with tp0 := clock reads, i := f.i + 1 } m (reads + 1) hrot hp
        (by simp only; omega) (by simp only; omega) (by simp only; omega)
        (by simp only; omega)
    refine ⟨f1, m1, reads1, ?_, ht, hprog⟩
    simp only [hpoint] at hloop
    simp only [Fiber_resume, hpoint, hw]
    exact hloop
  | final => exact absurd hpoint hne

theorem Fiber_life_final (env : Env) (clock : Nat → Int) (fuel n : Nat) (f : FiberFrame)
    (m : Machine) (reads : Nat) (h : f.point = .final) :
    Fiber_life env clock fuel n f m reads = some (.ok (), f, m, reads) := by
  cases n with
  | zero => rfl
  | succ n => simp only [Fiber_life, h, if_true]

theorem FiberOnTrack_bound (r : Int) (p : WordPtr) (hr0 : 0 ≤ r) (f : FiberFrame)
    (h : FiberOnTrack r p f) :
    (f.bodyCalls : Int) ≤ r ∧ (f.point = .final → (f.bodyCalls : Int) = r) := by
  obtain ⟨_, _, hpt⟩ := h
  cases hpoint : f.point with
  | initial =>
    rw [hpoint] at hpt
    simp only at hpt
    rw [hpt]
    exact ⟨by simpa using hr0, fun h => by cases h⟩
  | awaiting =>
    rw [hpoint] at hpt
    simp only at hpt
    exact ⟨by omega, fun h => by cases h⟩
  | final =>
    rw [hpoint] at hpt
    simp only at hpt
    exact ⟨by omega, fun _ => hpt⟩

/-- The life of a fiber of `r` rotations whose body always leaves a non-zero cell, from
any frame on track: every number of resumes returns with the frame on track, and more
resumes than body calls are left make the fiber done. -/
theorem Fiber_life_onTrack (env : Env) (clock : Nat → Int) (r : Int) (p : WordPtr)
    (hr0 : 0 ≤ r) (hr : r < 2 ^ 31)
    (hbody : ∀ m : Machine, ∃ m1 v s,
      env.call p m = some (.ok (), m1) ∧ m1.fDataStack = v :: s ∧ v ≠ 0)
    (fuel : Nat) (hfuel : r < (fuel : Int)) :
    ∀ (n : Nat) (f : FiberFrame) (m : Machine) (reads : Nat), FiberOnTrack r p f →
      ∃ f1 m1 reads1, Fiber_life env clock fuel n f m reads = some (.ok (), f1, m1, reads1) ∧
        FiberOnTrack r p f1 ∧ (r - (f.bodyCalls : Int) < (n : Int) → f1.point = .final) := by
  intro n
  induction n with
  | zero =>
    intro f m reads htrack
    refine ⟨f, m, reads, rfl, htrack, fun h => ?_⟩
    have := (FiberOnTrack_bound r p hr0 f htrack).1
    have h2 : r - (f.bodyCalls : Int) < 0 := by simpa using h
    omega
  | succ n ih =>
    intro f m reads htrack
    by_cases hfin : f.point = .final
    · exact ⟨f, m, reads, Fiber_life_final env clock fuel _ f m reads hfin, htrack,
        fun _ => hfin⟩
    · obtain ⟨f1, m1, reads1, hres, ht1, hprog⟩ :=
        Fiber_resume_onTrack env clock r p hr0 hr hbody fuel hfuel f m reads htrack hfin
      simp only [Fiber_life, if_neg hfin, hres]
      rcases hprog with h | h
      · exact ⟨f1, m1, reads1, Fiber_life_final env clock fuel n f1 m1 reads1 h, ht1,
          fun _ => h⟩
      · obtain ⟨f2, m2, reads2, hlife, ht2, hdone⟩ := ih f1 m1 reads1 ht1
        refine ⟨f2, m2, reads2, hlife, ht2, fun hn => hdone ?_⟩
        push_cast at hn
        omega

/-- C18: a fiber created with rotations `r`, `0 ≤ r < 2 ^ 31`, whose body always returns
and leaves a non-zero cell: whatever the clock readings and the time slice, so however
the resumes split its run, any number `n` of resumes returns without an error, the body
has then been executed at most `r` times, exactly `r` times once the fiber is done, and
after more than `r` resumes the fiber is done; for `r = 0` the body is never executed.
The budget of one resume is `fuel`, more than `r` iterations. -/
theorem fiber_runs_rotations (env : Env) (clock : Nat → Int) (r time_slice : Int)
    (p : WordPtr) (fuel n : Nat) (m : Machine) (reads : Nat)
    (hr0 : 0 ≤ r) (hr : r < 2 ^ 31)
    (hbody : ∀ m : Machine, ∃ m1 v s,
      env.call p m = some (.ok (), m1) ∧ m1.fDataStack = v :: s ∧ v ≠ 0)
    (hfuel : r < (fuel : Int)) :
    ∃ f m1 reads1,
      Fiber_life env clock fuel n (CreateFiberCoro r time_slice p) m reads
        = some (.ok (), f, m1, reads1) ∧
      (f.bodyCalls : Int) ≤ r ∧ (f.point = .final → (f.bodyCalls : Int) = r) ∧
      (r < (n : Int) → f.point = .final) := by
  obtain ⟨f, m1, reads1, hlife, htrack, hdone⟩ :=
    Fiber_life_onTrack env clock r p hr0 hr hbody fuel hfuel n
      (CreateFiberCoro r time_slice p) m reads ⟨rfl, rfl, rfl⟩
  have hb := FiberOnTrack_bound r p hr0 f htrack
  exact ⟨f, m1, reads1, hlife, hb.1, hb.2, fun hn => hdone (by
    have : ((CreateFiberCoro r time_slice p).bodyCalls : Int) = 0 := rfl
    rw [this]
    omega)⟩

/-- C18, an instance: three rotations of a body leaving 1, a time slice of 50 ms and a
clock advancing 60 ms a reading: after four resumes the body has run three times and the
fiber is done. -/
theorem fiber_runs_rotations_witness :
    (∃ f m1 reads1,
      Fiber_life statusOneEnv (fun n => 60 * (n : Int)) 4 4 (CreateFiberCoro 3 50 7) {} 0
        = some (.ok (), f, m1, reads1) ∧
      (f.bodyCalls : Int) ≤ 3 ∧ (f.point = .final → (f.bodyCalls : Int) = 3) ∧
      (3 < ((4 : Nat) : Int) → f.point = .final)) ∧
    (Fiber_life statusOneEnv (fun n => 60 * (n : Int)) 4 4 (CreateFiberCoro 3 50 7) {} 0).map
      (fun q => (q.2.1.bodyCalls, q.2.1.point)) = some (3, .final) :=
  ⟨fiber_runs_rotations statusOneEnv (fun n => 60 * (n : Int)) 3 50 7 4 4 {} 0
    (by decide) (by decide)
    (fun m => ⟨m.PushData 1, 1, m.fDataStack, rfl, rfl, by decide⟩) (by decide), rfl⟩
/-- The loop of a fiber of endless rotations whose body always leaves a status cell,
entered after body calls that all left a non-zero status: if it returns, it raised
nothing and the frame stops at a status 0. -/
theorem Fiber_loop_stops (env : Env) (clock : Nat → Int) (p : WordPtr)
    (hbody : ∀ m : Machine, ∃ m1 v s,
      env.call p m = some (.ok (), m1) ∧ m1.fDataStack = v :: s) :
    ∀ (fuel : Nat) (f : FiberFrame) (m : Machine) (reads : Nat) (r : Except Thrown Unit)
      (f1 : FiberFrame) (m1 : Machine) (reads1 : Nat),
      f.rotations = -1 → f.p = p → f.bodyCalls = f.statuses.length →
      (∀ t ∈ f.statuses, t ≠ 0) →
      Fiber_loop env clock fuel f m reads = some (r, f1, m1, reads1) →
      r = .ok () ∧ FiberStops p f1 := by
  intro fuel
  induction fuel with
  | zero =>
    intro f m reads r f1 m1 reads1 _ _ _ _ h
    simp [Fiber_loop] at h
  | succ fuel ih =>
    intro f m reads r f1 m1 reads1 hrot hp hcalls hall h
    have hpre : (f.rotations == -1) = true := by
      rw [hrot]
      rfl
    obtain ⟨m2, v, s, hcall, hstack⟩ := hbody m
    rw [← hp] at hcall
    simp only [Fiber_loop, hpre, true_or, if_true, hcall, hstack, Stack_Pop] at h
    by_cases hv : v = 0
    · rw [if_pos hv] at h
      simp only [Option.some.injEq, Prod.mk.injEq] at h
      obtain ⟨hr, hf, _, _⟩ := h
      refine ⟨hr.symm, ?_⟩
      rw [← hf]
      refine ⟨hrot, hp, ?_, ?_, ?_⟩
      · simp only [List.length_cons]
        omega
      · simp [hv]
      · simpa using hall
    · rw [if_neg hv] at h
      by_cases hclock : clock reads - f.tp0 > f.time_slice
      · rw [if_pos hclock] at h
        simp only [Option.some.injEq, Prod.mk.injEq] at h
        obtain ⟨hr, hf, _, _⟩ := h
        refine ⟨hr.symm, ?_⟩
        rw [← hf]
        refine ⟨hrot, hp, ?_, ?_, ?_⟩
        · simp only [List.length_cons]
          omega
        · simp [hv]
        · simpa using hall
      · rw [if_neg hclock] at h
        refine ih _ _ _ r f1 m1 reads1 ?_ ?_ ?_ ?_ h
        · exact hrot
        · exact hp
        · simp only [List.length_cons]
          omega
        · intro t ht
          simp only [List.mem_cons] at ht
          rcases ht with ht | ht
          · rw [ht]
            exact hv
          · exact hall t ht

theorem FiberStops_nonzero (p : WordPtr) (f : FiberFrame) (h : FiberStops p f)
    (hne : f.point ≠ .final) : ∀ t ∈ f.statuses, t ≠ 0 := by
  obtain ⟨_, _, _, hiff, htail⟩ := h
  intro t ht
  cases hs : f.statuses with
  | nil => simp [hs] at ht
  | cons a rest =>
    rw [hs] at ht htail hiff
    simp only [List.mem_cons] at ht
    rcases ht with ht | ht
    · intro h0
      apply hne
      rw [hiff, ← ht, h0]
      rfl
    · exact htail t (by simpa using ht)

/-- One resume of a fiber of endless rotations that is not done and whose body always
leaves a status cell: if it returns, it raised nothing and the frame still stops at a
status 0. -/
theorem Fiber_resume_stops (env : Env) (clock : Nat → Int) (p : WordPtr)
    (hbody : ∀ m : Machine, ∃ m1 v s,
      env.call p m = some (.ok (), m1) ∧ m1.fDataStack = v :: s)
    (fuel : Nat) (f : FiberFrame) (m : Machine) (reads : Nat) (r : Except Thrown Unit)
    (f1 : FiberFrame) (m1 : Machine) (reads1 : Nat)
    (hstops : FiberStops p f) (hne : f.point ≠ .final)
    (h : Fiber_resume env clock fuel f m reads = some (r, f1, m1, reads1)) :
    r = .ok () ∧ FiberStops p f1 := by
  have hall := FiberStops_nonzero p f hstops hne
  obtain ⟨hrot, hp, hcalls, _, _⟩ := hstops
  cases hpoint : f.point with
  | initial =>
    simp only [Fiber_resume, hpoint] at h
    exact Fiber_loop_stops env clock p hbody fuel _ m _ r f1 m1 reads1 (by exact hrot)
      (by exact hp) (by exact hcalls) (by exact hall) h
  | awaiting =>
    simp only [Fiber_resume, hpoint] at h
    exact Fiber_loop_stops env clock p hbody fuel _ m _ r f1 m1 reads1 (by exact hrot)
      (by exact hp) (by exact hcalls) (by exact hall) h
  | final => exact absurd hpoint hne

/-- The life of a fiber of endless rotations whose body always leaves a status cell: if
its resumes return, none raised and the frame stops at a status 0. -/
theorem Fiber_life_stops (env : Env) (clock : Nat → Int) (p : WordPtr)
    (hbody : ∀ m : Machine, ∃ m1 v s,
      env.call p m = some (.ok (), m1) ∧ m1.fDataStack = v :: s)
    (fuel : Nat) :
    ∀ (n : Nat) (f : FiberFrame) (m : Machine) (reads : Nat) (r : Except Thrown Unit)
      (f1 : FiberFrame) (m1 : Machine) (reads1 : Nat), FiberStops p f →
      Fiber_life env clock fuel n f m reads = some (r, f1, m1, reads1) →
      r = .ok () ∧ FiberStops p f1 := by
  intro n
  induction n with
  | zero =>
    intro f m reads r f1 m1 reads1 hstops h
    simp only [Fiber_life, Option.some.injEq, Prod.mk.injEq] at h
    obtain ⟨hr, hf, _, _⟩ := h
    rw [← hf]
    exact ⟨hr.symm, hstops⟩
  | succ n ih =>
    intro f m reads r f1 m1 reads1 hstops h
    by_cases hfin : f.point = .final
    · simp only [Fiber_life, hfin, if_true, Option.some.injEq, Prod.mk.injEq] at h
      obtain ⟨hr, hf, _, _⟩ := h
      rw [← hf]
      exact ⟨hr.symm, hstops⟩
    · simp only [Fiber_life, if_neg hfin] at h
      cases hres : Fiber_resume env clock fuel f m reads with
      | none =>
        rw [hres] at h
        simp at h
      | some q =>
        obtain ⟨r2, f2, m2, reads2⟩ := q
        have h2 := Fiber_resume_stops env clock p hbody fuel f m reads r2 f2 m2 reads2
          hstops hfin hres
        rw [hres, h2.1] at h
        exact ih f2 m2 reads2 r f1 m1 reads1 h2.2 h

theorem countdownEnv_leaves_status (p : WordPtr) (m : Machine) :
    ∃ m1 v s, countdownEnv.call p m = some (.ok (), m1) ∧ m1.fDataStack = v :: s := by
  cases hs : m.fDataStack with
  | nil => exact ⟨{ m with fDataStack := [0] }, 0, [], by simp only [countdownEnv, hs], rfl⟩
  | cons c s =>
    cases c with
    | zero =>
      exact ⟨{ m with fDataStack := 0 :: 0 :: s }, 0, 0 :: s,
        by simp only [countdownEnv, hs], rfl⟩
    | succ c =>
      exact ⟨{ m with fDataStack := 1 :: c :: s }, 1, c :: s,
        by simp only [countdownEnv, hs], rfl⟩

/-- C19, counterexample: a fiber of rotations -1 whose body leaves no status cell is
done after its first resume, which raises the empty-stack error, although no iteration
popped a status 0. -/
theorem fiber_done_without_zero_counterexample :
    ∃ f m1 reads1,
      Fiber_resume idleEnv (fun n => (n : Int)) 5 (CreateFiberCoro (-1) 50 7) {} 0
        = some (.error (.forthError kEmptyStackFiber), f, m1, reads1) ∧
      f.point = .final ∧ f.statuses = [] ∧ f.bodyCalls = 1 :=
  ⟨_, _, _, rfl, rfl, rfl, rfl⟩

/-- One sweep of the scheduler over a queue holding the one fiber of endless rotations,
not done, with a time slice of 50 ms, when two successive clock readings are more than
50 ms apart and the body leaves 1: the body is executed once and the fiber awaits. -/
theorem ProcessCoros_single (env : Env) (clock : Nat → Int) (p : WordPtr) (fuel : Nat)
    (hclock : ∀ k : Nat, clock (k + 1) - clock k > 50)
    (hbody : ∀ m : Machine, ∃ m1 s, env.call p m = some (.ok (), m1) ∧ m1.fDataStack = 1 :: s)
    (w : FiberWorld) (f : FiberFrame) (hq : w.fCoroScheduler = [1]) (hf : w.frames = [f])
    (hrot : f.rotations = -1) (hts : f.time_slice = 50) (hp : f.p = p)
    (hne : f.point ≠ .final) :
    ∃ w1 f1, ProcessCoros env clock (fuel + 1) w = some (.ok (), w1) ∧
      w1.fCoroScheduler = [1] ∧ w1.frames = [f1] ∧ f1.rotations = -1 ∧ f1.time_slice = 50 ∧
      f1.p = p ∧ f1.point = .awaiting ∧ f1.bodyCalls = f.bodyCalls + 1 := by
  have hpre : (f.rotations == -1) = true := by
    rw [hrot]
    rfl
  obtain ⟨m1, s, hcall, hstack⟩ := hbody w.machine
  rw [← hp] at hcall
  have hgap : clock (w.clockReads + 1) - clock w.clockReads > f.time_slice := by
    rw [hts]
    exact hclock _
  have hres : ∃ f1, Fiber_resume env clock (fuel + 1) f w.machine w.clockReads
      = some (.ok (), f1, { m1 with fDataStack := s }, w.clockReads + 2) ∧
      f1.rotations = -1 ∧ f1.time_slice = 50 ∧ f1.p = p ∧ f1.point = .awaiting ∧
      f1.bodyCalls = f.bodyCalls + 1 := by
    cases hpoint : f.point with
    | initial =>
      refine ⟨{ f with tp0 := clock w.clockReads, i := 0, bodyCalls := f.bodyCalls + 1,
                       statuses := 1 :: f.statuses, point := .awaiting }, ?_,
        hrot, hts, hp, rfl, rfl⟩
      simp only [Fiber_resume, hpoint, Fiber_loop, hpre, true_or, if_true, hcall, hstack,
        Stack_Pop, one_ne_zero, if_false, hgap]
    | awaiting =>
      refine ⟨{ f with tp0 := clock w.clockReads, i := wrapInt32 (f.i + 1),
                       bodyCalls := f.bodyCalls + 1, statuses := 1 :: f.statuses,
                       point := .awaiting }, ?_, hrot, hts, hp, rfl, rfl⟩
      simp only [Fiber_resume, hpoint, Fiber_loop, hpre, true_or, if_true, hcall, hstack,
        Stack_Pop, one_ne_zero, if_false, hgap]
    | final => exact absurd hpoint hne
  obtain ⟨f1, hres, h1, h2, h3, h4, h5⟩ := hres
  have hdone : w.done 1 = false := by
    simp only [FiberWorld.done, hf]
    simpa using hne
  have hresume : w.resume env clock (fuel + 1) 1
      = some (.ok (), { w with machine := { m1 with fDataStack := s }, frames := [f1],
                               clockReads := w.clockReads + 2 }) := by
    simp only [FiberWorld.resume, hf]
    simp [hres]
  refine ⟨{ w with machine := { m1 with fDataStack := s }, frames := [f1],
                   clockReads := w.clockReads + 2 }, f1, ?_, hq, rfl, h1, h2, h3, h4, h5⟩
  simp only [ProcessCoros, hq, List.length_singleton, ProcessCoros_loop]
  simp [hq, hdone, hresume, ProcessCoros_loop]

/-- The first `n` sweeps over a queue holding the one fiber of endless rotations and a
time slice of 50 ms, under a clock whose successive readings are more than 50 ms apart
and a body leaving 1: they return and the body has been executed `n` more times. -/
theorem ProcessCoros_times_single (env : Env) (clock : Nat → Int) (p : WordPtr) (fuel : Nat)
    (hclock : ∀ k : Nat, clock (k + 1) - clock k > 50)
    (hbody : ∀ m : Machine, ∃ m1 s, env.call p m = some (.ok (), m1) ∧ m1.fDataStack = 1 :: s)
    (w : FiberWorld) (f : FiberFrame) (hq : w.fCoroScheduler = [1]) (hf : w.frames = [f])
    (hrot : f.rotations = -1) (hts : f.time_slice = 50) (hp : f.p = p)
    (hne : f.point ≠ .final) :
    ∀ n : Nat, ∃ w1 f1, ProcessCoros_times env clock (fuel + 1) n w = some (.ok (), w1) ∧
      w1.fCoroScheduler = [1] ∧ w1.frames = [f1] ∧ f1.rotations = -1 ∧ f1.time_slice = 50 ∧
      f1.p = p ∧ f1.point ≠ .final ∧ f1.bodyCalls = f.bodyCalls + n := by
  intro n
  induction n with
  | zero => exact ⟨w, f, rfl, hq, hf, hrot, hts, hp, hne, rfl⟩
  | succ n ih =>
    obtain ⟨w1, f1, htimes, hq1, hf1, hrot1, hts1, hp1, hne1, hcalls1⟩ := ih
    obtain ⟨w2, f2, hsweep, hq2, hf2, hrot2, hts2, hp2, hpt2, hcalls2⟩ :=
      ProcessCoros_single env clock p fuel hclock hbody w1 f1 hq1 hf1 hrot1 hts1 hp1 hne1
    refine ⟨w2, f2, ?_, hq2, hf2, hrot2, hts2, hp2, ?_, ?_⟩
    · simp only [ProcessCoros_times, htimes]
      exact hsweep
    · rw [hpt2]
      decide
    · rw [hcalls2, hcalls1]
      omega

/-- C20, counterexample: a fiber of rotations -1 and time slice 50 ms whose body leaves 1,
its handle alone in the ready-queue, under a clock advancing 10 ms a reading: one sweep
of the scheduler executes the body six times. -/
theorem fiber_sweep_six_body_calls_counterexample :
    (ProcessCoros statusOneEnv (fun n => 10 * (n : Int)) 10
        { fCoroScheduler := [1], frames := [CreateFiberCoro (-1) 50 7] }).map
      (fun q => q.2.frames.map (fun f => (f.bodyCalls, f.point)))
      = some [(6, .awaiting)] := by
  rfl

/-- C20, amended: for a fiber created with rotations -1 and a time slice of 50 ms whose
body always returns and leaves 1, its handle alone in the ready-queue: when two
successive readings of the clock are always more than 50 ms apart, the first `n`
scheduler sweeps (`ProcessCoros`) return and have executed the body exactly `n` times,
one execution for each sweep, so three times after three sweeps; the fiber is not done
and its handle stays in the queue. -/
theorem fiber_sweep_runs_body_once (env : Env) (clock : Nat → Int) (p : WordPtr)
    (fuel n : Nat) (w : FiberWorld)
    (hclock : ∀ k : Nat, clock (k + 1) - clock k > 50)
    (hbody : ∀ m : Machine, ∃ m1 s, env.call p m = some (.ok (), m1) ∧ m1.fDataStack = 1 :: s)
    (hfuel : 0 < fuel)
    (hq : w.fCoroScheduler = [1]) (hf : w.frames = [CreateFiberCoro (-1) 50 p]) :
    ∃ w1 f, ProcessCoros_times env clock fuel n w = some (.ok (), w1) ∧
      w1.fCoroScheduler = [1] ∧ w1.frames = [f] ∧ f.bodyCalls = n ∧ f.point ≠ .final := by
  obtain ⟨fuel1, hfuel1⟩ : ∃ k, fuel = k + 1 := ⟨fuel - 1, by omega⟩
  rw [hfuel1]
  obtain ⟨w1, f1, htimes, hq1, hf1, _, _, _, hne1, hcalls1⟩ :=
    ProcessCoros_times_single env clock p fuel1 hclock hbody w (CreateFiberCoro (-1) 50 p)
      hq hf rfl rfl rfl (by simp [CreateFiberCoro]) n
  refine ⟨w1, f1, htimes, hq1, hf1, ?_, hne1⟩
  rw [hcalls1]
  simp [CreateFiberCoro]

/-- C20, an instance: under a clock advancing 60 ms a reading, three sweeps execute the
body three times. -/
theorem fiber_sweep_runs_body_once_witness :
    (∃ w1 f, ProcessCoros_times statusOneEnv (fun n => 60 * (n : Int)) 1 3
        { fCoroScheduler := [1], frames := [CreateFiberCoro (-1) 50 7] } = some (.ok (), w1) ∧
      w1.fCoroScheduler = [1] ∧ w1.frames = [f] ∧ f.bodyCalls = 3 ∧ f.point ≠ .final) ∧
    (ProcessCoros_times statusOneEnv (fun n => 60 * (n : Int)) 1 3
        { fCoroScheduler := [1], frames := [CreateFiberCoro (-1) 50 7] }).map
      (fun q => q.2.frames.map (fun f => f.bodyCalls)) = some [3] :=
  ⟨fiber_sweep_runs_body_once statusOneEnv (fun n => 60 * (n : Int)) 7 1 3
    { fCoroScheduler := [1], frames := [CreateFiberCoro (-1) 50 7] }
    (fun k => by push_cast; omega)
    (fun m => ⟨m.PushData 1, m.fDataStack, rfl, rfl⟩) (by decide) rfl rfl, rfl⟩

/-! ### Re-interpretation, byte encoding, name matching, the base -/

theorem PushValTo_cell (a : List RawByte) (v : Nat) :
    PushValTo CellTypeSize a v
      = a ++ [v % 256, v / 256 % 256, v / 65536 % 256, v / 16777216 % 256,
          v / 4294967296 % 256, v / 1099511627776 % 256, v / 281474976710656 % 256,
          v / 72057594037927936 % 256] := by
  have hand : ∀ x : Nat, (x &&& 0xFF) % 256 = x % 256 := by
    intro x
    have h := Nat.and_pow_two_sub_one_eq_mod x 8
    norm_num at h
    rw [h]
    exact Nat.mod_mod _ _
  have hshift : ∀ x : Nat, x >>> 8 = x / 256 := by
    intro x
    rw [Nat.shiftRight_eq_div_pow]
  simp only [PushValTo, CellTypeSize, PushValTo_loop, hand, hshift, List.append_assoc,
    List.singleton_append, Nat.div_div_eq_div_mul]
  norm_num

/-- C27: the template `BlindValueReInterpretation` re-reads bits without value conversion:
for every cell `v`, re-interpreting `v` as a byte yields its low 8 bits, `v mod 256`; for
every byte `b`, re-interpreting `b` as a cell yields `b` itself, all higher bits being 0;
hence cell to byte to cell is `v AND 0xFF`, and byte to cell to byte is the identity. -/
theorem BlindValueReInterpretation_byte_cell :
    (∀ v : CellType, BlindValueReInterpretation sizeof_byte CellTypeSize v = v % 256) ∧
    (∀ b : RawByte, b < 256 → BlindValueReInterpretation CellTypeSize sizeof_byte b = b) ∧
    (∀ v : CellType,
      BlindValueReInterpretation CellTypeSize sizeof_byte
        (BlindValueReInterpretation sizeof_byte CellTypeSize v) = v &&& 0xFF) ∧
    ∀ b : RawByte, b < 256 →
      BlindValueReInterpretation sizeof_byte CellTypeSize
        (BlindValueReInterpretation CellTypeSize sizeof_byte b) = b := by
  have hand : ∀ x : Nat, x &&& 0xFF = x % 256 := by
    intro x
    have h := Nat.and_pow_two_sub_one_eq_mod x 8
    norm_num at h
    exact h
  refine ⟨?_, ?_, ?_, ?_⟩
  · intro v
    simp [BlindValueReInterpretation, sizeof_byte, CellTypeSize]
  · intro b hb
    simp only [BlindValueReInterpretation, sizeof_byte, CellTypeSize]
    norm_num
    exact hb
  · intro v
    rw [hand]
    simp only [BlindValueReInterpretation, sizeof_byte, CellTypeSize]
    norm_num
  · intro b hb
    simp only [BlindValueReInterpretation, sizeof_byte, CellTypeSize]
    norm_num
    exact hb

/-- C27, an instance: the values of `ConverTest`, the cell `0x0123456789ABCDEF` and the
byte `0xEF`. -/
theorem BlindValueReInterpretation_byte_cell_witness :
    BlindValueReInterpretation sizeof_byte CellTypeSize 0x0123456789ABCDEF = 0xEF ∧
    BlindValueReInterpretation CellTypeSize sizeof_byte 0xEF = 0xEF ∧
    BlindValueReInterpretation sizeof_byte CellTypeSize
      (BlindValueReInterpretation CellTypeSize sizeof_byte 0xEF) = 0xEF :=
  ⟨by decide, BlindValueReInterpretation_byte_cell.2.1 0xEF (by decide),
    BlindValueReInterpretation_byte_cell.2.2.2 0xEF (by decide)⟩

/-- C28: for every byte array `a` and every cell value `v`, `PushValTo( a, v )` leaves
the bytes of `a` in place and appends exactly 8 bytes, byte `i` being
`(v >> 8 i) mod 256`, so that the last 8 bytes decoded in little-endian order give
`v` back. -/
theorem PushValTo_little_endian (a : List RawByte) (v : Nat) (hv : v < 2 ^ 64) :
    (PushValTo CellTypeSize a v).take a.length = a ∧
    (PushValTo CellTypeSize a v).length = a.length + 8 ∧
    (∀ i : Nat, i < 8 →
      (PushValTo CellTypeSize a v).getD (a.length + i) 0 = (v >>> (8 * i)) % 256) ∧
    decodeLittleEndian
      ((PushValTo CellTypeSize a v).drop ((PushValTo CellTypeSize a v).length - 8)) = v := by
  rw [PushValTo_cell]
  refine ⟨by simp, by simp, ?_, ?_⟩
  · intro i hi
    rw [List.getD_eq_getElem?_getD, List.getElem?_append_right (by omega)]
    rw [Nat.shiftRight_eq_div_pow]
    have hi2 : a.length + i - a.length = i := by omega
    rw [hi2]
    interval_cases i <;> norm_num
  · have hlen : (a ++ [v % 256, v / 256 % 256, v / 65536 % 256, v / 16777216 % 256,
        v / 4294967296 % 256, v / 1099511627776 % 256, v / 281474976710656 % 256,
        v / 72057594037927936 % 256]).length - 8 = a.length := by simp
    rw [hlen, List.drop_left]
    simp only [decodeLittleEndian, List.foldr]
    norm_num at hv
    omega

/-- C28, an instance: the cell `0x0123456789ABCDEF` appended to the array `[7]`. -/
theorem PushValTo_little_endian_witness :
    PushValTo CellTypeSize [7] 0x0123456789ABCDEF
      = [7, 0xEF, 0xCD, 0xAB, 0x89, 0x67, 0x45, 0x23, 0x01] ∧
    decodeLittleEndian
      ((PushValTo CellTypeSize [7] 0x0123456789ABCDEF).drop
        ((PushValTo CellTypeSize [7] 0x0123456789ABCDEF).length - 8))
      = 0x0123456789ABCDEF :=
  ⟨by decide, (PushValTo_little_endian [7] 0x0123456789ABCDEF (by norm_num)).2.2.2⟩
theorem toupper_idem_ascii (c : Letter) (h : c.toNat < 128) :
    toupper (toupper c) = toupper c := by
  have hall : ∀ n : Fin 128, toupper (toupper (Char.ofNat n.val)) = toupper (Char.ofNat n.val) := by
    decide
  have := hall ⟨c.toNat, h⟩
  simpa [Char.ofNat_toNat] using this

/-- C29: with case-insensitivity on, for all ASCII names `a`, `b` and `c`, `CheckMatch( a, b )`
holds exactly when `ToUpper( a ) = ToUpper( b )`; hence `CheckMatch` is reflexive,
symmetric and transitive, and `ToUpper` is idempotent and keeps the length. -/
theorem CheckMatch_iff_ToUpper (a b c : Name) (ha : IsAsciiName a) (_hb : IsAsciiName b)
    (_hc : IsAsciiName c) :
    (CheckMatch a b = true ↔ ToUpper a = ToUpper b) ∧
    CheckMatch a a = true ∧
    (CheckMatch a b = true → CheckMatch b a = true) ∧
    (CheckMatch a b = true → CheckMatch b c = true → CheckMatch a c = true) ∧
    ToUpper (ToUpper a) = ToUpper a ∧
    (ToUpper a).length = a.length := by
  have hidem : ToUpper (ToUpper a) = ToUpper a := by
    simp only [ToUpper, List.map_map]
    apply List.map_congr_left
    intro x hx
    exact toupper_idem_ascii x (ha x hx)
  simp only [CheckMatch_eq, decide_eq_true_eq]
  exact ⟨Iff.rfl, trivial, fun h => h.symm, fun h1 h2 => h1.trans h2, hidem, by simp [ToUpper]⟩

/-- C29, an instance: `dup`, `Dup` and `DUP`. -/
theorem CheckMatch_iff_ToUpper_witness :
    (CheckMatch "dup".toList "Dup".toList = true ↔
      ToUpper "dup".toList = ToUpper "Dup".toList) ∧
    CheckMatch "dup".toList "dup".toList = true ∧
    (CheckMatch "dup".toList "Dup".toList = true →
      CheckMatch "Dup".toList "dup".toList = true) ∧
    (CheckMatch "dup".toList "Dup".toList = true →
      CheckMatch "Dup".toList "DUP".toList = true →
      CheckMatch "dup".toList "DUP".toList = true) ∧
    ToUpper (ToUpper "dup".toList) = ToUpper "dup".toList ∧
    (ToUpper "dup".toList).length = "dup".toList.length :=
  CheckMatch_iff_ToUpper "dup".toList "Dup".toList "DUP".toList (by decide) (by decide)
    (by decide)
theorem decodeLittleEndian_mod (container : List RawByte) (h : ∀ b ∈ container, b < 256) :
    decodeLittleEndian (container.take CellTypeSize) % 256 = container.headD 0 := by
  cases container with
  | nil => rfl
  | cons b rest =>
    have hb : b < 256 := h b (List.mem_cons_self _ _)
    simp only [CellTypeSize, List.take_succ_cons, decodeLittleEndian, List.foldr_cons,
      List.headD_cons]
    rw [Nat.add_mul_mod_self_left]
    exact Nat.mod_eq_of_lt hb

/-- The byte that `ReadVariable` returns is the low byte of the cell of the variable, and
0 when there is no such variable. -/
theorem ReadVariable_low_byte (m : Machine) (variable_name : Name) (hbytes : BytesInRange m) :
    ReadVariable m variable_name
      = match VariableCell m variable_name with
        | some v => v % 256
        | none => 0 := by
  unfold ReadVariable VariableCell
  cases GetWordEntry m variable_name with
  | none => rfl
  | some entry =>
    simp only
    cases h1 : m.fHeap[entry.fWordUP]? with
    | none => rfl
    | some w =>
      cases w with
      | CompoWord compo_vec dbg =>
        cases compo_vec with
        | nil => rfl
        | cons p0 rest =>
          simp only
          cases h2 : m.fHeap[p0]? with
          | none => rfl
          | some w2 =>
            cases w2 with
            | RawByteArray container =>
              simp only
              exact (decodeLittleEndian_mod container (hbytes p0 container h2)).symm
            | CompoWord _ _ => rfl
            | DOES _ => rfl
            | Leaf _ => rfl
      | RawByteArray _ => rfl
      | DOES _ => rfl
      | Leaf _ => rfl

/-- C30, counterexample: the variable `BASE` holds the cell 272, which is not 16, and
`ReadTheBase` reports hexadecimal. -/
theorem base_cell_272_counterexample :
    VariableCell (machineWithBaseCell 272) kBASE = some 272 ∧
    ReadTheBase (machineWithBaseCell 272) = EIntCompBase.kHex := by
  decide

/-- C30, amended: `ReadTheBase` reports hexadecimal exactly when a variable `BASE` is
defined and the low byte of the cell stored in it equals 16 (for a cell below 256: when
the cell equals 16), and decimal in every other case, including when no `BASE` variable
is defined. -/
theorem ReadTheBase_low_byte (m : Machine) (hbytes : BytesInRange m) :
    (ReadTheBase m = EIntCompBase.kHex ↔
      ∃ v, VariableCell m kBASE = some v ∧ v % 256 = 16) ∧
    (ReadTheBase m = EIntCompBase.kDec ↔
      ¬ ∃ v, VariableCell m kBASE = some v ∧ v % 256 = 16) ∧
    (∀ v, VariableCell m kBASE = some v → v < 256 →
      (ReadTheBase m = EIntCompBase.kHex ↔ v = 16)) ∧
    (GetWordEntry m kBASE = none → ReadTheBase m = EIntCompBase.kDec) := by
  have hread := ReadVariable_low_byte m kBASE hbytes
  have hnone : GetWordEntry m kBASE = none → VariableCell m kBASE = none := by
    intro h
    simp only [VariableCell, h]
  unfold ReadTheBase
  cases hcell : VariableCell m kBASE with
  | none =>
    rw [hcell] at hread hnone
    simp [hread]
  | some v =>
    rw [hcell] at hread hnone
    simp only at hread
    rw [hread]
    by_cases h16 : v % 256 = 16
    · simp only [h16, if_true, Option.some.injEq, exists_eq_left', true_iff,
        not_true_eq_false, iff_false, true_and]
      refine ⟨by decide, ?_, fun h => absurd (hnone h) (by simp)⟩
      intro v2 hv2 hlt
      subst hv2
      rw [Nat.mod_eq_of_lt hlt] at h16
      simp [h16]
    · simp only [h16, if_false, Option.some.injEq, exists_eq_left', not_false_eq_true,
        iff_true, true_and]
      refine ⟨by decide, ?_, fun _ => trivial⟩
      intro v2 hv2 hlt
      subst hv2
      rw [Nat.mod_eq_of_lt hlt] at h16
      simp [h16]

/-- C30, an instance: the cells 16, 272 and 10 in `BASE`, and a machine without `BASE`. -/
theorem ReadTheBase_low_byte_witness :
    ReadTheBase (machineWithBaseCell 16) = EIntCompBase.kHex ∧
    ReadTheBase (machineWithBaseCell 10) = EIntCompBase.kDec ∧
    ReadTheBase {} = EIntCompBase.kDec ∧
    (ReadTheBase (machineWithBaseCell 272) = EIntCompBase.kHex ↔
      ∃ v, VariableCell (machineWithBaseCell 272) kBASE = some v ∧ v % 256 = 16) :=
  ⟨by decide, by decide, by decide,
    (ReadTheBase_low_byte (machineWithBaseCell 272) (by
      intro p container h b hb
      have hp : p = 1 := by
        rcases p with _ | _ | p
        · simp [machineWithBaseCell] at h
        · rfl
        · simp [machineWithBaseCell] at h
      subst hp
      have hc : container = PushValTo CellTypeSize [] 272 := by
        simp [machineWithBaseCell] at h
        exact h.symm
      subst hc
      revert b
      decide)).1⟩
/-! ### The scheduler sweep -/

/-- C21, the code at the failing input: two fibers of no rotations are created and
registered; the first sweep resumes both, which ends them, so both handles are done when
the second sweep begins.  The second sweep erases the first handle and steps over the
second, which is still in the queue afterwards. -/
theorem ProcessCoros_leaves_done_handle :
    (runFiberOps statusOneEnv (fun n => 60 * (n : Int))
        [.invoke 0 7, .invoke 0 8, .invoke 1 7, .invoke 2 8, .sweep 5]
        { machine := { fDataStack := [50, 0, 50, 0] } }).map
      (fun w => (w.fCoroScheduler, w.done 1, w.done 2)) = some ([1, 2], true, true) ∧
    (runFiberOps statusOneEnv (fun n => 60 * (n : Int))
        [.invoke 0 7, .invoke 0 8, .invoke 1 7, .invoke 2 8, .sweep 5, .sweep 5]
        { machine := { fDataStack := [50, 0, 50, 0] } }).map
      (fun w => (w.fCoroScheduler, w.done 2)) = some ([2], true) ∧
    (ProcessCoros statusOneEnv (fun n => 60 * (n : Int)) 5
        { fCoroScheduler := [0, 0] }).map
      (fun q => q.2.fCoroScheduler) = some [0] := by
  refine ⟨rfl, rfl, rfl⟩

/-- C22, the code at the failing input: a fiber of no rotations (handle 1) and an endless
fiber whose body leaves 1 (handle 2) are created and registered in this order; the first
sweep resumes both, the body of the second running once.  In the second sweep the first
handle is done and erased, and the second handle, not done, is stepped over: its body
has still run once and no clock reading was taken.  The third sweep resumes it again. -/
theorem ProcessCoros_skips_live_handle :
    (runFiberOps statusOneEnv (fun n => 60 * (n : Int))
        [.invoke 0 7, .invoke 0 8, .invoke 1 7, .invoke 2 8, .sweep 5]
        { machine := { fDataStack := [50, 0, 50, SignedInt_2_Cell (-1)] } }).map
      (fun w => (w.fCoroScheduler, w.done 1, w.done 2, w.clockReads,
        w.frames.map (fun f => f.bodyCalls)))
      = some ([1, 2], true, false, 3, [0, 1]) ∧
    (runFiberOps statusOneEnv (fun n => 60 * (n : Int))
        [.invoke 0 7, .invoke 0 8, .invoke 1 7, .invoke 2 8, .sweep 5, .sweep 5]
        { machine := { fDataStack := [50, 0, 50, SignedInt_2_Cell (-1)] } }).map
      (fun w => (w.fCoroScheduler, w.done 2, w.clockReads, w.frames.map (fun f => f.bodyCalls)))
      = some ([2], false, 3, [0, 1]) ∧
    (runFiberOps statusOneEnv (fun n => 60 * (n : Int))
        [.invoke 0 7, .invoke 0 8, .invoke 1 7, .invoke 2 8, .sweep 5, .sweep 5, .sweep 5]
        { machine := { fDataStack := [50, 0, 50, SignedInt_2_Cell (-1)] } }).map
      (fun w => (w.fCoroScheduler, w.done 2, w.clockReads, w.frames.map (fun f => f.bodyCalls)))
      = some ([2], false, 5, [0, 2]) := by
  refine ⟨rfl, rfl, rfl⟩

/-! ### The reader -/

/-- C23, the code at the failing input: the one line `10 BUFFER:`, which has no backslash
and no white space but the one space.  Its maximal runs of characters that are no space
and no tab are `10` and `BUFFER:`, and these are the names that the release reader
returns; the debug reader returns `10` only, the word with the glued colon is lost.  For
the line `BUFFER:` the debug reader returns no token at all; in the middle of a line,
`10 BUFFER: buf`, the word is returned whole.  A colon or semicolon that is not separate
is appended to the pending name without the test for the end of the line that the default
branch makes. -/
theorem debugReader_drops_glued_colon_at_line_end :
    kBackSlash ∉ "10 BUFFER:".toList ∧
    maximalRuns "10 BUFFER:".toList = ["10".toList, "BUFFER:".toList] ∧
    releaseReaderNames "10 BUFFER:".toList = ["10".toList, "BUFFER:".toList] ∧
    debugReaderNames "10 BUFFER:".toList = ["10".toList] ∧
    debugReaderNames "BUFFER:".toList = [] ∧
    maximalRuns "BUFFER:".toList = ["BUFFER:".toList] ∧
    debugReaderNames "10 BUFFER: buf".toList = ["10".toList, "BUFFER:".toList, "buf".toList] ∧
    maximalRuns "10 BUFFER: buf".toList = ["10".toList, "BUFFER:".toList, "buf".toList] := by
  refine ⟨by decide, by decide, by decide, by decide, by decide, by decide, by decide,
    by decide⟩

/-- C24, the code at the failing input: for the line `abc\ comment`, whose backslash
follows the name `abc` directly, the debug reader returns no token, whereas for the line
cut before the backslash, `abc`, it returns the token `abc`: the pending name is lost.
When a blank stands before the backslash the two agree. -/
theorem debugReader_drops_name_before_backslash :
    StripEndingComment ("abc".toList ++ kBackSlash :: " comment".toList) = "abc".toList ∧
    debugReaderNames ("abc".toList ++ kBackSlash :: " comment".toList) = [] ∧
    debugReaderNames (StripEndingComment ("abc".toList ++ kBackSlash :: " comment".toList))
      = ["abc".toList] ∧
    debugReaderNames ("abc ".toList ++ kBackSlash :: " comment".toList) = ["abc".toList] ∧
    debugReaderNames (StripEndingComment ("abc ".toList ++ kBackSlash :: " comment".toList))
      = ["abc".toList] := by
  refine ⟨by decide, by decide, by decide, by decide, by decide⟩
/-! ### The system words and the loop of `Run` -/

theorem std_find_isSome_iff (n substr : Name) :
    (std_find n substr).isSome = true ↔ substr <:+: n := by
  induction n with
  | nil =>
    cases substr with
    | nil => simp [std_find]
    | cons c cs => simp [std_find]
  | cons c cs ih =>
    simp only [std_find]
    by_cases hp : substr.isPrefixOf (c :: cs) = true
    · rw [if_pos hp]
      simp only [Option.isSome_some, true_iff]
      exact (List.isPrefixOf_iff_prefix.mp hp).isInfix
    · rw [if_neg hp, List.infix_cons_iff]
      have hnp : ¬ substr <+: c :: cs := fun h => hp (List.isPrefixOf_iff_prefix.mpr h)
      have hmap : (Option.map (fun pos => pos + 1) (std_find cs substr)).isSome
          = (std_find cs substr).isSome := by
        cases std_find cs substr <;> rfl
      rw [hmap, ih]
      simp [hnp]

/-- The `LOAD` branch of `SystemProcessTokens` leaves `exit_flag` as it is, and when it
returns its value is `true`. -/
theorem SystemProcessTokens_load_outcome (host : Host) (st0 : ReplState)
    (r : Except Thrown Bool) (st1 : ReplState)
    (h : SystemProcessTokens_load host st0 = some (r, st1)) :
    st1.exit_flag = st0.exit_flag ∧ ∀ b, r = .ok b → b = true := by
  unfold SystemProcessTokens_load at h
  cases hw : cin_read_word st0.world.machine.cin with
  | none =>
    rw [hw] at h
    simp only [Option.some.injEq, Prod.mk.injEq] at h
    obtain ⟨hr, hst⟩ := h
    subst hr hst
    exact ⟨rfl, fun b hb => by cases hb; rfl⟩
  | some q =>
    obtain ⟨forth_source, cin1⟩ := q
    rw [hw] at h
    simp only at h
    cases hf : host.openFile forth_source with
    | none =>
      rw [hf] at h
      simp only [Option.some.injEq, Prod.mk.injEq] at h
      obtain ⟨hr, hst⟩ := h
      subst hr hst
      exact ⟨rfl, fun b hb => by cases hb; rfl⟩
    | some text =>
      rw [hf] at h
      simp only at h
      split at h
      · cases h
      · simp only [Option.some.injEq, Prod.mk.injEq] at h
        obtain ⟨hr, hst⟩ := h
        subst hr hst
        exact ⟨rfl, fun b hb => by cases hb⟩
      · simp only [Option.some.injEq, Prod.mk.injEq] at h
        obtain ⟨hr, hst⟩ := h
        subst hr hst
        exact ⟨rfl, fun b hb => by cases hb; rfl⟩

/-- C25, counterexample: the batch `WORDS` is not pre-empted, `SystemProcessTokens`
returns `false`; the batch `GoodBye`, whose first token is none of the five words, is
pre-empted and sets `exit_flag`; the batch `download` is pre-empted as `LOAD`. -/
theorem SystemProcessTokens_WORDS_counterexample :
    SystemProcessTokens idleHost [tokenOf "WORDS"] {} = some (.ok false, {}) ∧
    SystemProcessTokens idleHost [tokenOf "GoodBye"] {} = some (.ok true, { exit_flag := true }) ∧
    SystemProcessTokens idleHost [tokenOf "download"] {} = some (.ok true, {}) ∧
    CheckMatch "GoodBye".toList "BYE".toList = false ∧
    CheckMatch "GoodBye".toList "EXIT".toList = false ∧
    CheckMatch "download".toList "LOAD".toList = false := by
  refine ⟨rfl, rfl, rfl, by decide, by decide, by decide⟩

/-- C25, amended: for every non-empty token batch, with `str` the first token in upper
case: `SystemProcessTokens` returns `true` exactly when `str` contains one of `BYE`,
`EXIT`, `LOAD`, `HELP` as a substring, and it leaves `exit_flag` `true` exactly when `str`
contains `BYE` or `EXIT`; it returns whenever `str` does not contain `LOAD` or contains
`BYE` or `EXIT`, and an exception can leave it only from the `LOAD` branch, with
`exit_flag` `false`.  The word `WORDS` is not among the system words. -/
theorem SystemProcessTokens_substring (host : Host) (t0 : Token) (rest : TokenStream)
    (st : ReplState) :
    ((¬ kMenu_FileLoadWord <:+: ToUpper t0.fName ∨
        "BYE".toList <:+: ToUpper t0.fName ∨ "EXIT".toList <:+: ToUpper t0.fName) →
      ∃ b st1, SystemProcessTokens host (t0 :: rest) st = some (.ok b, st1)) ∧
    (∀ b st1, SystemProcessTokens host (t0 :: rest) st = some (.ok b, st1) →
      (b = true ↔
        ("BYE".toList <:+: ToUpper t0.fName ∨ "EXIT".toList <:+: ToUpper t0.fName ∨
          kMenu_FileLoadWord <:+: ToUpper t0.fName ∨ kMenu_Help <:+: ToUpper t0.fName)) ∧
      (st1.exit_flag = true ↔
        ("BYE".toList <:+: ToUpper t0.fName ∨ "EXIT".toList <:+: ToUpper t0.fName))) ∧
    (∀ e st1, SystemProcessTokens host (t0 :: rest) st = some (.error e, st1) →
      kMenu_FileLoadWord <:+: ToUpper t0.fName ∧ st1.exit_flag = false) := by
  have hBYE := std_find_isSome_iff (ToUpper t0.fName) "BYE".toList
  have hEXIT := std_find_isSome_iff (ToUpper t0.fName) "EXIT".toList
  have hLOAD := std_find_isSome_iff (ToUpper t0.fName) kMenu_FileLoadWord
  have hHELP := std_find_isSome_iff (ToUpper t0.fName) kMenu_Help
  have hany : (kMenu_ExitWords.any (fun ex_word => (std_find (ToUpper t0.fName) ex_word).isSome))
      = true ↔ ("BYE".toList <:+: ToUpper t0.fName ∨ "EXIT".toList <:+: ToUpper t0.fName) := by
    simp only [kMenu_ExitWords, List.any_cons, List.any_nil, Bool.or_false, Bool.or_eq_true,
      hBYE, hEXIT]
  simp only [SystemProcessTokens, FORTH_IS_CASE_INSENSITIVE, if_true]
  by_cases hexit : "BYE".toList <:+: ToUpper t0.fName ∨ "EXIT".toList <:+: ToUpper t0.fName
  · rw [if_pos (hany.mpr hexit)]
    refine ⟨fun _ => ⟨true, _, rfl⟩, ?_, ?_⟩
    · intro b st1 h
      simp only [Option.some.injEq, Prod.mk.injEq, Except.ok.injEq] at h
      obtain ⟨hb, hst⟩ := h
      subst hb hst
      exact ⟨⟨fun _ => hexit.elim Or.inl (fun h => Or.inr (Or.inl h)), fun _ => rfl⟩,
        ⟨fun _ => hexit, fun _ => rfl⟩⟩
    · intro e st1 h
      simp at h
  · rw [if_neg (fun h => hexit (hany.mp h))]
    have hexit2 := not_or.mp hexit
    by_cases hload : kMenu_FileLoadWord <:+: ToUpper t0.fName
    · rw [if_pos (hLOAD.mpr hload)]
      refine ⟨fun h => ?_, ?_, ?_⟩
      · rcases h with h | h
        · exact absurd hload h
        · exact absurd h hexit
      · intro b st1 h
        have ho := SystemProcessTokens_load_outcome host _ _ _ h
        have hb : b = true := ho.2 b rfl
        subst hb
        refine ⟨⟨fun _ => Or.inr (Or.inr (Or.inl hload)), fun _ => rfl⟩,
          ⟨fun h2 => ?_, fun h2 => absurd h2 hexit⟩⟩
        rw [ho.1] at h2
        cases h2
      · intro e st1 h
        have ho := SystemProcessTokens_load_outcome host _ _ _ h
        exact ⟨hload, ho.1⟩
    · rw [if_neg (fun h => hload (hLOAD.mp h))]
      by_cases hhelp : kMenu_Help <:+: ToUpper t0.fName
      · rw [if_pos (hHELP.mpr hhelp)]
        refine ⟨fun _ => ⟨true, _, rfl⟩, ?_, ?_⟩
        · intro b st1 h
          simp only [Option.some.injEq, Prod.mk.injEq, Except.ok.injEq] at h
          obtain ⟨hb, hst⟩ := h
          subst hb hst
          exact ⟨⟨fun _ => Or.inr (Or.inr (Or.inr hhelp)), fun _ => rfl⟩,
            ⟨fun h2 => (by cases h2), fun h2 => absurd h2 hexit⟩⟩
        · intro e st1 h
          simp at h
      · rw [if_neg (fun h => hhelp (hHELP.mp h))]
        refine ⟨fun _ => ⟨false, _, rfl⟩, ?_, ?_⟩
        · intro b st1 h
          simp only [Option.some.injEq, Prod.mk.injEq, Except.ok.injEq] at h
          obtain ⟨hb, hst⟩ := h
          subst hb hst
          refine ⟨⟨fun h2 => (by cases h2), fun h2 => ?_⟩,
            ⟨fun h2 => (by cases h2), fun h2 => absurd h2 hexit⟩⟩
          rcases h2 with h2 | h2 | h2 | h2
          · exact absurd h2 hexit2.1
          · exact absurd h2 hexit2.2
          · exact absurd h2 hload
          · exact absurd h2 hhelp
        · intro e st1 h
          simp at h

/-- C25, an instance: the batch `bye now`, and the batch `dup`, which reaches the
interpreter with `exit_flag` reset. -/
theorem SystemProcessTokens_substring_witness :
    (∃ b st1, SystemProcessTokens idleHost [tokenOf "bye", tokenOf "now"] {}
        = some (.ok b, st1)) ∧
    SystemProcessTokens idleHost [tokenOf "bye", tokenOf "now"] {}
      = some (.ok true, { exit_flag := true }) ∧
    SystemProcessTokens idleHost [tokenOf "dup"] { exit_flag := true } = some (.ok false, {}) :=
  ⟨(SystemProcessTokens_substring idleHost (tokenOf "bye") [tokenOf "now"] {}).1
    (Or.inr (Or.inl (by decide))), rfl, rfl⟩
theorem TForthReader_4_Debugging_call_end (fSourceFileIndex fTotalCharCounter : Int) :
    TForthReader_4_Debugging_call fSourceFileIndex fTotalCharCounter []
      = ([], fTotalCharCounter, [], true) := by
  rfl

theorem SourceFilesMap_set_cin (m : Machine) (index : Int) (path : Name) :
    (SourceFilesMap_set m index path).cin = m.cin := by
  unfold SourceFilesMap_set
  split <;> rfl

theorem ProcessCoros_empty_queue (env : Env) (clock : Nat → Int) (resumeFuel : Nat)
    (w : FiberWorld) (h : w.fCoroScheduler = []) :
    ProcessCoros env clock resumeFuel w = some (.ok (), w) := by
  simp [ProcessCoros, h, ProcessCoros_loop]

/-- The loop `while( ! exit_flag )` of `Run` at the end of the input, for a compiler that
returns or raises an exception of the standard kinds on the empty batch: within no
number of iterations does it return normally; it either is still running or has been
left by such an exception, the input still at its end. -/
theorem Run_while_at_end_of_input (host : Host) (env : Env) (clock : Nat → Int)
    (resumeFuel : Nat) (terminal_input_index : Int)
    (hcomp : ∀ w : FiberWorld, w.machine.cin = [] → w.fCoroScheduler = [] →
      ∃ r w1, host.F_compiler [] w = some (r, w1) ∧ r ≠ .error .other ∧
        w1.machine.cin = [] ∧ w1.fCoroScheduler = []) :
    ∀ (fuel : Nat) (fTotalCharCounter : Int) (st : ReplState), AtEndOfInput st →
      Run_while host env clock resumeFuel terminal_input_index fuel fTotalCharCounter st = none ∨
      ∃ e st2, Run_while host env clock resumeFuel terminal_input_index fuel
          fTotalCharCounter st = some (.error e, st2) ∧ e ≠ .other ∧ AtEndOfInput st2 := by
  intro fuel
  induction fuel with
  | zero =>
    intro cnt st h
    left
    simp [Run_while, h.2.2]
  | succ fuel ih =>
    intro cnt st h
    obtain ⟨hcin, hq, hexit⟩ := h
    simp only [Run_while, hexit, if_true, hcin, TForthReader_4_Debugging_call_end,
      SystemProcessTokens]
    obtain ⟨r, w1, hc, hr, hcin1, hq1⟩ :=
      hcomp { st.world with machine := { st.world.machine with cin := [] } } rfl hq
    rw [hc]
    cases r with
    | error e =>
      right
      refine ⟨e, _, rfl, fun he => hr (by rw [he]), hcin1, hq1, rfl⟩
    | ok u =>
      simp only [ProcessCoros_empty_queue env clock resumeFuel w1 hq1]
      exact ih cnt _ ⟨hcin1, hq1, rfl⟩

/-- C26, the code at the failing input: with the input stream at its end, the ready-queue
empty and a compiler that returns (or raises an exception of the standard kinds) on the
empty batch, `Run` does not return, whatever the number of iterations allowed: every
read yields the empty batch, `SystemProcessTokens` returns `false` without touching
`exit_flag`, and nothing else sets it. -/
theorem Run_never_returns_at_end_of_input (host : Host) (env : Env) (clock : Nat → Int)
    (resumeFuel : Nat)
    (hcomp : ∀ w : FiberWorld, w.machine.cin = [] → w.fCoroScheduler = [] →
      ∃ r w1, host.F_compiler [] w = some (r, w1) ∧ r ≠ .error .other ∧
        w1.machine.cin = [] ∧ w1.fCoroScheduler = []) :
    ∀ (fuel : Nat) (st : ReplState), AtEndOfInput st →
      Run host env clock resumeFuel fuel st = none := by
  intro fuel
  induction fuel with
  | zero =>
    intro st _
    rfl
  | succ fuel ih =>
    intro st h
    obtain ⟨hcin, hq, hexit⟩ := h
    have hst1 : AtEndOfInput
        { (GetUniqueFileId st).2 with world := { (GetUniqueFileId st).2.world with
            machine := SourceFilesMap_set (GetUniqueFileId st).2.world.machine
              (GetUniqueFileId st).1 "Terminal".toList } } :=
      ⟨by rw [SourceFilesMap_set_cin]; exact hcin, hq, hexit⟩
    rcases Run_while_at_end_of_input host env clock resumeFuel (GetUniqueFileId st).1 hcomp
      fuel 0 _ hst1 with hw | ⟨e, st2, hw, he, hend⟩
    · simp only [Run, hw]
    · simp only [Run, hw]
      cases e with
      | forthError err =>
        have hst3 : AtEndOfInput (Run_catch (.forthError err) st2) := by
          obtain ⟨h1, h2, h3⟩ := hend
          exact ⟨by simpa [Run_catch, Run_catch_ForthError, CleanUpAfterRunTimeError] using h1,
            h2, h3⟩
        simp only [hst3.2.2, if_true]
        exact ih _ hst3
      | stdException =>
        have hst3 : AtEndOfInput (Run_catch .stdException st2) := hend
        simp only [hst3.2.2, if_true]
        exact ih _ hst3
      | other => exact absurd rfl he

/-- C26, an instance: the idle compiler on an empty input; a thousand iterations do not
end `Run`, whereas on the input `bye` it returns at the first read. -/
theorem Run_never_returns_at_end_of_input_witness :
    Run idleHost idleEnv (fun n => (n : Int)) 5 1000 (replWithInput "") = none ∧
    (Run idleHost idleEnv (fun n => (n : Int)) 5 2 (replWithInput "bye")).map
      (fun st => (st.exit_flag, st.prompts)) = some (true, 1) :=
  ⟨Run_never_returns_at_end_of_input idleHost idleEnv (fun n => (n : Int)) 5
    (fun w h1 h2 => ⟨.ok (), w, rfl, by simp, h1, h2⟩) 1000 (replWithInput "")
    ⟨rfl, rfl, rfl⟩, rfl⟩
/-! ### The names of the debug reader and the maximal runs -/

theorem runsFrom_nil (tok : Name) : runsFrom tok [] = if tok ≠ [] then [tok] else [] := by
  by_cases h : tok = [] <;> simp [runsFrom, List.splitOnP_nil, h]

theorem runsFrom_cons_blank (tok : Name) (c : Letter) (cs : List Letter)
    (h : IsBlankLetter c = true) :
    runsFrom tok (c :: cs) = (if tok ≠ [] then [tok] else []) ++ runsFrom [] cs := by
  simp only [runsFrom, List.splitOnP_cons, h, if_true, List.modifyHead_cons, List.append_nil]
  have hid : (List.splitOnP IsBlankLetter cs).modifyHead (fun run => [] ++ run)
      = List.splitOnP IsBlankLetter cs := by
    cases List.splitOnP IsBlankLetter cs <;> simp
  rw [hid]
  by_cases ht : tok = [] <;> simp [ht, List.filter_cons]

theorem runsFrom_cons_letter (tok : Name) (c : Letter) (cs : List Letter)
    (h : IsBlankLetter c = false) :
    runsFrom tok (c :: cs) = runsFrom (tok ++ [c]) cs := by
  simp only [runsFrom, List.splitOnP_cons, h, Bool.false_eq_true, if_false,
    List.modifyHead_modifyHead]
  congr 2
  funext run
  simp

theorem maximalRuns_eq_runsFrom (line : Name) : maximalRuns line = runsFrom [] line := by
  simp only [maximalRuns, runsFrom]
  congr 1
  cases List.splitOnP IsBlankLetter line <;> simp

theorem IsBlankLetter_iff (c : Letter) : IsBlankLetter c = true ↔ (c = kSpace ∨ c = kTab) := by
  simp [IsBlankLetter]

theorem IsBlankLetter_symbol {c : Letter} (h : c = kColon ∨ c = kSemColon) :
    IsBlankLetter c = false := by
  rcases h with h | h <;> subst h <;> decide

/-- The names that the debug reader emits for the rest of a line without a backslash
that does not end in a glued colon or semicolon are the maximal runs of the pending name
followed by that rest. -/
theorem ReadLine_names_eq_runsFrom :
    ∀ (post : List Letter) (left : Letter) (tok : Name), kBackSlash ∉ post →
      (IsBlankLetter left = true → tok = []) → endsGluedAfter left post = false →
      (post = [] → tok = []) →
      ReadLine_names left tok post = runsFrom tok post := by
  intro post
  induction post with
  | nil =>
    intro left tok _ _ _ hnil
    rw [hnil rfl]
    rfl
  | cons c cs ih =>
    intro left tok hbs hinv hglue _
    have hbs2 : kBackSlash ∉ cs := fun h => hbs (List.mem_cons_of_mem _ h)
    have hcb : c ≠ kBackSlash := fun h => hbs (by rw [h]; exact List.mem_cons_self _ _)
    have hglue2 : cs ≠ [] → endsGluedAfter c cs = false := by
      intro hne
      cases cs with
      | nil => exact absurd rfl hne
      | cons d cs2 => simpa [endsGluedAfter] using hglue
    have hglue3 : endsGluedAfter c cs = false := by
      cases cs with
      | nil => rfl
      | cons d cs2 => exact hglue2 (by simp)
    simp only [ReadLine_names]
    by_cases hblank : c = kSpace ∨ c = kTab
    · rw [if_pos hblank, runsFrom_cons_blank tok c cs ((IsBlankLetter_iff c).mpr hblank)]
      rw [ih c [] hbs2 (fun _ => rfl) hglue3 (fun _ => rfl)]
    · have hnb : IsBlankLetter c = false := by
        cases hb : IsBlankLetter c with
        | false => rfl
        | true => exact absurd ((IsBlankLetter_iff c).mp hb) hblank
      rw [if_neg hblank, if_neg hcb, runsFrom_cons_letter tok c cs hnb]
      by_cases hsym : c = kColon ∨ c = kSemColon
      · rw [if_pos hsym]
        by_cases hsep : (IsBlankLetter left && IsBlankLetter (cs.headD kSpace)) = true
        · rw [if_pos hsep]
          simp only [Bool.and_eq_true] at hsep
          have htok : tok = [] := hinv hsep.1
          subst htok
          simp only [ne_eq, not_true_eq_false, if_false, List.nil_append]
          rw [ih c [] hbs2 (fun h => absurd h (by rw [hnb]; decide)) hglue3 (fun _ => rfl)]
          cases cs with
          | nil => simp [runsFrom_nil]
          | cons d cs2 =>
            have hd : IsBlankLetter d = true := by simpa using hsep.2
            rw [runsFrom_cons_blank [] d cs2 hd, runsFrom_cons_blank [c] d cs2 hd]
            simp
        · rw [if_neg hsep]
          have hne : cs ≠ [] := by
            intro hcs
            subst hcs
            have hl : IsBlankLetter left = false := by
              cases hb : IsBlankLetter left with
              | false => rfl
              | true =>
                exfalso
                apply hsep
                rw [hb]
                decide
            have : endsGluedAfter left [c] = true := by
              rcases hsym with h | h <;> subst h <;> simp [endsGluedAfter, hl]
            rw [this] at hglue
            cases hglue
          exact ih c (tok ++ [c]) hbs2 (fun h => absurd h (by rw [hnb]; decide)) hglue3
            (fun h => absurd h hne)
      · rw [if_neg hsym]
        by_cases hcs : cs = []
        · rw [if_pos hcs, hcs, runsFrom_nil]
          simp
        · rw [if_neg hcs]
          exact ih c (tok ++ [c]) hbs2 (fun h => absurd h (by rw [hnb]; decide)) hglue3
            (fun h => absurd h hcs)
theorem ReadLine_loop_skip (fSourceFileIndex : Int) (ln : Name) (left colCnt : Nat)
    (st : ReaderState) (h : st.skipCommentLine = true) :
    ReadLine_loop fSourceFileIndex ln left colCnt st = st := by
  cases left with
  | zero => rfl
  | succ n => simp [ReadLine_loop, h]

theorem getD_at_split (pre : Name) (c : Letter) (cs : List Letter) (d : Letter) :
    (pre ++ c :: cs).getD pre.length d = c := by
  rw [List.getD_eq_getElem?_getD, List.getElem?_append_right (le_refl _)]
  simp

theorem IsSeparateSymbol_at_split (pre : Name) (c : Letter) (cs : List Letter) :
    IsSeparateSymbol (pre ++ c :: cs) pre.length
      = (IsBlankLetter (pre.getLastD kSpace) && IsBlankLetter (cs.headD kSpace)) := by
  have hleft : (if pre.length > 0 then (pre ++ c :: cs).getD (pre.length - 1) kSpace
      else kSpace) = pre.getLastD kSpace := by
    rcases List.eq_nil_or_concat pre with h | ⟨p0, x, h⟩
    · subst h
      rfl
    · rw [List.concat_eq_append] at h
      subst h
      have hpos : (p0 ++ [x]).length > 0 := by simp
      rw [if_pos hpos]
      have h1 : (p0 ++ [x]).length - 1 = p0.length := by simp
      rw [h1, List.append_assoc, List.singleton_append, getD_at_split]
      simp
  have hright : (if pre.length + 1 < (pre ++ c :: cs).length then
      (pre ++ c :: cs).getD (pre.length + 1) kSpace else kSpace) = cs.headD kSpace := by
    cases cs with
    | nil => simp
    | cons d cs2 =>
      have hlt : pre.length + 1 < (pre ++ c :: d :: cs2).length := by simp
      rw [if_pos hlt]
      have h2 := getD_at_split (pre ++ [c]) d cs2 kSpace
      simp only [List.length_append, List.length_singleton, List.append_assoc,
        List.singleton_append] at h2
      rw [h2]
      rfl
  simp only [IsSeparateSymbol, hleft, hright, IsBlankLetter]
theorem ReadSeparateSymbol_names (fSourceFileIndex : Int) (symbol : Letter) (enter : Bool)
    (st : ReaderState) :
    (ReadSeparateSymbol fSourceFileIndex symbol enter st).outTokenStream.map (fun t => t.fName)
        = st.outTokenStream.map (fun t => t.fName)
          ++ ((if st.tokName ≠ [] then [st.tokName] else []) ++ [[symbol]]) ∧
      (ReadSeparateSymbol fSourceFileIndex symbol enter st).tokName = [] ∧
      (ReadSeparateSymbol fSourceFileIndex symbol enter st).skipCommentLine
        = st.skipCommentLine := by
  unfold ReadSeparateSymbol
  by_cases h : st.tokName = []
  · simp [h, mkToken, Letter_2_Name, sizeof_Letter]
  · simp [h, mkToken, Letter_2_Name, sizeof_Letter]

/-- The names of the tokens that the inner loop of the debug reader emits from a column
on are those of `ReadLine_names`. -/
theorem ReadLine_loop_names (fSourceFileIndex : Int) (ln : Name) :
    ∀ (post pre : List Letter) (st : ReaderState), ln = pre ++ post →
      st.skipCommentLine = false →
      (ReadLine_loop fSourceFileIndex ln post.length pre.length st).outTokenStream.map
          (fun t => t.fName)
        = st.outTokenStream.map (fun t => t.fName)
          ++ ReadLine_names (pre.getLastD kSpace) st.tokName post := by
  intro post
  induction post with
  | nil =>
    intro pre st _ _
    simp [ReadLine_loop, ReadLine_names]
  | cons c cs ih =>
    intro pre st hln hskip
    have hlt : pre.length < ln.length := by
      rw [hln]
      simp
    have hc : ln.getD pre.length kSpace = c := by
      rw [hln]
      exact getD_at_split pre c cs kSpace
    have hsep : IsSeparateSymbol ln pre.length
        = (IsBlankLetter (pre.getLastD kSpace) && IsBlankLetter (cs.headD kSpace)) := by
      rw [hln]
      exact IsSeparateSymbol_at_split pre c cs
    have hlen : ln.length = pre.length + 1 + cs.length := by
      rw [hln]
      simp
      omega
    have key : ∀ st2 : ReaderState, st2.skipCommentLine = false →
        (ReadLine_loop fSourceFileIndex ln cs.length (pre.length + 1) st2).outTokenStream.map
            (fun t => t.fName)
          = st2.outTokenStream.map (fun t => t.fName) ++ ReadLine_names c st2.tokName cs := by
      intro st2 h2
      have := ih (pre ++ [c]) st2 (by rw [hln]; simp) h2
      simpa using this
    simp only [List.length_cons, ReadLine_loop, hlt, hskip, and_self, if_true, ReadLine_names]
    unfold ReadChar
    simp only [hc]
    by_cases hblank : c = kSpace ∨ c = kTab
    · simp only [hblank, if_true]
      by_cases htok : st.tokName = []
      · simp only [htok, List.length_nil, Nat.cast_zero, lt_self_iff_false, gt_iff_lt, if_false,
          ne_eq, not_true_eq_false, List.nil_append]
        rw [key]
        exact hskip
      · have hpos : ((st.tokName.length : Nat) : Int) > 0 := by
          have := List.length_pos.mpr htok
          omega
        simp only [hpos, if_true, ne_eq, htok, not_false_eq_true]
        rw [key]
        all_goals first | exact hskip | simp [mkToken]
    · simp only [hblank, if_false]
      by_cases hbs : c = kBackSlash
      · simp only [hbs, if_true]
        rw [ReadLine_loop_skip _ _ _ _ _ rfl]
        simp
      · simp only [hbs, if_false]
        by_cases hcol : c = kColon
        · subst hcol
          simp only [if_true, true_or, hsep]
          by_cases hs : (IsBlankLetter (pre.getLastD kSpace) && IsBlankLetter (cs.headD kSpace))
              = true
          · simp only [hs, if_true]
            have hr := ReadSeparateSymbol_names fSourceFileIndex kColon true st
            rw [key, hr.1, hr.2.1]
            all_goals first | (rw [hr.2.2]; exact hskip) | simp
          · simp only [hs, Bool.false_eq_true, if_false]
            rw [key]
            exact hskip
        · simp only [hcol, if_false, false_or]
          by_cases hsem : c = kSemColon
          · subst hsem
            simp only [if_true, hsep]
            by_cases hs : (IsBlankLetter (pre.getLastD kSpace) &&
                IsBlankLetter (cs.headD kSpace)) = true
            · simp only [hs, if_true]
              have hr := ReadSeparateSymbol_names fSourceFileIndex kSemColon false st
              rw [key, hr.1, hr.2.1]
              all_goals first | (rw [hr.2.2]; exact hskip) | simp
            · simp only [hs, Bool.false_eq_true, if_false]
              rw [key]
              exact hskip
          · simp only [hsem, if_false]
            by_cases hcs : cs = []
            · subst hcs
              have hend : pre.length + 1 = ln.length := by
                rw [hlen]
                simp
              simp only [hend, if_true, List.length_nil, ReadLine_loop]
              simp [mkToken]
            · have hend : ¬ pre.length + 1 = ln.length := by
                rw [hlen]
                have := List.length_pos.mpr hcs
                omega
              simp only [hend, if_false, hcs]
              rw [key]
              exact hskip
theorem getline_single_line (ln : Name) (hne : ln ≠ []) (hnl : kNewLine ∉ ln) :
    getline ln = some (ln, []) := by
  have hall : ∀ c ∈ ln, (c != kNewLine) = true := by
    intro c hc
    simp only [bne_iff_ne, ne_eq]
    intro h
    exact hnl (h ▸ hc)
  cases ln with
  | nil => exact absurd rfl hne
  | cons a as =>
    simp only [getline]
    rw [List.takeWhile_eq_self_iff.mpr hall, List.dropWhile_eq_nil_iff.mpr hall]
    rfl

theorem Reader_loop_second_line (fSourceFileIndex : Int) (budget : Nat) (st : ReaderState) :
    (Reader_loop fSourceFileIndex budget 1 [] st).1 = st := by
  cases budget with
  | zero => rfl
  | succ n =>
    simp only [Reader_loop, getline]
    split <;> rfl

/-- The names that the debug reader returns for an input of one line are those of
`ReadLine_names` from the start of the line. -/
theorem debugReaderNames_single_line (ln : Name) (hnl : kNewLine ∉ ln) :
    debugReaderNames ln = ReadLine_names kSpace [] ln := by
  by_cases hne : ln = []
  · subst hne
    rfl
  · have h := ReadLine_loop_names kSourceFileIndexSentinel ln ln []
      { fTotalCharCounter := 0 } rfl rfl
    simp only [debugReaderNames, TForthReader_4_Debugging_call, Reader_loop,
      getline_single_line ln hne hnl, and_self, true_or, if_true, Nat.zero_add]
    rw [Reader_loop_second_line]
    simpa [ReadLine] using h
theorem endsGluedAfter_EndsGlued :
    ∀ (post : List Letter) (left : Letter), endsGluedAfter left post = true →
      (∃ c, post = [c] ∧ IsBlankLetter left = false) ∨ EndsGlued post := by
  intro post
  induction post with
  | nil =>
    intro left h
    simp [endsGluedAfter] at h
  | cons c cs ih =>
    intro left h
    cases cs with
    | nil =>
      left
      simp only [endsGluedAfter, Bool.and_eq_true, Bool.not_eq_true'] at h
      exact ⟨c, rfl, h.2⟩
    | cons d cs2 =>
      right
      simp only [endsGluedAfter] at h
      have hsym : ∀ (x : Letter), endsGluedAfter c [x] = true → (x = kColon ∨ x = kSemColon) := by
        intro x hx
        simp only [endsGluedAfter, Bool.and_eq_true, Bool.or_eq_true, beq_iff_eq] at hx
        exact hx.1
      rcases ih c h with ⟨x, hx, hb⟩ | ⟨pre, x, y, hpost, hx, hy⟩
      · rw [hx] at h
        exact ⟨[], c, x, by rw [hx]; rfl, hb, hsym x h⟩
      · exact ⟨c :: pre, x, y, by rw [hpost]; rfl, hx, hy⟩

theorem splitOnP_congr_mem (p q : Letter → Bool) :
    ∀ l : List Letter, (∀ c ∈ l, p c = q c) → l.splitOnP p = l.splitOnP q := by
  intro l
  induction l with
  | nil =>
    intro _
    simp [List.splitOnP_nil]
  | cons a as ih =>
    intro h
    rw [List.splitOnP_cons, List.splitOnP_cons, h a (List.mem_cons_self _ _),
      ih (fun c hc => h c (List.mem_cons_of_mem _ hc))]

/-- The names that the release reader returns for an input of one line without a
backslash are the pieces between its white-space characters. -/
theorem releaseReaderNames_single_line (ln : Name) (hnl : kNewLine ∉ ln)
    (hbs : kBackSlash ∉ ln) :
    releaseReaderNames ln = (ln.splitOnP isspace).filter (fun s => s.length > 0) := by
  by_cases hne : ln = []
  · subst hne
    rfl
  · have hstrip : StripEndingComment ln = ln := by
      simp only [StripEndingComment, std_find_letter_none hbs]
    have hwhile : ∀ pos : Nat, Release_while ([] : List Letter).length.succ pos ln ln []
        = (ln, []) := by
      intro pos
      simp only [List.length_nil, Release_while, getline]
      split <;> rfl
    simp only [releaseReaderNames, TForthReader_Release_call, getline_single_line ln hne hnl,
      hstrip]
    have hread : (match find_first_not_of ln kBlanks with
        | some pos =>
          if ln.getD pos kSpace = kColon then
            Release_while (([] : List Letter).length + 1) pos ln ln []
          else (ln, [])
        | none => (ln, [])) = (ln, []) := by
      cases find_first_not_of ln kBlanks with
      | none => rfl
      | some pos =>
        simp only
        split
        · exact hwhile pos
        · rfl
    rw [hread]
    simp [sregex_token_split, List.map_map, Function.comp_def]
theorem not_EndsGlued_of_last (ln : Name)
    (h : ∀ c, ln.getLast? = some c → c ≠ kColon ∧ c ≠ kSemColon) : ¬ EndsGlued ln := by
  rintro ⟨pre, x, c, hln, _, hc⟩
  have hlast : ln.getLast? = some c := by
    rw [hln]
    simp
  rcases hc with hc | hc
  · exact (h c hlast).1 hc
  · exact (h c hlast).2 hc

/-- The blank sets of the two readers differ.  The one line `dup` followed by a carriage
return, as a line of a file with CR-LF line ends is read, has no backslash; the debug
reader returns the one name of four characters, which is the maximal run of characters
that are no space and no tab, but the release reader, which splits at every white-space
character, returns `dup`. -/
theorem readers_differ_on_carriage_return_counterexample :
    kBackSlash ∉ "dup".toList ++ [Char.ofNat 13] ∧
    kNewLine ∉ "dup".toList ++ [Char.ofNat 13] ∧
    maximalRuns ("dup".toList ++ [Char.ofNat 13]) = ["dup".toList ++ [Char.ofNat 13]] ∧
    debugReaderNames ("dup".toList ++ [Char.ofNat 13]) = ["dup".toList ++ [Char.ofNat 13]] ∧
    releaseReaderNames ("dup".toList ++ [Char.ofNat 13]) = ["dup".toList] := by
  refine ⟨by decide, by decide, by decide, by decide, by decide⟩

/-- Where the two readers agree with the maximal runs: for every input consisting of one
line that contains no backslash and no white-space character other than the space and the
tab, and that does not end with a colon or a semicolon glued to a character before it,
the token names returned by the debug reader are exactly the maximal runs of non-space,
non-tab characters of the line, in order, and so are the names returned by the release
reader. -/
theorem readers_give_maximalRuns (ln : Name)
    (hws : ∀ c ∈ ln, isspace c = true → IsBlankLetter c = true)
    (hbs : kBackSlash ∉ ln) (hglue : ¬ EndsGlued ln) :
    debugReaderNames ln = maximalRuns ln ∧ releaseReaderNames ln = maximalRuns ln := by
  have hnl : kNewLine ∉ ln := by
    intro h
    have := hws kNewLine h (by decide)
    revert this
    decide
  constructor
  · rw [debugReaderNames_single_line ln hnl, maximalRuns_eq_runsFrom]
    apply ReadLine_names_eq_runsFrom ln kSpace [] hbs (fun _ => rfl) _ (fun _ => rfl)
    cases hg : endsGluedAfter kSpace ln with
    | false => rfl
    | true =>
      exfalso
      rcases endsGluedAfter_EndsGlued ln kSpace hg with ⟨c, _, hb⟩ | h
      · revert hb
        decide
      · exact hglue h
  · rw [releaseReaderNames_single_line ln hnl hbs, maximalRuns]
    have hsame : ∀ c ∈ ln, isspace c = IsBlankLetter c := by
      intro c hc
      cases hb : IsBlankLetter c with
      | true =>
        rcases (IsBlankLetter_iff c).mp hb with h | h <;> subst h <;> decide
      | false =>
        cases hs : isspace c with
        | false => rfl
        | true =>
          rw [hws c hc hs] at hb
          cases hb
    rw [splitOnP_congr_mem isspace IsBlankLetter ln hsame]
    apply List.filter_congr
    intro run _
    cases run <;> simp

/-- An instance of the agreement of the readers: the line `10 BUFFER: buf :x ; y`. -/
theorem readers_give_maximalRuns_witness :
    debugReaderNames "10 BUFFER: buf :x ; y".toList
      = ["10".toList, "BUFFER:".toList, "buf".toList, ":x".toList, ";".toList, "y".toList] ∧
    debugReaderNames "10 BUFFER: buf :x ; y".toList
      = maximalRuns "10 BUFFER: buf :x ; y".toList ∧
    releaseReaderNames "10 BUFFER: buf :x ; y".toList
      = maximalRuns "10 BUFFER: buf :x ; y".toList :=
  ⟨by decide,
    readers_give_maximalRuns "10 BUFFER: buf :x ; y".toList (by decide) (by decide)
      (not_EndsGlued_of_last _ (by
        intro c h
        have hc : c = 'y' := by
          have h2 : "10 BUFFER: buf :x ; y".toList.getLast? = some 'y' := by decide
          rw [h2] at h
          exact (Option.some.inj h).symm
        subst hc
        decide))⟩
theorem ReadLine_names_before_comment (rest : List Letter) :
    ∀ (pre : List Letter) (left : Letter) (tok : Name), kBackSlash ∉ pre →
      (∀ x, pre.getLast? = some x → IsBlankLetter x = true) →
      ReadLine_names left tok (pre ++ kBackSlash :: rest) = ReadLine_names left tok pre := by
  intro pre
  induction pre with
  | nil =>
    intro left tok _ _
    simp [ReadLine_names, kBackSlash, kSpace, kTab]
  | cons c cs ih =>
    intro left tok hbs hlast
    have hbs2 : kBackSlash ∉ cs := fun h => hbs (List.mem_cons_of_mem _ h)
    have hlast2 : ∀ x, cs.getLast? = some x → IsBlankLetter x = true := by
      intro x hx
      apply hlast
      cases cs with
      | nil => simp at hx
      | cons d cs2 => simpa [List.getLast?_cons_cons] using hx
    have hcs : IsBlankLetter c = false → cs ≠ [] := by
      intro hc hnil
      subst hnil
      have := hlast c rfl
      rw [hc] at this
      cases this
    have hhead : cs ≠ [] → (cs ++ kBackSlash :: rest).headD kSpace = cs.headD kSpace := by
      intro hne
      cases cs with
      | nil => exact absurd rfl hne
      | cons d cs2 => rfl
    simp only [List.cons_append, ReadLine_names, List.append_eq]
    by_cases hblank : c = kSpace ∨ c = kTab
    · rw [if_pos hblank, if_pos hblank, ih c [] hbs2 hlast2]
    · have hnb : IsBlankLetter c = false := by
        cases hb : IsBlankLetter c with
        | false => rfl
        | true => exact absurd ((IsBlankLetter_iff c).mp hb) hblank
      have hne := hcs hnb
      have hne2 : cs ++ kBackSlash :: rest ≠ [] := by simp
      rw [if_neg hblank, if_neg hblank, hhead hne, ih c (tok ++ [c]) hbs2 hlast2,
        ih c [] hbs2 hlast2]
      simp only [hne, hne2, if_false]

/-- The debug reader on a line whose first backslash stands at the start of the line or
after a blank: the names are those of the line cut before the backslash. -/
theorem debugReader_comment_after_blank (pre rest : List Letter)
    (hnl : kNewLine ∉ pre ++ kBackSlash :: rest) (hbs : kBackSlash ∉ pre)
    (hlast : ∀ x, pre.getLast? = some x → IsBlankLetter x = true) :
    StripEndingComment (pre ++ kBackSlash :: rest) = pre ∧
    debugReaderNames (pre ++ kBackSlash :: rest)
      = debugReaderNames (StripEndingComment (pre ++ kBackSlash :: rest)) := by
  have hstrip : StripEndingComment (pre ++ kBackSlash :: rest) = pre := by
    simp [StripEndingComment, std_find_letter_first pre rest hbs]
  have hnl2 : kNewLine ∉ pre := fun h => hnl (List.mem_append_left _ h)
  rw [hstrip, debugReaderNames_single_line _ hnl, debugReaderNames_single_line _ hnl2]
  exact ⟨rfl, ReadLine_names_before_comment rest pre kSpace [] hbs hlast⟩

/-! ### `CollectTextUpToTokenContaining`: nesting and termination -/

theorem std_find_letter_lt (c : Letter) :
    ∀ (n : Name) (pos : Nat), std_find n [c] = some pos → pos < n.length := by
  intro n
  induction n with
  | nil =>
    intro pos h
    simp [std_find] at h
  | cons x xs ih =>
    intro pos h
    simp only [std_find] at h
    by_cases hp : List.isPrefixOf [c] (x :: xs) = true
    · rw [if_pos hp] at h
      cases h
      simp
    · rw [if_neg hp] at h
      cases hrec : std_find xs [c] with
      | none =>
        rw [hrec] at h
        cases h
      | some q =>
        rw [hrec] at h
        cases h
        have := ih q hrec
        simp only [List.length_cons]
        omega

theorem ContainsSubstrAt_Letter_lt {n : Name} {c : Letter} {pos : Nat}
    (h : ContainsSubstrAt_Letter n c = some pos) : pos < n.length :=
  std_find_letter_lt c n pos h

theorem CollectBudget_cons (tok : Token) (rest : TokenStream) :
    CollectBudget (tok :: rest) = tok.fName.length + 1 + CollectBudget rest := by
  simp [CollectBudget]

/-- With a budget of `CollectBudget ns` iterations or more the loop of
`CollectTextUpToTokenContaining` returns, and a flag `false` comes with an empty stream
and an empty text. -/
theorem CollectLoop_total (enter_letter close_letter : Letter) :
    ∀ (fuel : Nat) (ns : TokenStream) (str : Name) (internal_mode : Bool),
      CollectBudget ns ≤ fuel →
      ∃ flag text rest,
        CollectLoop enter_letter close_letter fuel ns str internal_mode
          = some ((flag, text), rest) ∧ (flag = false → rest = [] ∧ text = []) := by
  intro fuel
  induction fuel with
  | zero =>
    intro ns str internal_mode hb
    cases ns with
    | nil => exact ⟨false, [], [], by simp [CollectLoop], fun _ => ⟨rfl, rfl⟩⟩
    | cons tok rest =>
      rw [CollectBudget_cons] at hb
      omega
  | succ fuel ih =>
    intro ns str internal_mode hb
    cases ns with
    | nil => exact ⟨false, [], [], by simp [CollectLoop], fun _ => ⟨rfl, rfl⟩⟩
    | cons tok rest =>
      rw [CollectBudget_cons] at hb
      have hrest : CollectBudget rest ≤ fuel := by omega
      simp only [CollectLoop]
      cases henter : ContainsSubstrAt_Letter tok.fName enter_letter with
      | some p0 =>
        cases hclose : ContainsSubstrAt_Letter tok.fName close_letter with
        | none => exact ih rest _ true hrest
        | some pos =>
          have hpos := ContainsSubstrAt_Letter_lt hclose
          refine ih _ _ internal_mode ?_
          rw [CollectBudget_cons]
          simp only [SplitAt, List.length_drop]
          omega
      | none =>
        cases hclose : ContainsSubstrAt_Letter tok.fName close_letter with
        | none => exact ih rest _ internal_mode hrest
        | some pos =>
          cases internal_mode with
          | true => exact ih rest _ false hrest
          | false =>
            exact ⟨true, _, rest, rfl, fun h => by cases h⟩

/-- C40: `CollectTextUpToTokenContaining` returns on every token stream and every pair of
letters.  One iteration of its loop on the stream `tok :: rest` returns `true` leaving
`rest`, or goes on with `rest` (a token removed), or goes on with the first token replaced
by what is left of its name after dropping `k` characters, `k` at least 1 (the number of
tokens the same, their characters fewer).  When the flag returned is `false` the stream
is empty. -/
theorem CollectTextUpToTokenContaining_terminates (enter_letter close_letter : Letter) :
    (∀ (fuel : Nat) (tok : Token) (rest : TokenStream) (str : Name) (internal_mode : Bool),
      (∃ text, CollectLoop enter_letter close_letter (fuel + 1) (tok :: rest) str internal_mode
          = some ((true, text), rest)) ∨
      (∃ str1 mode1, CollectLoop enter_letter close_letter (fuel + 1) (tok :: rest) str
          internal_mode = CollectLoop enter_letter close_letter fuel rest str1 mode1) ∨
      (∃ k str1, 0 < k ∧ k ≤ tok.fName.length ∧
        CollectLoop enter_letter close_letter (fuel + 1) (tok :: rest) str internal_mode
          = CollectLoop enter_letter close_letter fuel
              ({ fName := tok.fName.drop k } :: rest) str1 internal_mode)) ∧
    ∀ ns : TokenStream, ∃ flag text rest,
      CollectTextUpToTokenContaining ns enter_letter close_letter = some ((flag, text), rest) ∧
        (flag = false → rest = []) := by
  refine ⟨?_, fun ns => ?_⟩
  · intro fuel tok rest str internal_mode
    simp only [CollectLoop]
    cases henter : ContainsSubstrAt_Letter tok.fName enter_letter with
    | some p0 =>
      cases hclose : ContainsSubstrAt_Letter tok.fName close_letter with
      | none => exact Or.inr (Or.inl ⟨_, _, rfl⟩)
      | some pos =>
        have hpos := ContainsSubstrAt_Letter_lt hclose
        exact Or.inr (Or.inr ⟨pos + 1, _, by omega, by omega, rfl⟩)
    | none =>
      cases hclose : ContainsSubstrAt_Letter tok.fName close_letter with
      | none => exact Or.inr (Or.inl ⟨_, _, rfl⟩)
      | some pos =>
        cases internal_mode with
        | true => exact Or.inr (Or.inl ⟨_, _, rfl⟩)
        | false => exact Or.inl ⟨_, rfl⟩
  · obtain ⟨flag, text, rest, h, hf⟩ :=
      CollectLoop_total enter_letter close_letter (CollectBudget ns) ns [] false (le_refl _)
    exact ⟨flag, text, rest, h, fun hflag => (hf hflag).1⟩
/-- C32, the code at the stream of the claim: with `(` and `)` the stream
`(a` `(b` `c)` `d)` `e)` `f` is collected only up to `d)`, the text being `(a (b c) d`,
and `e)` `f` are left: `internal_mode` is a flag that the first `(` sets, the second `(`
sets again and `c)` clears, so `d)`, which closes the enclosure opened by `(a`, ends the
collection. -/
theorem CollectTextUpToTokenContaining_second_level :
    CollectTextUpToTokenContaining
        [tokenOf "(a", tokenOf "(b", tokenOf "c)", tokenOf "d)", tokenOf "e)", tokenOf "f"]
        '(' ')'
      = some ((true, "(a (b c) d".toList), [tokenOf "e)", tokenOf "f"]) := by
  rfl

/-! ### Integer literals: the hexadecimal mark and the range -/

/-- C36, the code at the token `0|1A` with `BASE` holding 16: the class `[x|X]` of
`kHexIntVal` has the bar as a member, so `IsInteger` accepts the token, which is not `0x`
or `0X` followed by hexadecimal digits; `std::stoll` reads its leading `0`, and the driver
pushes the cell 0. -/
theorem IsInteger_hex_accepts_bar :
    ReadVariable (machineWithBase 16) kBASE = 16 ∧
      IsInteger "0|1A".toList (ReadTheBase (machineWithBase 16)) = true ∧
      Word_2_Integer (machineWithBase 16) "0|1A".toList = .ok 0 ∧
      ExecuteWords idleEnv 2 [tokenOf "0|1A"] (machineWithBase 16)
        = some (.ok (), [], { machineWithBase 16 with fDataStack := [0] }) := by
  refine ⟨by decide, by decide, rfl, rfl⟩

theorem stoll_digits_eq (neg : Bool) (s ds : Name) (hs : s.dropWhile isspace = s)
    (hsign : takeSign s = (neg, ds)) (hne : ds ≠ []) (hd : ∀ c ∈ ds, IsDecDigit c) :
    stoll s 10
      = if -(2 : Int) ^ 63 ≤ (if neg then -(decimalValue ds : Int) else decimalValue ds) ∧
          (if neg then -(decimalValue ds : Int) else (decimalValue ds : Int)) ≤ (2 : Int) ^ 63 - 1
        then some (if neg then -(decimalValue ds : Int) else decimalValue ds) else none := by
  have hempty : (List.map (fun c : Letter => c.toNat - 48) ds).isEmpty = false := by
    cases ds with
    | nil => exact absurd rfl hne
    | cons _ _ => rfl
  have hfold := foldl_decimal (List.map (fun c : Letter => c.toNat - 48) ds) 0
  simp only [zero_mul, zero_add, ← List.map_reverse] at hfold
  unfold stoll
  simp only [hs, hsign, skipHexMark_decimal, takeDigits_decimal ds hd, hempty,
    Bool.false_eq_true, if_false]
  rw [hfold]
  simp only [decimalValue]

theorem stoll_out_of_range {tok : Name} {n : Int} (h : IsDecimalRendering tok n)
    (hr : n < -(2 : Int) ^ 63 ∨ (2 : Int) ^ 63 - 1 < n) : stoll tok 10 = none := by
  have hplus : isspace '+' = false := by decide
  have hminus : isspace '-' = false := by decide
  have hnot : ¬ (-(2 : Int) ^ 63 ≤ n ∧ n ≤ (2 : Int) ^ 63 - 1) := by
    intro hin
    rcases hr with h1 | h1
    · exact absurd hin.1 (not_le.mpr h1)
    · exact absurd hin.2 (not_le.mpr h1)
  obtain ⟨ds, hne, hd, h⟩ := h
  rcases h with ⟨rfl, rfl⟩ | ⟨rfl, rfl⟩ | ⟨rfl, rfl⟩
  · cases tok with
    | nil => exact absurd rfl hne
    | cons c cs =>
      have hc := hd c (List.mem_cons_self _ _)
      rw [stoll_digits_eq false (c :: cs) (c :: cs)
        (by simp [List.dropWhile, hc.not_space]) (hc.takeSign cs) hne hd]
      exact if_neg (by simpa using hnot)
  · rw [stoll_digits_eq false ('+' :: ds) ds (by simp [List.dropWhile, hplus]) rfl hne hd]
    exact if_neg (by simpa using hnot)
  · rw [stoll_digits_eq true ('-' :: ds) ds (by simp [List.dropWhile, hminus]) rfl hne hd]
    exact if_neg (by simpa using hnot)

/-- C31, refuted as stated: with the debugger on and the answer `a` at its prompt, the
driver on the token `9223372036854775808`, a decimal literal above the range, raises
`DEBUGGING aborted by a user` and not the error of the literal. -/
theorem integer_out_of_range_counterexample :
    ReadTheBase { fDebugMode_On := true, cin := "a".toList } = EIntCompBase.kDec ∧
      IsInteger "9223372036854775808".toList EIntCompBase.kDec = true ∧
      (2 : Int) ^ 63 - 1 < (decimalValue "9223372036854775808".toList : Int) ∧
      ExecuteWords idleEnv 2 [tokenOf "9223372036854775808"]
          { fDebugMode_On := true, cin := "a".toList }
        = some (throwForth "DEBUGGING aborted by a user", [tokenOf "9223372036854775808"],
            { fDebugMode_On := true }) := by
  refine ⟨by decide, by decide, by decide, rfl⟩

/-- C31, amended: with `BASE` reading decimal and the debugger off, for every token that
is an optional sign followed by decimal digits whose value `n` lies outside
`[-2^63, 2^63 - 1]`, the driver on a stream led by the token raises the error
`wrong format of the integer literal` and leaves the machine and the stream as they were:
nothing is pushed and the token is not consumed. -/
theorem ExecuteWords_integer_out_of_range (env : Env) (fuel : Nat) (m : Machine) (tok : Name)
    (dfi : DebugFileInfo) (rest : TokenStream) (n : Int)
    (hbase : ReadTheBase m = EIntCompBase.kDec) (hdbg : m.fDebugMode_On = false)
    (hrender : IsDecimalRendering tok n)
    (hrange : n < -(2 : Int) ^ 63 ∨ (2 : Int) ^ 63 - 1 < n) :
    ExecuteWords env (fuel + 1) ({ fName := tok, fDebugFileInfo := dfi } :: rest) m
      = some (.error (.forthError { what := "wrong format of the integer literal".toList }),
          { fName := tok, fDebugFileInfo := dfi } :: rest, m) := by
  obtain ⟨c, cs, rfl, hc⟩ := hrender.head
  have hkw : ∀ k ∈ kLeadingKeywords, CheckMatch (c :: cs) k = false :=
    fun k hk => literal_head_not_keyword hc cs hk
  have hpcs := ProcessContextSequences_plain env { fName := c :: cs, fDebugFileInfo := dfi }
    rest m
    (hkw _ (by simp [kLeadingKeywords])) (hkw _ (by simp [kLeadingKeywords]))
    (hkw _ (by simp [kLeadingKeywords])) (hkw _ (by simp [kLeadingKeywords]))
    (hkw _ (by simp [kLeadingKeywords])) (hkw _ (by simp [kLeadingKeywords]))
  have hint := hrender.isInteger
  have hval : Word_2_Integer m (c :: cs) = .error (.forthError kWrongIntegerFormat) := by
    simp [Word_2_Integer, hbase, EIntCompBase.toNat, stoll_out_of_range hrender hrange]
  rw [ExecuteWords]
  simp only [List.length_cons, Nat.add_one_ne_zero, if_false, NameAt, List.getD_cons_zero,
    hkw kDEBUGGER (by simp [kLeadingKeywords]), Bool.false_eq_true,
    CallDebugWord_off env _ _ m hdbg, hpcs, hbase, hint, if_true, hval]
  rfl

/-- C31, an instance of the amended claim: the token `9223372036854775808`, whose value
is `2^63`, before the token `7` on an empty machine. -/
theorem ExecuteWords_integer_out_of_range_witness :
    ExecuteWords idleEnv 1 [tokenOf "9223372036854775808", tokenOf "7"] {}
      = some (.error (.forthError { what := "wrong format of the integer literal".toList }),
          [tokenOf "9223372036854775808", tokenOf "7"], {}) :=
  ExecuteWords_integer_out_of_range idleEnv 0 {} "9223372036854775808".toList {}
    [tokenOf "7"] (decimalValue "9223372036854775808".toList) (by decide) rfl
    ⟨"9223372036854775808".toList, by decide, by decide, Or.inl ⟨rfl, rfl⟩⟩
    (Or.inr (by decide))
/-! ### The driver: the debugger switch and the token after a context sequence -/

/-- C38: for every stream `DEBUGGER ON rest...` and `DEBUGGER OFF rest...`, the two
leading tokens in any letter case, the driver returns normally with the debug mode set
accordingly and the tokens of `rest` left in the stream, none of them dispatched: the
data stack, the return stack and the dictionary are as they were, whatever `rest`
contains and whatever the mode was before. -/
theorem ExecuteWords_DEBUGGER_switch (env : Env) (fuel : Nat) (d o : Token)
    (rest : TokenStream) (m : Machine) (hd : CheckMatch d.fName kDEBUGGER = true) :
    (CheckMatch o.fName kON = true →
      ExecuteWords env (fuel + 1) (d :: o :: rest) m
        = some (.ok (), rest, { m with fDebugMode_On := true })) ∧
    (CheckMatch o.fName kOFF = true →
      ExecuteWords env (fuel + 1) (d :: o :: rest) m
        = some (.ok (), rest, { m with fDebugMode_On := false })) := by
  constructor
  · intro ho
    simp [ExecuteWords, NameAt, hd, ho, Erase_n_First_Words, Machine.SetDebugMode]
  · intro ho
    have hon := CheckMatch_exclusive kON ho (by decide)
    simp [ExecuteWords, NameAt, hd, ho, hon, Erase_n_First_Words, Machine.SetDebugMode]

/-- C38, an instance: `debugger On` before `1 DUP CHAR` on a machine with the cells 7 and
8 on its stacks, and `DEBUGGER off` before the same tokens with the debugger on. -/
theorem ExecuteWords_DEBUGGER_switch_witness :
    ExecuteWords idleEnv 1
        [tokenOf "debugger", tokenOf "On", tokenOf "1", tokenOf "DUP", tokenOf "CHAR"]
        { fDataStack := [7], fRetStack := [8] }
      = some (.ok (), [tokenOf "1", tokenOf "DUP", tokenOf "CHAR"],
          { fDataStack := [7], fRetStack := [8], fDebugMode_On := true }) ∧
    ExecuteWords idleEnv 1
        [tokenOf "DEBUGGER", tokenOf "off", tokenOf "1", tokenOf "DUP", tokenOf "CHAR"]
        { fDataStack := [7], fRetStack := [8], fDebugMode_On := true }
      = some (.ok (), [tokenOf "1", tokenOf "DUP", tokenOf "CHAR"],
          { fDataStack := [7], fRetStack := [8], fDebugMode_On := false }) :=
  ⟨(ExecuteWords_DEBUGGER_switch idleEnv 0 (tokenOf "debugger") (tokenOf "On")
      [tokenOf "1", tokenOf "DUP", tokenOf "CHAR"] { fDataStack := [7], fRetStack := [8] }
      (by decide)).1 (by decide),
    (ExecuteWords_DEBUGGER_switch idleEnv 0 (tokenOf "DEBUGGER") (tokenOf "off")
      [tokenOf "1", tokenOf "DUP", tokenOf "CHAR"]
      { fDataStack := [7], fRetStack := [8], fDebugMode_On := true } (by decide)).2
      (by decide)⟩

/-- C37: a stream led by one of `FIND`, the tick, `TO`, `CHAR` and `,"` (in any letter
case), the debugger hook having returned with the machine `m1` and
`ProcessContextSequences` having consumed the sequence, leaving the token `t2` first on the
machine `m2`.  The driver classifies `t2` directly, whatever `t2` is, a prefix of a context
sequence included, and `ProcessContextSequences` is not applied to it: an integer literal
is pushed and the driver goes on behind it; a float literal is pushed and the driver goes
on behind it; a defining word, for which `ProcessDefiningWord` answers `true`, is consumed
with the name behind it and the driver goes on behind both; a word of the dictionary for
which `ProcessDefiningWord` answers `false` is called and the driver goes on behind it; a
token that is no integer literal, no float literal and no word of the dictionary raises
`unknown word - t2` with `t2` and the tokens behind it left in the stream. -/
theorem ExecuteWords_after_context_sequence (env : Env) (fuel : Nat) (lead t2 : Token)
    (rest rest2 : TokenStream) (m m1 m2 : Machine)
    (hlead : CheckMatch lead.fName kFIND = true ∨ CheckMatch lead.fName kTick = true ∨
      CheckMatch lead.fName kTO = true ∨ CheckMatch lead.fName kCHAR = true ∨
      CheckMatch lead.fName kCommaQuote = true)
    (hdebug : CallDebugWord env lead.fName lead.fDebugFileInfo m = some (.ok (), m1))
    (hpcs : ProcessContextSequences env (lead :: rest) m1 = some (.ok (), t2 :: rest2, m2)) :
    (∀ v : SignedIntType, IsInteger t2.fName (ReadTheBase m2) = true →
      Word_2_Integer m2 t2.fName = .ok v →
      ExecuteWords env (fuel + 1) (lead :: rest) m
        = ExecuteWords env fuel rest2
            { m2 with fDataStack := SignedInt_2_Cell v :: m2.fDataStack }) ∧
    (∀ bits : CellType, IsInteger t2.fName (ReadTheBase m2) = false →
      IsFloatingPt t2.fName = true → env.stod t2.fName = some bits →
      ExecuteWords env (fuel + 1) (lead :: rest) m
        = ExecuteWords env fuel rest2
            { m2 with fDataStack := BlindValueReInterpretation 8 8 bits :: m2.fDataStack }) ∧
    (∀ m3 : Machine, IsInteger t2.fName (ReadTheBase m2) = false →
      IsFloatingPt t2.fName = false →
      ProcessDefiningWord env t2.fName (t2 :: rest2) m2 = some (.ok true, m3) →
      ExecuteWords env (fuel + 1) (lead :: rest) m
        = ExecuteWords env fuel (rest2.drop 1) m3) ∧
    (∀ (entry : WordEntry) (m3 m4 : Machine), IsInteger t2.fName (ReadTheBase m2) = false →
      IsFloatingPt t2.fName = false →
      ProcessDefiningWord env t2.fName (t2 :: rest2) m2 = some (.ok false, m3) →
      GetWordEntry m3 t2.fName = some entry →
      env.call entry.fWordUP m3 = some (.ok (), m4) →
      ExecuteWords env (fuel + 1) (lead :: rest) m = ExecuteWords env fuel rest2 m4) ∧
    (IsInteger t2.fName (ReadTheBase m2) = false → IsFloatingPt t2.fName = false →
      GetWordEntry m2 t2.fName = none →
      ExecuteWords env (fuel + 1) (lead :: rest) m
        = some (.error (.forthError
            { what := "unknown word - ".toList ++ t2.fName, fClearStacks := false }),
            t2 :: rest2, m2)) := by
  have hnot : CheckMatch lead.fName kDEBUGGER = false := by
    rcases hlead with h | h | h | h | h
    · exact CheckMatch_exclusive kDEBUGGER h (by decide)
    · exact CheckMatch_exclusive kDEBUGGER h (by decide)
    · exact CheckMatch_exclusive kDEBUGGER h (by decide)
    · exact CheckMatch_exclusive kDEBUGGER h (by decide)
    · exact CheckMatch_exclusive kDEBUGGER h (by decide)
  refine ⟨?_, ?_, ?_, ?_, ?_⟩
  · intro v hint hval
    rw [ExecuteWords]
    simp only [List.length_cons, Nat.add_one_ne_zero, if_false, NameAt, List.getD_cons_zero,
      hnot, Bool.false_eq_true, hdebug, hpcs, hint, if_true, hval, Erase_n_First_Words,
      List.drop_one, List.tail_cons, Machine.PushData, Stack_Push]
  · intro bits hint hfloat hstod
    rw [ExecuteWords]
    simp only [List.length_cons, Nat.add_one_ne_zero, if_false, NameAt, List.getD_cons_zero,
      hnot, Bool.false_eq_true, hdebug, hpcs, hint, hfloat, if_true, hstod,
      Erase_n_First_Words, List.drop_one, List.tail_cons, Machine.PushData, Stack_Push]
  · intro m3 hint hfloat hdef
    rw [ExecuteWords]
    simp only [List.length_cons, Nat.add_one_ne_zero, if_false, NameAt, List.getD_cons_zero,
      hnot, Bool.false_eq_true, hdebug, hpcs, hint, hfloat, hdef, Erase_n_First_Words,
      List.drop_succ_cons]
  · intro entry m3 m4 hint hfloat hdef hentry hcall
    rw [ExecuteWords]
    simp only [List.length_cons, Nat.add_one_ne_zero, if_false, NameAt, List.getD_cons_zero,
      hnot, Bool.false_eq_true, hdebug, hpcs, hint, hfloat, hdef, ExecWord, hentry, hcall,
      Erase_n_First_Words, List.drop_one, List.tail_cons]
  · intro hint hfloat hdict
    rw [ExecuteWords]
    simp [NameAt, hnot, hdebug, hpcs, hint, hfloat, ProcessDefiningWord, ExecWord, hdict,
      kUnknownWord]

/-- C37, instances, the debugger off.  `CHAR a CHAR b` on an empty machine, the instance of
the claim: the code 97 of `a` is pushed and the second `CHAR` goes to the dictionary
lookup, which raises `unknown word - CHAR`; `CHAR b` is left in the stream.  `CHAR a 5` and
`CHAR a 1.5`: the literal after the sequence is pushed.  `CHAR a X Y` on a machine whose
word `X` is defining: `X Y` is consumed as a definition.  `CHAR a BASE` on a machine with
the word `BASE`: the word is called. -/
theorem ExecuteWords_after_context_sequence_witness :
    ExecuteWords idleEnv 1 [tokenOf "CHAR", tokenOf "a", tokenOf "CHAR", tokenOf "b"] {}
        = some (.error (.forthError
            { what := "unknown word - CHAR".toList, fClearStacks := false }),
            [tokenOf "CHAR", tokenOf "b"], { fDataStack := [97] }) ∧
      ExecuteWords idleEnv 2 [tokenOf "CHAR", tokenOf "a", tokenOf "5"] {}
        = some (.ok (), [], { fDataStack := [5, 97] }) ∧
      ExecuteWords idleEnv 2 [tokenOf "CHAR", tokenOf "a", tokenOf "1.5"] {}
        = some (.ok (), [], { fDataStack := [0, 97] }) ∧
      (∃ m3 : Machine,
        ProcessDefiningWord creatingEnv "X".toList [tokenOf "X", tokenOf "Y"]
            { definingMachine [7] with fDataStack := [97] } = some (.ok true, m3) ∧
        ExecuteWords creatingEnv 2 [tokenOf "CHAR", tokenOf "a", tokenOf "X", tokenOf "Y"]
            (definingMachine [7]) = some (.ok (), [], m3)) ∧
      ExecuteWords idleEnv 2 [tokenOf "CHAR", tokenOf "a", tokenOf "BASE"] (machineWithBase 10)
        = some (.ok (), [], { machineWithBase 10 with fDataStack := [97] }) := by
  refine ⟨?_, ?_, ?_, ?_, ?_⟩
  · exact (ExecuteWords_after_context_sequence idleEnv 0 (tokenOf "CHAR") (tokenOf "CHAR")
      [tokenOf "a", tokenOf "CHAR", tokenOf "b"] [tokenOf "b"] {} {} { fDataStack := [97] }
      (Or.inr (Or.inr (Or.inr (Or.inl (by decide))))) rfl rfl).2.2.2.2 (by decide) (by decide)
      rfl
  · exact ((ExecuteWords_after_context_sequence idleEnv 1 (tokenOf "CHAR") (tokenOf "5")
      [tokenOf "a", tokenOf "5"] [] {} {} { fDataStack := [97] }
      (Or.inr (Or.inr (Or.inr (Or.inl (by decide))))) rfl rfl).1 5 (by decide) rfl).trans rfl
  · exact ((ExecuteWords_after_context_sequence idleEnv 1 (tokenOf "CHAR") (tokenOf "1.5")
      [tokenOf "a", tokenOf "1.5"] [] {} {} { fDataStack := [97] }
      (Or.inr (Or.inr (Or.inr (Or.inl (by decide))))) rfl rfl).2.1 0 (by decide) (by decide)
      rfl).trans rfl
  · obtain ⟨m3, h3⟩ : ∃ m3 : Machine,
        ProcessDefiningWord creatingEnv "X".toList [tokenOf "X", tokenOf "Y"]
          { definingMachine [7] with fDataStack := [97] } = some (.ok true, m3) := ⟨_, rfl⟩
    refine ⟨m3, h3, ?_⟩
    exact ((ExecuteWords_after_context_sequence creatingEnv 1 (tokenOf "CHAR") (tokenOf "X")
      [tokenOf "a", tokenOf "X", tokenOf "Y"] [tokenOf "Y"] (definingMachine [7])
      (definingMachine [7]) { definingMachine [7] with fDataStack := [97] }
      (Or.inr (Or.inr (Or.inr (Or.inl (by decide))))) rfl rfl).2.2.1 m3 (by decide)
      (by decide) h3).trans (ExecuteWords_nil creatingEnv 0 m3)
  · exact ((ExecuteWords_after_context_sequence idleEnv 1 (tokenOf "CHAR") (tokenOf "BASE")
      [tokenOf "a", tokenOf "BASE"] [] (machineWithBase 10) (machineWithBase 10)
      { machineWithBase 10 with fDataStack := [97] }
      (Or.inr (Or.inr (Or.inr (Or.inl (by decide))))) rfl rfl).2.2.2.1
      { fWordUP := 0 } { machineWithBase 10 with fDataStack := [97] }
      { machineWithBase 10 with fDataStack := [97] } (by decide) (by decide) rfl rfl
      rfl).trans rfl

/-! ### `CO_RANGE` on an invalid triple, call after call -/

theorem CoRange_resume_invalid (from_ to_ step : Int)
    (hup : ¬ (from_ < to_ ∧ step > 0)) (hdown : ¬ (from_ > to_ ∧ step < 0)) :
    CoRange_resume (CreateCoRange from_ to_ step)
      = { CreateCoRange from_ to_ step with
          point := .final, value := .exception kWrongIterationParameters } := by
  have h1 : ¬ ((CreateCoRange from_ to_ step).first < (CreateCoRange from_ to_ step).last ∧
      (CreateCoRange from_ to_ step).step > 0) := hup
  have h2 : ¬ ((CreateCoRange from_ to_ step).first > (CreateCoRange from_ to_ step).last ∧
      (CreateCoRange from_ to_ step).step < 0) := hdown
  have hp : (CreateCoRange from_ to_ step).point = .initial := rfl
  simp only [CoRange_resume, hp, h1, h2, if_false]

/-- C35: a `CO_RANGE` word whose initialising call pops a triple that satisfies neither
(`from < to` and `step > 0`) nor (`from > to` and `step < 0`).  The initialising call
raises nothing: it pops the three cells and stores the generator, suspended before its
body.  The second call, on whatever machine, raises the range error
`Wrong iteration parameters when creating CoRange` and leaves the machine as it was, the
generator being done from then on.  Every later call, on whatever machine, returns
normally, leaves the machine as it was (nothing pushed) and the generator done, so that
the error is raised once. -/
theorem CoRange_invalid_triple_raises_once (from_ to_ step : Int) (hf : InSignedRange from_)
    (ht : InSignedRange to_) (hs : InSignedRange step)
    (hup : ¬ (from_ < to_ ∧ step > 0)) (hdown : ¬ (from_ > to_ ∧ step < 0))
    (m : Machine) (rest : List CellType)
    (hstack : m.fDataStack
      = SignedInt_2_Cell step :: SignedInt_2_Cell to_ :: SignedInt_2_Cell from_ :: rest) :
    ∃ done : CoRangeFrame,
      CoRange_call none m
        = (some (CreateCoRange from_ to_ step), .ok (), { m with fDataStack := rest }) ∧
      (CreateCoRange from_ to_ step).point = .initial ∧
      (∀ m2 : Machine, CoRange_call (some (CreateCoRange from_ to_ step)) m2
        = (some done, .error (.forthError
            { what := "Wrong iteration parameters when creating CoRange".toList }), m2)) ∧
      (∀ m3 : Machine, CoRange_call (some done) m3 = (some done, .ok (), m3)) := by
  have hres := CoRange_resume_invalid from_ to_ step hup hdown
  refine ⟨{ CreateCoRange from_ to_ step with
      point := .final, value := .exception kWrongIterationParameters },
    CoRange_call_first from_ to_ step hf ht hs m rest hstack, rfl, fun m2 => ?_, fun m3 => ?_⟩
  · rw [← hres]
    exact CoRange_call_raise (CreateCoRange from_ to_ step) m2 kWrongIterationParameters
      (by simp [CreateCoRange]) (by rw [hres]) (by rw [hres])
  · exact CoRange_call_done _ m3 rfl

/-- C35, an instance: the triple `5 5 1` under the cell 99.  Of four calls in a row the
second raises the range error; made on from there, the third and the fourth call leave the
stack `[99]` and raise nothing. -/
theorem CoRange_invalid_triple_raises_once_witness :
    ∃ done : CoRangeFrame,
      CoRange_calls 1 none { fDataStack := [1, 5, 5, 99] }
        = (some (CreateCoRange 5 5 1), .ok (), { fDataStack := [99] }) ∧
      CoRange_calls 2 none { fDataStack := [1, 5, 5, 99] }
        = (some done, .error (.forthError
            { what := "Wrong iteration parameters when creating CoRange".toList }),
            { fDataStack := [99] }) ∧
      CoRange_calls 2 (some done) { fDataStack := [99] }
        = (some done, .ok (), { fDataStack := [99] }) := by
  obtain ⟨done, h1, -, h2, h3⟩ :=
    CoRange_invalid_triple_raises_once 5 5 1 (by decide) (by decide) (by decide) (by decide)
      (by decide) { fDataStack := [1, 5, 5, 99] } [99] rfl
  refine ⟨done, h1, ?_, ?_⟩
  · simp only [CoRange_calls]
    rw [h1]
    exact h2 _
  · simp only [CoRange_calls, h3]
/-! ### The time slice of a fiber -/

/-- The loop of a fiber whose body always leaves a non-zero cell, entered where `j + 1`
iterations or more are still to run: when the clock reading after the iteration `j` is
the first that lies more than the time slice after `tp0`, the loop runs `j + 1`
iterations and suspends. -/
theorem Fiber_loop_slice (env : Env) (clock : Nat → Int) (r : Int) (p : WordPtr)
    (hbody : ∀ m : Machine, ∃ m1 v s,
      env.call p m = some (.ok (), m1) ∧ m1.fDataStack = v :: s ∧ v ≠ 0) :
    ∀ (j fuel : Nat) (f : FiberFrame) (m : Machine) (reads : Nat),
      f.rotations = r → f.p = p →
      (r = -1 ∨ (0 ≤ f.i ∧ f.i + (j : Int) < r ∧ r < 2 ^ 31)) →
      (∀ k, k < j → clock (reads + k) - f.tp0 ≤ f.time_slice) →
      clock (reads + j) - f.tp0 > f.time_slice →
      j < fuel →
      ∃ f1 m1, Fiber_loop env clock fuel f m reads = some (.ok (), f1, m1, reads + j + 1) ∧
        f1.point = .awaiting ∧ f1.bodyCalls = f.bodyCalls + j + 1 := by
  intro j
  induction j with
  | zero =>
    intro fuel f m reads hrot hp hiter _ hlast hfuel
    obtain ⟨fuel, rfl⟩ : ∃ g, fuel = g + 1 := ⟨fuel - 1, by omega⟩
    have hcond : (f.rotations == -1) = true ∨ f.i < f.rotations := by
      rw [hrot]
      rcases hiter with h | ⟨_, h, _⟩
      · exact Or.inl (by simp [h])
      · exact Or.inr (by simpa using h)
    obtain ⟨m1, v, s, hcall, hstack, hv⟩ := hbody m
    rw [← hp] at hcall
    simp only [Fiber_loop, if_pos hcond, hcall, hstack, Stack_Pop, if_neg hv]
    rw [if_pos (by simpa using hlast)]
    exact ⟨_, _, rfl, rfl, rfl⟩
  | succ j ih =>
    intro fuel f m reads hrot hp hiter hbefore hlast hfuel
    obtain ⟨fuel, rfl⟩ : ∃ g, fuel = g + 1 := ⟨fuel - 1, by omega⟩
    have hcond : (f.rotations == -1) = true ∨ f.i < f.rotations := by
      rw [hrot]
      rcases hiter with h | ⟨_, h, _⟩
      · exact Or.inl (by simp [h])
      · exact Or.inr (by push_cast at h; omega)
    obtain ⟨m1, v, s, hcall, hstack, hv⟩ := hbody m
    rw [← hp] at hcall
    have hnow : ¬ (clock reads - f.tp0 > f.time_slice) :=
      not_lt.mpr (by simpa using hbefore 0 (Nat.succ_pos j))
    simp only [Fiber_loop, if_pos hcond, hcall, hstack, Stack_Pop, if_neg hv, if_neg hnow]
    have hiter1 : r = -1 ∨ (0 ≤ wrapInt32 (f.i + 1) ∧ wrapInt32 (f.i + 1) + (j : Int) < r ∧
        r < 2 ^ 31) := by
      rcases hiter with h | ⟨h0, h1, h2⟩
      · exact Or.inl h
      · have e31 : ((2 : Int) ^ 31) = 2147483648 := by norm_num
        have hw : wrapInt32 (f.i + 1) = f.i + 1 :=
          wrapInt32_of_small _ (by omega) (by rw [e31] at h2 ⊢; push_cast at h1; omega)
        rw [hw]
        exact Or.inr ⟨by omega, by push_cast at h1; omega, h2⟩
    obtain ⟨f1, m2, hloop, hpoint, hcalls⟩ :=
      ih fuel { f with bodyCalls := f.bodyCalls + 1, statuses := v :: f.statuses,
                       i := wrapInt32 (f.i + 1) }
        { m1 with fDataStack := s } (reads + 1) hrot hp hiter1
        (fun k hk => by
          have := hbefore (k + 1) (by omega)
          rw [show reads + 1 + k = reads + (k + 1) by omega]
          exact this)
        (by
          rw [show reads + 1 + j = reads + (j + 1) by omega]
          exact hlast)
        (by omega)
    refine ⟨f1, m2, ?_, hpoint, ?_⟩
    · rw [hloop]
      rw [show reads + 1 + j + 1 = reads + (j + 1) + 1 by omega]
    · rw [hcalls]
      simp only
      omega

/-- The loop of a fiber of `r` rotations whose body always leaves a non-zero cell, entered
with `n` iterations left: when no clock reading after one of them lies more than the time
slice after `tp0`, the loop runs the `n` iterations without suspending and the fiber is
done. -/
theorem Fiber_loop_within_slice (env : Env) (clock : Nat → Int) (r : Int) (p : WordPtr)
    (hr : r < 2 ^ 31)
    (hbody : ∀ m : Machine, ∃ m1 v s,
      env.call p m = some (.ok (), m1) ∧ m1.fDataStack = v :: s ∧ v ≠ 0) :
    ∀ (n fuel : Nat) (f : FiberFrame) (m : Machine) (reads : Nat),
      f.rotations = r → f.p = p → 0 ≤ f.i → f.i + (n : Int) = r →
      (∀ k, k < n → clock (reads + k) - f.tp0 ≤ f.time_slice) →
      n < fuel →
      ∃ f1 m1, Fiber_loop env clock fuel f m reads = some (.ok (), f1, m1, reads + n) ∧
        f1.point = .final ∧ f1.bodyCalls = f.bodyCalls + n := by
  have e31 : ((2 : Int) ^ 31) = 2147483648 := by norm_num
  intro n
  induction n with
  | zero =>
    intro fuel f m reads hrot hp h0 hi _ hfuel
    obtain ⟨fuel, rfl⟩ : ∃ g, fuel = g + 1 := ⟨fuel - 1, by omega⟩
    have hpre : (f.rotations == -1) = false := by
      rw [hrot]
      have : r ≠ -1 := by
        simp only [Nat.cast_zero, add_zero] at hi
        omega
      simpa using this
    have hlt : ¬ f.i < f.rotations := by
      rw [hrot]
      simp only [Nat.cast_zero, add_zero] at hi
      omega
    simp only [Fiber_loop, hpre, Bool.false_eq_true, false_or, if_neg hlt]
    exact ⟨_, _, rfl, rfl, rfl⟩
  | succ n ih =>
    intro fuel f m reads hrot hp h0 hi hbefore hfuel
    obtain ⟨fuel, rfl⟩ : ∃ g, fuel = g + 1 := ⟨fuel - 1, by omega⟩
    have hcond : (f.rotations == -1) = true ∨ f.i < f.rotations := by
      rw [hrot]
      exact Or.inr (by push_cast at hi; omega)
    obtain ⟨m1, v, s, hcall, hstack, hv⟩ := hbody m
    rw [← hp] at hcall
    have hnow : ¬ (clock reads - f.tp0 > f.time_slice) :=
      not_lt.mpr (by simpa using hbefore 0 (Nat.succ_pos n))
    simp only [Fiber_loop, if_pos hcond, hcall, hstack, Stack_Pop, if_neg hv, if_neg hnow]
    have hw : wrapInt32 (f.i + 1) = f.i + 1 :=
      wrapInt32_of_small _ (by omega) (by rw [e31] at hr ⊢; push_cast at hi; omega)
    rw [hw]
    obtain ⟨f1, m2, hloop, hpoint, hcalls⟩ :=
      ih fuel { f with bodyCalls := f.bodyCalls + 1, statuses := v :: f.statuses,
                       i := f.i + 1 }
        { m1 with fDataStack := s } (reads + 1) hrot hp (by simp only; omega)
        (by simp only; push_cast at hi; omega)
        (fun k hk => by
          have := hbefore (k + 1) (by omega)
          rw [show reads + 1 + k = reads + (k + 1) by omega]
          exact this)
        (by omega)
    refine ⟨f1, m2, ?_, hpoint, ?_⟩
    · rw [hloop]
      rw [show reads + 1 + n = reads + (n + 1) by omega]
    · rw [hcalls]
      simp only
      omega

/-- The loop of a fiber of endless rotations whose body always leaves a non-zero cell:
when no clock reading lies more than the time slice after `tp0`, the loop does not
return, whatever the budget. -/
theorem Fiber_loop_endless (env : Env) (clock : Nat → Int) (p : WordPtr)
    (hbody : ∀ m : Machine, ∃ m1 v s,
      env.call p m = some (.ok (), m1) ∧ m1.fDataStack = v :: s ∧ v ≠ 0) :
    ∀ (fuel : Nat) (f : FiberFrame) (m : Machine) (reads : Nat),
      f.rotations = -1 → f.p = p → (∀ k, clock k - f.tp0 ≤ f.time_slice) →
      Fiber_loop env clock fuel f m reads = none := by
  intro fuel
  induction fuel with
  | zero =>
    intro f m reads _ _ _
    rfl
  | succ fuel ih =>
    intro f m reads hrot hp hclock
    have hcond : (f.rotations == -1) = true ∨ f.i < f.rotations :=
      Or.inl (by simp [hrot])
    obtain ⟨m1, v, s, hcall, hstack, hv⟩ := hbody m
    rw [← hp] at hcall
    have hnow : ¬ (clock reads - f.tp0 > f.time_slice) := not_lt.mpr (hclock reads)
    simp only [Fiber_loop, if_pos hcond, hcall, hstack, Stack_Pop, if_neg hv, if_neg hnow]
    exact ih _ _ _ hrot hp hclock
/-- One resume of a fiber that is not done is its loop entered at `Fiber_resumeIndex`
with `tp0` the clock reading taken as the resume begins. -/
theorem Fiber_resume_eq_loop (env : Env) (clock : Nat → Int) (fuel : Nat) (f : FiberFrame)
    (m : Machine) (reads : Nat) (hpoint : f.point ≠ .final) :
    Fiber_resume env clock fuel f m reads
      = Fiber_loop env clock fuel { f with tp0 := clock reads, i := Fiber_resumeIndex f } m
          (reads + 1) := by
  cases h : f.point with
  | initial => simp only [Fiber_resume, Fiber_resumeIndex, h]
  | awaiting => simp only [Fiber_resume, Fiber_resumeIndex, h]
  | final => exact absurd h hpoint

/-- C33, refuted as stated.  A fiber of three rotations with the time slice `-1` whose
body leaves the status 1, under a clock that does not advance: its first resume runs one
iteration and suspends, the difference 0 of the readings being greater than the slice.
And a fiber of three rotations with the time slice 50 whose body leaves the status 0,
under a clock advancing 100 a reading: at the end of the first iteration the difference
is 100, and the fiber is done, not suspended. -/
theorem fiber_time_slice_counterexample :
    Fiber_resume statusOneEnv (fun _ => 0) 10 (CreateFiberCoro 3 (-1) 7) {} 0
        = some (.ok (),
            { rotations := 3, time_slice := -1, p := 7, i := 0, tp0 := 0, point := .awaiting,
              bodyCalls := 1, statuses := [1] }, {}, 2) ∧
      Fiber_resume countdownEnv (fun n => 100 * (n : Int)) 10 (CreateFiberCoro 3 50 7) {} 0
        = some (.ok (),
            { rotations := 3, time_slice := 50, p := 7, i := 0, tp0 := 0, point := .final,
              bodyCalls := 1, statuses := [0] }, {}, 1) :=
  ⟨rfl, rfl⟩

/-- C33, amended: a resume of a fiber that is not done and whose body always returns
leaving a non-zero status, the clock being the input `clock` of which `reads` readings
are taken; the resume takes the reading `clock reads` as it begins and one reading at the
end of each iteration.  When the iteration `j` of this resume exists (rotations `-1`, or
the counter below the rotations) and is the first at whose end the reading minus the
reading of the begin is strictly greater than `time_slice`, the resume runs the `j + 1`
iterations and suspends there.  With a clock that does not advance and a `time_slice` that
is not negative, a resume with `n` iterations left runs all `n` of them and the fiber is
done, and a resume of a fiber of endless rotations does not return. -/
theorem fiber_suspends_past_time_slice (env : Env) (clock : Nat → Int) (p : WordPtr)
    (fuel : Nat) (f : FiberFrame) (m : Machine) (reads : Nat)
    (hbody : ∀ m : Machine, ∃ m1 v s,
      env.call p m = some (.ok (), m1) ∧ m1.fDataStack = v :: s ∧ v ≠ 0)
    (hp : f.p = p) (hpoint : f.point ≠ .final) :
    (∀ j : Nat,
      (f.rotations = -1 ∨ (0 ≤ Fiber_resumeIndex f ∧
        Fiber_resumeIndex f + (j : Int) < f.rotations ∧ f.rotations < 2 ^ 31)) →
      (∀ k, k < j → clock (reads + 1 + k) - clock reads ≤ f.time_slice) →
      clock (reads + 1 + j) - clock reads > f.time_slice → j < fuel →
      ∃ f1 m1, Fiber_resume env clock fuel f m reads = some (.ok (), f1, m1, reads + j + 2) ∧
        f1.point = .awaiting ∧ f1.bodyCalls = f.bodyCalls + j + 1) ∧
    ((∀ a b, clock a = clock b) → 0 ≤ f.time_slice →
      (∀ n : Nat, 0 ≤ Fiber_resumeIndex f → Fiber_resumeIndex f + (n : Int) = f.rotations →
        f.rotations < 2 ^ 31 → n < fuel →
        ∃ f1 m1, Fiber_resume env clock fuel f m reads = some (.ok (), f1, m1, reads + 1 + n) ∧
          f1.point = .final ∧ f1.bodyCalls = f.bodyCalls + n) ∧
      (f.rotations = -1 → Fiber_resume env clock fuel f m reads = none)) := by
  rw [Fiber_resume_eq_loop env clock fuel f m reads hpoint]
  refine ⟨fun j hiter hbefore hlast hfuel => ?_, fun hconst hslice => ⟨?_, ?_⟩⟩
  · obtain ⟨f1, m1, hloop, h1, h2⟩ :=
      Fiber_loop_slice env clock f.rotations p hbody j fuel
        { f with tp0 := clock reads, i := Fiber_resumeIndex f } m (reads + 1) rfl hp hiter
        hbefore hlast hfuel
    exact ⟨f1, m1, by rw [hloop, show reads + 1 + j + 1 = reads + j + 2 by omega], h1, h2⟩
  · intro n h0 hn hr hfuel
    exact Fiber_loop_within_slice env clock f.rotations p hr hbody n fuel
      { f with tp0 := clock reads, i := Fiber_resumeIndex f } m (reads + 1) rfl hp h0 hn
      (fun k _ => by
        show clock (reads + 1 + k) - clock reads ≤ f.time_slice
        rw [hconst (reads + 1 + k) reads, sub_self]
        exact hslice)
      hfuel
  · intro hrot
    exact Fiber_loop_endless env clock p hbody fuel
      { f with tp0 := clock reads, i := Fiber_resumeIndex f } m (reads + 1) hrot hp
      (fun k => by
        show clock k - clock reads ≤ f.time_slice
        rw [hconst k reads, sub_self]
        exact hslice)

/-- C33, instances of the amended claim, the body leaving the status 1.  Five rotations,
a time slice of 50 and a clock advancing 30 a reading: the first resume runs two
iterations, the difference being 30 and then 60, and suspends.  Under a clock that does
not advance the first resume runs all five iterations and the fiber is done, and with
endless rotations it does not return. -/
theorem fiber_suspends_past_time_slice_witness :
    (∃ f1 m1, Fiber_resume statusOneEnv (fun n => 30 * (n : Int)) 10 (CreateFiberCoro 5 50 7)
        {} 0 = some (.ok (), f1, m1, 3) ∧ f1.point = .awaiting ∧ f1.bodyCalls = 2) ∧
    (∃ f1 m1, Fiber_resume statusOneEnv (fun _ => 0) 10 (CreateFiberCoro 5 50 7) {} 0
        = some (.ok (), f1, m1, 6) ∧ f1.point = .final ∧ f1.bodyCalls = 5) ∧
    Fiber_resume statusOneEnv (fun _ => 0) 10 (CreateFiberCoro (-1) 50 7) {} 0 = none := by
  have hbody : ∀ m : Machine, ∃ m1 v s,
      statusOneEnv.call 7 m = some (.ok (), m1) ∧ m1.fDataStack = v :: s ∧ v ≠ 0 :=
    fun m => ⟨_, 1, m.fDataStack, rfl, rfl, by decide⟩
  refine ⟨?_, ?_, ?_⟩
  · exact (fiber_suspends_past_time_slice statusOneEnv (fun n => 30 * (n : Int)) 7 10
      (CreateFiberCoro 5 50 7) {} 0 hbody rfl (by decide)).1 1
      (Or.inr ⟨by decide, by decide, by decide⟩)
      (fun k hk => by
        have hk0 : k = 0 := by omega
        subst hk0
        decide)
      (by decide) (by decide)
  · exact ((fiber_suspends_past_time_slice statusOneEnv (fun _ => 0) 7 10
      (CreateFiberCoro 5 50 7) {} 0 hbody rfl (by decide)).2 (fun _ _ => rfl) (by decide)).1 5
      (by decide) (by decide) (by decide) (by decide)
  · exact ((fiber_suspends_past_time_slice statusOneEnv (fun _ => 0) 7 10
      (CreateFiberCoro (-1) 50 7) {} 0 hbody rfl (by decide)).2 (fun _ _ => rfl)
      (by decide)).2 rfl
/-! ### The lines read by one call of the debug reader -/

theorem openAfterSymbols_cons (isOpen : Bool) (c : Letter) (symbols : List Letter) :
    openAfterSymbols isOpen (c :: symbols) = openAfterSymbols (c == kColon) symbols := by
  cases symbols with
  | nil => rfl
  | cons d ds =>
    simp only [openAfterSymbols, List.getLast?_cons_cons]
    cases h : (d :: ds).getLast? with
    | none => simp at h
    | some x => rfl

theorem ReadSeparateSymbol_enter (fSourceFileIndex : Int) (symbol : Letter) (enter : Bool)
    (st : ReaderState) :
    (ReadSeparateSymbol fSourceFileIndex symbol enter st).enterDefinition = enter := by
  unfold ReadSeparateSymbol
  rfl

/-- The flag `enterDefinition` after the inner loop of the debug reader from a column on:
what the separate symbols seen from there make of it. -/
theorem ReadLine_loop_enter (fSourceFileIndex : Int) (ln : Name) :
    ∀ (post pre : List Letter) (st : ReaderState), ln = pre ++ post →
      st.skipCommentLine = false →
      (ReadLine_loop fSourceFileIndex ln post.length pre.length st).enterDefinition
        = openAfterSymbols st.enterDefinition (separateSymbols (pre.getLastD kSpace) post) := by
  intro post
  induction post with
  | nil =>
    intro pre st _ _
    simp [ReadLine_loop, separateSymbols, openAfterSymbols]
  | cons c cs ih =>
    intro pre st hln hskip
    have hlt : pre.length < ln.length := by
      rw [hln]
      simp
    have hc : ln.getD pre.length kSpace = c := by
      rw [hln]
      exact getD_at_split pre c cs kSpace
    have hsep : IsSeparateSymbol ln pre.length
        = (IsBlankLetter (pre.getLastD kSpace) && IsBlankLetter (cs.headD kSpace)) := by
      rw [hln]
      exact IsSeparateSymbol_at_split pre c cs
    have key : ∀ st2 : ReaderState, st2.skipCommentLine = false →
        (ReadLine_loop fSourceFileIndex ln cs.length (pre.length + 1) st2).enterDefinition
          = openAfterSymbols st2.enterDefinition (separateSymbols c cs) := by
      intro st2 h2
      have := ih (pre ++ [c]) st2 (by rw [hln]; simp) h2
      simpa using this
    simp only [List.length_cons, ReadLine_loop, hlt, hskip, and_self, if_true, separateSymbols]
    unfold ReadChar
    simp only [hc]
    by_cases hblank : c = kSpace ∨ c = kTab
    · have hnbs : c ≠ kBackSlash := by
        rcases hblank with h | h <;> (rw [h]; decide)
      have hnsym : ¬ (c = kColon ∨ c = kSemColon) := by
        rcases hblank with h | h <;> (rw [h]; decide)
      simp only [hblank, if_true, hnbs, if_false, hnsym, false_and]
      split
      · rw [key]
        exact hskip
      · rw [key]
        exact hskip
    · simp only [hblank, if_false]
      by_cases hbs : c = kBackSlash
      · simp only [hbs, if_true]
        rw [ReadLine_loop_skip _ _ _ _ _ rfl]
        rfl
      · simp only [hbs, if_false]
        by_cases hcol : c = kColon
        · subst hcol
          simp only [if_true, true_or, hsep, true_and]
          by_cases hs : (IsBlankLetter (pre.getLastD kSpace) && IsBlankLetter (cs.headD kSpace))
              = true
          · simp only [hs, if_true]
            rw [key, openAfterSymbols_cons]
            · simp [ReadSeparateSymbol_enter]
            · have hr := ReadSeparateSymbol_names fSourceFileIndex kColon true st
              simp only
              rw [hr.2.2]
              exact hskip
          · simp only [hs, Bool.false_eq_true, if_false]
            rw [key]
            exact hskip
        · simp only [hcol, if_false, false_or]
          by_cases hsem : c = kSemColon
          · subst hsem
            simp only [if_true, hsep, true_and]
            by_cases hs : (IsBlankLetter (pre.getLastD kSpace) &&
                IsBlankLetter (cs.headD kSpace)) = true
            · simp only [hs, if_true]
              rw [key, openAfterSymbols_cons]
              · have hne : (kSemColon == kColon) = false := by decide
                simp [ReadSeparateSymbol_enter, hne]
              · have hr := ReadSeparateSymbol_names fSourceFileIndex kSemColon false st
                simp only
                rw [hr.2.2]
                exact hskip
            · simp only [hs, Bool.false_eq_true, if_false]
              rw [key]
              exact hskip
          · simp only [hsem, if_false, false_and]
            split
            · rw [key]
              exact hskip
            · rw [key]
              exact hskip
theorem ReadLine_names_of_line (fSourceFileIndex : Int) (ln : Name) (st : ReaderState) :
    (ReadLine fSourceFileIndex ln st).outTokenStream.map (fun t => t.fName)
      = st.outTokenStream.map (fun t => t.fName) ++ ReadLine_names kSpace [] ln := by
  have h := ReadLine_loop_names fSourceFileIndex ln ln []
    { st with tokName := [], skipCommentLine := false } rfl rfl
  simpa [ReadLine] using h

theorem ReadLine_enter (fSourceFileIndex : Int) (ln : Name) (st : ReaderState) :
    (ReadLine fSourceFileIndex ln st).enterDefinition
      = definitionOpenAfter st.enterDefinition ln := by
  have h := ReadLine_loop_enter fSourceFileIndex ln ln []
    { st with tokName := [], skipCommentLine := false } rfl rfl
  simpa [ReadLine, definitionOpenAfter] using h

theorem takeWhile_line (l rest : List Letter) (hnl : kNewLine ∉ l) :
    (l ++ kNewLine :: rest).takeWhile (fun c => c != kNewLine) = l ∧
      (l ++ kNewLine :: rest).dropWhile (fun c => c != kNewLine) = kNewLine :: rest := by
  induction l with
  | nil => simp [List.takeWhile, List.dropWhile]
  | cons a as ih =>
    have ha : (a != kNewLine) = true := by
      simp only [bne_iff_ne, ne_eq]
      intro h
      exact hnl (h ▸ List.mem_cons_self _ _)
    have := ih (fun h => hnl (List.mem_cons_of_mem _ h))
    simp [List.takeWhile, List.dropWhile, ha, this.1, this.2]

theorem getline_line (l rest : List Letter) (hnl : kNewLine ∉ l) :
    getline (l ++ kNewLine :: rest) = some (l, rest) := by
  have h := takeWhile_line l rest hnl
  cases hl : l ++ kNewLine :: rest with
  | nil => simp at hl
  | cons a as =>
    rw [hl] at h
    simp only [getline, h.1, h.2, List.drop_one, List.tail_cons]

theorem textOfLines_cons (l : Name) (ls : List Name) (tail : Name) :
    textOfLines (l :: ls) tail = l ++ kNewLine :: textOfLines ls tail := by
  simp [textOfLines]

theorem Reader_loop_nil (fSourceFileIndex : Int) (budget lineCnt : Nat) (st : ReaderState) :
    (Reader_loop fSourceFileIndex budget lineCnt [] st).1 = st ∧
      (Reader_loop fSourceFileIndex budget lineCnt [] st).2.1 = [] := by
  cases budget with
  | zero => exact ⟨rfl, rfl⟩
  | succ n =>
    simp only [Reader_loop, getline]
    split <;> exact ⟨rfl, rfl⟩

/-- The outer loop of the debug reader on the stream of the lines `lines` and the last
line `tail`: the lines it takes are counted by `linesRead`, the names of the tokens it adds
are those of the lines taken, in order, and the stream is left at the first line not
taken. -/
theorem Reader_loop_lines (fSourceFileIndex : Int) :
    ∀ (lines : List Name) (tail : Name) (budget lineCnt : Nat) (st : ReaderState),
      (∀ l ∈ lines, kNewLine ∉ l) → kNewLine ∉ tail →
      (linesOfText lines tail).length < budget →
      (Reader_loop fSourceFileIndex budget lineCnt (textOfLines lines tail) st).1.outTokenStream.map
          (fun t => t.fName)
        = st.outTokenStream.map (fun t => t.fName) ++
          (((linesOfText lines tail).take
            (linesRead (decide (lineCnt = 0)) st.enterDefinition (linesOfText lines tail))).map
            (ReadLine_names kSpace [])).flatten ∧
      (Reader_loop fSourceFileIndex budget lineCnt (textOfLines lines tail) st).2.1
        = textOfLines
            (lines.drop
              (linesRead (decide (lineCnt = 0)) st.enterDefinition (linesOfText lines tail)))
            (if linesRead (decide (lineCnt = 0)) st.enterDefinition (linesOfText lines tail)
                ≤ lines.length then tail else []) := by
  intro lines
  induction lines with
  | nil =>
    intro tail budget lineCnt st _ htail hbudget
    obtain ⟨b, rfl⟩ : ∃ b, budget = b + 1 := ⟨budget - 1, by omega⟩
    by_cases ht : tail = []
    · subst ht
      have h := Reader_loop_nil fSourceFileIndex (b + 1) lineCnt st
      simp [textOfLines, linesOfText, linesRead, h.1, h.2]
    · have hall : linesOfText [] tail = [tail] := by simp [linesOfText, ht]
      have htext : textOfLines [] tail = tail := by simp [textOfLines]
      rw [hall, htext]
      by_cases hgo : (st.enterDefinition = false ∧ lineCnt = 0) ∨ st.enterDefinition = true
      · have hfirst : (decide (lineCnt = 0) = true ∨ st.enterDefinition = true) := by
          rcases hgo with ⟨_, h⟩ | h
          · exact Or.inl (by simp [h])
          · exact Or.inr h
        have h := Reader_loop_nil fSourceFileIndex b (lineCnt + 1)
          (ReadLine fSourceFileIndex tail st)
        simp only [Reader_loop, if_pos hgo, getline_single_line tail ht htail, h.1, h.2,
          linesRead, if_pos hfirst, ReadLine_names_of_line]
        simp [textOfLines]
      · have hfirst : ¬ (decide (lineCnt = 0) = true ∨ st.enterDefinition = true) := by
          intro h
          apply hgo
          rcases h with h | h
          · cases he : st.enterDefinition with
            | true => exact Or.inr rfl
            | false => exact Or.inl ⟨rfl, by simpa using h⟩
          · exact Or.inr h
        simp only [Reader_loop, if_neg hgo, linesRead, if_neg hfirst]
        simp [textOfLines]
  | cons l ls ih =>
    intro tail budget lineCnt st hlines htail hbudget
    have hall : linesOfText (l :: ls) tail = l :: linesOfText ls tail := by
      simp [linesOfText]
    rw [hall] at hbudget ⊢
    obtain ⟨b, rfl⟩ : ∃ b, budget = b + 1 := ⟨budget - 1, by omega⟩
    rw [textOfLines_cons]
    by_cases hgo : (st.enterDefinition = false ∧ lineCnt = 0) ∨ st.enterDefinition = true
    · have hfirst : (decide (lineCnt = 0) = true ∨ st.enterDefinition = true) := by
        rcases hgo with ⟨_, h⟩ | h
        · exact Or.inl (by simp [h])
        · exact Or.inr h
      have hrec := ih tail b (lineCnt + 1) (ReadLine fSourceFileIndex l st)
        (fun x hx => hlines x (List.mem_cons_of_mem _ hx)) htail
        (by simp only [List.length_cons] at hbudget; omega)
      have hdec : decide (lineCnt + 1 = 0) = false := by simp
      rw [hdec, ReadLine_enter, ReadLine_names_of_line] at hrec
      simp only [Reader_loop, if_pos hgo,
        getline_line l _ (hlines l (List.mem_cons_self _ _)), linesRead, if_pos hfirst,
        List.take_succ_cons, List.map_cons, List.flatten_cons, List.drop_succ_cons,
        List.length_cons, Nat.add_le_add_iff_right]
      refine ⟨?_, hrec.2⟩
      rw [hrec.1, List.append_assoc]
    · have hfirst : ¬ (decide (lineCnt = 0) = true ∨ st.enterDefinition = true) := by
        intro h
        apply hgo
        rcases h with h | h
        · cases he : st.enterDefinition with
          | true => exact Or.inr rfl
          | false => exact Or.inl ⟨rfl, by simpa using h⟩
        · exact Or.inr h
      simp only [Reader_loop, if_neg hgo, linesRead, if_neg hfirst]
      simp [textOfLines_cons]
theorem linesOfText_length_le (lines : List Name) (tail : Name) :
    (linesOfText lines tail).length ≤ (textOfLines lines tail).length := by
  induction lines with
  | nil =>
    by_cases ht : tail = []
    · simp [linesOfText, textOfLines, ht]
    · have := List.length_pos.mpr ht
      simp only [linesOfText, textOfLines, ht, if_false, List.nil_append, List.map_nil,
        List.flatten_nil, List.length_singleton]
      omega
  | cons l ls ih =>
    have hall : linesOfText (l :: ls) tail = l :: linesOfText ls tail := by
      simp [linesOfText]
    rw [hall, textOfLines_cons]
    simp only [List.length_cons, List.length_append]
    omega

theorem linesOfText_no_newline (lines : List Name) (tail : Name)
    (hlines : ∀ l ∈ lines, kNewLine ∉ l) (htail : kNewLine ∉ tail) :
    ∀ l ∈ linesOfText lines tail, kNewLine ∉ l := by
  intro l hl
  simp only [linesOfText, List.mem_append] at hl
  rcases hl with h | h
  · exact hlines l h
  · by_cases ht : tail = []
    · simp [ht] at h
    · simp only [ht, if_false, List.mem_singleton] at h
      rw [h]
      exact htail

/-- The names of the tokens that one call of the debug reader returns, and the stream it
leaves, on the stream of the lines `lines` and the last line `tail`. -/
theorem debugReader_call_lines (fSourceFileIndex fTotalCharCounter : Int)
    (lines : List Name) (tail : Name)
    (hlines : ∀ l ∈ lines, kNewLine ∉ l) (htail : kNewLine ∉ tail) :
    (TForthReader_4_Debugging_call fSourceFileIndex fTotalCharCounter
        (textOfLines lines tail)).1.map (fun t => t.fName)
      = (((linesOfText lines tail).take (linesRead true false (linesOfText lines tail))).map
          (ReadLine_names kSpace [])).flatten ∧
    (TForthReader_4_Debugging_call fSourceFileIndex fTotalCharCounter
        (textOfLines lines tail)).2.2.1
      = textOfLines (lines.drop (linesRead true false (linesOfText lines tail)))
          (if linesRead true false (linesOfText lines tail) ≤ lines.length then tail
            else []) := by
  have h := Reader_loop_lines fSourceFileIndex lines tail
    ((textOfLines lines tail).length + 1) 0 { fTotalCharCounter := fTotalCharCounter }
    hlines htail (Nat.lt_succ_of_le (linesOfText_length_le lines tail))
  simpa [TForthReader_4_Debugging_call] using h

/-- C34: one call of the debug reader on the stream of the lines `lines`, each ended by a
newline, and of a last line `tail` without one.  The call takes the first line; after a
line it takes the next one exactly when the most recent separate colon or semicolon seen
so far is a colon, and it stops at the end of the input: `linesRead` lines in all.  It
returns the token names of the lines taken, in order, and leaves the stream at the first
line not taken.  It takes exactly one line when the first line has no separate colon and
another line follows or not. -/
theorem debugReader_reads_definition (fSourceFileIndex fTotalCharCounter : Int)
    (lines : List Name) (tail : Name)
    (hlines : ∀ l ∈ lines, kNewLine ∉ l) (htail : kNewLine ∉ tail) :
    (TForthReader_4_Debugging_call fSourceFileIndex fTotalCharCounter
        (textOfLines lines tail)).1.map (fun t => t.fName)
      = (((linesOfText lines tail).take (linesRead true false (linesOfText lines tail))).map
          debugReaderNames).flatten ∧
    (TForthReader_4_Debugging_call fSourceFileIndex fTotalCharCounter
        (textOfLines lines tail)).2.2.1
      = textOfLines (lines.drop (linesRead true false (linesOfText lines tail)))
          (if linesRead true false (linesOfText lines tail) ≤ lines.length then tail
            else []) ∧
    ∀ (l : Name) (rest : List Name), linesOfText lines tail = l :: rest →
      kColon ∉ separateSymbols kSpace l →
      linesRead true false (linesOfText lines tail) = 1 := by
  have h := debugReader_call_lines fSourceFileIndex fTotalCharCounter lines tail hlines htail
  have hnl := linesOfText_no_newline lines tail hlines htail
  refine ⟨?_, h.2, ?_⟩
  · rw [h.1]
    congr 1
    apply List.map_congr_left
    intro l hl
    exact (debugReaderNames_single_line l (hnl l (List.mem_of_mem_take hl))).symm
  · intro l rest hall hcolon
    rw [hall]
    have hclosed : definitionOpenAfter false l = false := by
      unfold definitionOpenAfter openAfterSymbols
      cases hlast : (separateSymbols kSpace l).getLast? with
      | none => rfl
      | some c =>
        have hmem : c ∈ separateSymbols kSpace l := List.mem_of_getLast?_eq_some hlast
        have hne : c ≠ kColon := fun hc => hcolon (hc ▸ hmem)
        simpa using hne
    cases rest with
    | nil => simp [linesRead]
    | cons r rs => simp [linesRead, hclosed]

/-- C34, instances.  The input `: SQ`, `DUP * ;`, `5 SQ`, three lines: the call takes the
two lines of the definition, returns `:` `SQ` `DUP` `*` `;` and leaves the third line.
The input `5 SQ`, `: X`, two lines, the first without a separate colon: the call takes
one line. -/
theorem debugReader_reads_definition_witness :
    (TForthReader_4_Debugging_call kSourceFileIndexSentinel 0
        (textOfLines [": SQ".toList, "DUP * ;".toList, "5 SQ".toList] [])).1.map
          (fun t => t.fName)
      = [":".toList, "SQ".toList, "DUP".toList, "*".toList, ";".toList] ∧
    (TForthReader_4_Debugging_call kSourceFileIndexSentinel 0
        (textOfLines [": SQ".toList, "DUP * ;".toList, "5 SQ".toList] [])).2.2.1
      = textOfLines ["5 SQ".toList] [] ∧
    linesRead true false (linesOfText ["5 SQ".toList, ": X".toList] []) = 1 :=
  have h := debugReader_reads_definition kSourceFileIndexSentinel 0
    [": SQ".toList, "DUP * ;".toList, "5 SQ".toList] [] (by decide) (by decide)
  ⟨h.1.trans (by rfl), h.2.1.trans (by rfl),
    (debugReader_reads_definition kSourceFileIndexSentinel 0
      ["5 SQ".toList, ": X".toList] [] (by decide) (by decide)).2.2
      "5 SQ".toList [": X".toList] rfl (by decide)⟩
/-! ### The names of the tokens of the debug reader -/

theorem IsNameLetter_symbol {c : Letter} (h : c = kColon ∨ c = kSemColon) :
    IsNameLetter c := by
  rcases h with h | h <;> (rw [h]; exact ⟨by decide, by decide, by decide⟩)

/-- Every name that the inner loop of the debug reader emits is not empty and is made of
name letters, the pending name being made of name letters. -/
theorem ReadLine_names_letters :
    ∀ (post : List Letter) (left : Letter) (tok : Name), (∀ c ∈ tok, IsNameLetter c) →
      ∀ n ∈ ReadLine_names left tok post, n ≠ [] ∧ ∀ c ∈ n, IsNameLetter c := by
  intro post
  induction post with
  | nil =>
    intro left tok _ n hn
    simp [ReadLine_names] at hn
  | cons c cs ih =>
    intro left tok htok n hn
    have hext : ¬ (c = kSpace ∨ c = kTab) → c ≠ kBackSlash →
        ∀ x ∈ tok ++ [c], IsNameLetter x := by
      intro h1 h2 x hx
      rcases List.mem_append.mp hx with h | h
      · exact htok x h
      · rw [List.mem_singleton.mp h]
        exact ⟨fun h => h1 (Or.inl h), fun h => h1 (Or.inr h), h2⟩
    simp only [ReadLine_names] at hn
    by_cases hblank : c = kSpace ∨ c = kTab
    · simp only [hblank, if_true, List.mem_append] at hn
      rcases hn with h | h
      · by_cases ht : tok = []
        · simp [ht] at h
        · simp only [ne_eq, ht, not_false_eq_true, if_true, List.mem_singleton] at h
          rw [h]
          exact ⟨ht, htok⟩
      · exact ih c [] (fun x hx => by cases hx) n h
    · simp only [hblank, if_false] at hn
      by_cases hbs : c = kBackSlash
      · simp [hbs] at hn
      · simp only [hbs, if_false] at hn
        by_cases hsym : c = kColon ∨ c = kSemColon
        · simp only [hsym, if_true] at hn
          by_cases hs : (IsBlankLetter left && IsBlankLetter (cs.headD kSpace)) = true
          · simp only [hs, if_true, List.mem_append, List.mem_singleton] at hn
            rcases hn with (h | h) | h
            · by_cases ht : tok = []
              · simp [ht] at h
              · simp only [ne_eq, ht, not_false_eq_true, if_true, List.mem_singleton] at h
                rw [h]
                exact ⟨ht, htok⟩
            · rw [h]
              refine ⟨by simp, fun x hx => ?_⟩
              rw [List.mem_singleton.mp hx]
              exact IsNameLetter_symbol hsym
            · exact ih c [] (fun x hx => by cases hx) n h
          · simp only [hs, Bool.false_eq_true, if_false] at hn
            exact ih c (tok ++ [c]) (hext hblank hbs) n hn
        · simp only [hsym, if_false] at hn
          by_cases hcs : cs = []
          · simp only [hcs, if_true, List.mem_singleton] at hn
            rw [hn]
            exact ⟨by simp, hext hblank hbs⟩
          · simp only [hcs, if_false] at hn
            exact ih c (tok ++ [c]) (hext hblank hbs) n hn

/-- The names that the inner loop of the debug reader emits, one after the other, are a
subsequence of the pending name followed by the rest of the line. -/
theorem ReadLine_names_sublist :
    ∀ (post : List Letter) (left : Letter) (tok : Name),
      (ReadLine_names left tok post).flatten.Sublist (tok ++ post) := by
  intro post
  induction post with
  | nil =>
    intro left tok
    simp [ReadLine_names]
  | cons c cs ih =>
    intro left tok
    have hpend : ((if tok ≠ [] then [tok] else []) : List Name).flatten = tok := by
      by_cases ht : tok = []
      · simp [ht]
      · simp [ht]
    have hnil : (ReadLine_names c [] cs).flatten.Sublist cs := by
      simpa using ih c []
    have hglue : (ReadLine_names c (tok ++ [c]) cs).flatten.Sublist (tok ++ c :: cs) := by
      simpa using ih c (tok ++ [c])
    simp only [ReadLine_names]
    by_cases hblank : c = kSpace ∨ c = kTab
    · simp only [hblank, if_true, List.flatten_append, hpend]
      exact List.Sublist.append (List.Sublist.refl _) (List.Sublist.cons _ hnil)
    · simp only [hblank, if_false]
      by_cases hbs : c = kBackSlash
      · simp [hbs]
      · simp only [hbs, if_false]
        by_cases hsym : c = kColon ∨ c = kSemColon
        · simp only [hsym, if_true]
          by_cases hs : (IsBlankLetter left && IsBlankLetter (cs.headD kSpace)) = true
          · simp only [hs, if_true, List.flatten_append, hpend, List.flatten_cons,
              List.flatten_nil, List.append_nil, List.append_assoc, List.singleton_append]
            exact List.Sublist.append (List.Sublist.refl _) (List.Sublist.cons₂ _ hnil)
          · simp only [hs, Bool.false_eq_true, if_false]
            exact hglue
        · simp only [hsym, if_false]
          by_cases hcs : cs = []
          · simp [hcs]
          · simp only [hcs, if_false]
            exact hglue

theorem flatten_names_sublist (ls : List Name) :
    ((ls.map (ReadLine_names kSpace [])).flatten).flatten.Sublist ls.flatten := by
  induction ls with
  | nil => simp
  | cons l ls ih =>
    simp only [List.map_cons, List.flatten_cons, List.flatten_append]
    exact List.Sublist.append (by simpa using ReadLine_names_sublist l kSpace []) ih

/-- Every input stream is the stream of some lines, each ended by a newline, and of a
last line without one. -/
theorem exists_textOfLines (text : List Letter) :
    ∃ (lines : List Name) (tail : Name), text = textOfLines lines tail ∧
      (∀ l ∈ lines, kNewLine ∉ l) ∧ kNewLine ∉ tail := by
  induction text with
  | nil => exact ⟨[], [], rfl, fun _ h => (by cases h), fun h => (by cases h)⟩
  | cons c cs ih =>
    obtain ⟨lines, tail, htext, hlines, htail⟩ := ih
    by_cases hc : c = kNewLine
    · refine ⟨[] :: lines, tail, ?_, ?_, htail⟩
      · rw [textOfLines_cons, htext, hc]
        rfl
      · intro l hl
        rcases List.mem_cons.mp hl with h | h
        · rw [h]
          exact fun h => by cases h
        · exact hlines l h
    · cases lines with
      | nil =>
        refine ⟨[], c :: tail, ?_, fun _ h => (by cases h), ?_⟩
        · rw [htext]
          simp [textOfLines]
        · intro h
          rcases List.mem_cons.mp h with h | h
          · exact hc h.symm
          · exact htail h
      | cons l ls =>
        refine ⟨(c :: l) :: ls, tail, ?_, ?_, htail⟩
        · rw [htext, textOfLines_cons, textOfLines_cons]
          rfl
        · intro x hx
          rcases List.mem_cons.mp hx with h | h
          · rw [h]
            intro hmem
            rcases List.mem_cons.mp hmem with h2 | h2
            · exact hc h2.symm
            · exact hlines l (List.mem_cons_self _ _) h2
          · exact hlines x (List.mem_cons_of_mem _ h)

/-- C39: for every input stream, every token that a call of the debug reader returns has
a name that is not empty and holds no space, no tab and no backslash; and, the stream
being that of the lines `lines` and of a last line `tail`, the names returned, one after
the other, are a subsequence of the characters of the lines that the call has read, one
after the other. -/
theorem debugReader_token_names (fSourceFileIndex fTotalCharCounter : Int)
    (text : List Letter) :
    (∀ t ∈ (TForthReader_4_Debugging_call fSourceFileIndex fTotalCharCounter text).1,
      t.fName ≠ [] ∧ kSpace ∉ t.fName ∧ kTab ∉ t.fName ∧ kBackSlash ∉ t.fName) ∧
    ∃ (lines : List Name) (tail : Name), text = textOfLines lines tail ∧
      (∀ l ∈ lines, kNewLine ∉ l) ∧ kNewLine ∉ tail ∧
      (((TForthReader_4_Debugging_call fSourceFileIndex fTotalCharCounter text).1.map
          (fun t => t.fName)).flatten).Sublist
        ((linesOfText lines tail).take
          (linesRead true false (linesOfText lines tail))).flatten := by
  obtain ⟨lines, tail, htext, hlines, htail⟩ := exists_textOfLines text
  have h := (debugReader_call_lines fSourceFileIndex fTotalCharCounter lines tail hlines
    htail).1
  rw [← htext] at h
  refine ⟨fun t ht => ?_, lines, tail, htext, hlines, htail, ?_⟩
  · have hmem : t.fName ∈ (TForthReader_4_Debugging_call fSourceFileIndex fTotalCharCounter
        text).1.map (fun t => t.fName) := List.mem_map_of_mem _ ht
    rw [h] at hmem
    obtain ⟨ns, hns, hin⟩ := List.mem_flatten.mp hmem
    obtain ⟨l, _, rfl⟩ := List.mem_map.mp hns
    have hok := ReadLine_names_letters l kSpace [] (fun x hx => by cases hx) t.fName hin
    exact ⟨hok.1, fun hc => (hok.2 _ hc).1 rfl, fun hc => (hok.2 _ hc).2.1 rfl,
      fun hc => (hok.2 _ hc).2.2 rfl⟩
  · rw [h]
    exact flatten_names_sublist _

/-! ### The status 0 of a fiber of endless rotations -/

theorem Fiber_bodyRuns_succ (env : Env) (p : WordPtr) (d : Nat) (m mJ : Machine)
    (rest : List CellType) (h : Fiber_bodyRuns env p (d + 1) m = some (rest, mJ)) :
    ∃ (m1 : Machine) (t : CellType) (s1 rest1 : List CellType),
      env.call p m = some (.ok (), m1) ∧ m1.fDataStack = t :: s1 ∧
        Fiber_bodyRuns env p d { m1 with fDataStack := s1 } = some (rest1, mJ) ∧
        rest = rest1 ++ [t] := by
  simp only [Fiber_bodyRuns] at h
  cases hcall : env.call p m with
  | none =>
    rw [hcall] at h
    cases h
  | some q =>
    obtain ⟨r, m1⟩ := q
    cases r with
    | error e =>
      rw [hcall] at h
      cases h
    | ok u =>
      rw [hcall] at h
      simp only at h
      cases hstack : m1.fDataStack with
      | nil =>
        rw [hstack] at h
        simp [Stack_Pop] at h
      | cons t s1 =>
        rw [hstack] at h
        simp only [Stack_Pop] at h
        cases hrec : Fiber_bodyRuns env p d { m1 with fDataStack := s1 } with
        | none =>
          rw [hrec] at h
          cases h
        | some w =>
          obtain ⟨rest1, mk⟩ := w
          rw [hrec] at h
          simp only [Option.some.injEq, Prod.mk.injEq] at h
          exact ⟨m1, t, s1, rest1, rfl, hstack, by rw [hrec, h.2], h.1.symm⟩

/-- The loop of a fiber of endless rotations, entered where `j` iterations leaving a
non-zero status come before one leaving 0: when no clock reading after one of the `j`
lies more than the time slice after `tp0`, the loop runs the `j + 1` iterations and the
fiber is done. -/
theorem Fiber_loop_zero_at (env : Env) (clock : Nat → Int) (p : WordPtr) (mj m1 : Machine)
    (s : List CellType) (hzero : env.call p mj = some (.ok (), m1))
    (hstack : m1.fDataStack = 0 :: s) :
    ∀ (j fuel : Nat) (f : FiberFrame) (m : Machine) (reads : Nat) (rest : List CellType),
      f.rotations = -1 → f.p = p → Fiber_bodyRuns env p j m = some (rest, mj) →
      (∀ t ∈ rest, t ≠ 0) →
      (∀ k, k < j → clock (reads + k) - f.tp0 ≤ f.time_slice) → j < fuel →
      ∃ f1, Fiber_loop env clock fuel f m reads
          = some (.ok (), f1, { m1 with fDataStack := s }, reads + j) ∧
        f1.point = .final ∧ f1.bodyCalls = f.bodyCalls + j + 1 ∧
        f1.statuses = 0 :: (rest ++ f.statuses) := by
  intro j
  induction j with
  | zero =>
    intro fuel f m reads rest hrot hp hrun _ _ hfuel
    obtain ⟨fuel, rfl⟩ : ∃ g, fuel = g + 1 := ⟨fuel - 1, by omega⟩
    simp only [Fiber_bodyRuns, Option.some.injEq, Prod.mk.injEq] at hrun
    obtain ⟨hrest, hm⟩ := hrun
    subst hrest
    subst hm
    have hpre : (f.rotations == -1) = true := by
      rw [hrot]
      rfl
    rw [← hp] at hzero
    simp only [Fiber_loop, hpre, true_or, if_true, hzero, hstack, Stack_Pop]
    exact ⟨_, rfl, rfl, rfl, rfl⟩
  | succ j ih =>
    intro fuel f m reads rest hrot hp hrun hnz hbefore hfuel
    obtain ⟨fuel, rfl⟩ : ∃ g, fuel = g + 1 := ⟨fuel - 1, by omega⟩
    obtain ⟨m2, t, s1, rest1, hcall, hst, hrec, hrest⟩ :=
      Fiber_bodyRuns_succ env p j m mj rest hrun
    have hpre : (f.rotations == -1) = true := by
      rw [hrot]
      rfl
    have ht : t ≠ 0 := hnz t (by rw [hrest]; simp)
    have hnow : ¬ (clock reads - f.tp0 > f.time_slice) :=
      not_lt.mpr (by simpa using hbefore 0 (Nat.succ_pos j))
    rw [← hp] at hcall
    simp only [Fiber_loop, hpre, true_or, if_true, hcall, hst, Stack_Pop, if_neg ht,
      if_neg hnow]
    obtain ⟨f1, hloop, hpoint, hcalls, hstat⟩ :=
      ih fuel { f with bodyCalls := f.bodyCalls + 1, statuses := t :: f.statuses,
                       i := wrapInt32 (f.i + 1) }
        { m2 with fDataStack := s1 } (reads + 1) rest1 hrot hp hrec
        (fun x hx => hnz x (by rw [hrest]; simp [hx]))
        (fun k hk => by
          have := hbefore (k + 1) (by omega)
          rw [show reads + 1 + k = reads + (k + 1) by omega]
          exact this)
        (by omega)
    refine ⟨f1, ?_, hpoint, ?_, ?_⟩
    · rw [hloop, show reads + 1 + j = reads + (j + 1) by omega]
    · rw [hcalls]
      simp only
      omega
    · rw [hstat, hrest]
      simp

/-- The loop of a fiber of endless rotations on the way to its iteration number `J`, the
first to leave the status 0, whatever the clock: the loop returns without an error after a
further body call at least, and the fiber is done after the iteration `J`, or it awaits,
still on the way. -/
theorem Fiber_loop_toward_zero (env : Env) (clock : Nat → Int) (p : WordPtr) (J : Nat)
    (sts : List CellType) (mJ m1 : Machine) (s : List CellType)
    (hnz : ∀ t ∈ sts, t ≠ 0) (hzero : env.call p mJ = some (.ok (), m1))
    (hstack : m1.fDataStack = 0 :: s) :
    ∀ (d fuel : Nat) (f : FiberFrame) (m : Machine) (reads : Nat) (rest : List CellType),
      f.rotations = -1 → f.p = p → Fiber_bodyRuns env p d m = some (rest, mJ) →
      rest ++ f.statuses = sts → f.bodyCalls + d = J → d < fuel →
      ∃ f1 m2 reads1, Fiber_loop env clock fuel f m reads = some (.ok (), f1, m2, reads1) ∧
        f.bodyCalls < f1.bodyCalls ∧
        ((f1.point = .final ∧ f1.bodyCalls = J + 1 ∧ f1.statuses = 0 :: sts ∧
            m2 = { m1 with fDataStack := s }) ∨
          FiberBeforeZero env p J sts mJ f1 m2) := by
  intro d
  induction d with
  | zero =>
    intro fuel f m reads rest hrot hp hrun hsts hcalls hfuel
    have hrun0 := hrun
    simp only [Fiber_bodyRuns, Option.some.injEq, Prod.mk.injEq] at hrun0
    obtain ⟨hrest, _⟩ := hrun0
    subst hrest
    obtain ⟨f1, hloop, hpoint, hc, hstat⟩ :=
      Fiber_loop_zero_at env clock p mJ m1 s hzero hstack 0 fuel f m reads [] hrot hp hrun
        (fun _ h => by cases h) (fun k hk => by omega) hfuel
    refine ⟨f1, _, _, hloop, by omega, Or.inl ⟨hpoint, by omega, ?_, rfl⟩⟩
    rw [hstat, ← hsts]
  | succ d ih =>
    intro fuel f m reads rest hrot hp hrun hsts hcalls hfuel
    obtain ⟨fuel, rfl⟩ : ∃ g, fuel = g + 1 := ⟨fuel - 1, by omega⟩
    obtain ⟨m2, t, s1, rest1, hcall, hst, hrec, hrest⟩ :=
      Fiber_bodyRuns_succ env p d m mJ rest hrun
    have hpre : (f.rotations == -1) = true := by
      rw [hrot]
      rfl
    have ht : t ≠ 0 := hnz t (by rw [← hsts, hrest]; simp)
    have hsts1 : rest1 ++ t :: f.statuses = sts := by
      rw [← hsts, hrest]
      simp
    rw [← hp] at hcall
    simp only [Fiber_loop, hpre, true_or, if_true, hcall, hst, Stack_Pop, if_neg ht]
    by_cases hclock : clock reads - f.tp0 > f.time_slice
    · rw [if_pos hclock]
      refine ⟨_, _, _, rfl, by simp, Or.inr ⟨hrot, hp, by simp, d, rest1, hrec, hsts1, ?_⟩⟩
      simp only
      omega
    · rw [if_neg hclock]
      obtain ⟨f1, m3, reads1, hloop, hprog, hcases⟩ :=
        ih fuel { f with bodyCalls := f.bodyCalls + 1, statuses := t :: f.statuses,
                         i := wrapInt32 (f.i + 1) }
          { m2 with fDataStack := s1 } (reads + 1) rest1 hrot hp hrec hsts1
          (by simp only; omega) (by omega)
      exact ⟨f1, m3, reads1, hloop, by simp only at hprog; omega, hcases⟩

/-- One resume of a fiber on the way to its iteration number `J`: it returns without an
error after a further body call at least, the fiber done after the iteration `J` or still
on the way. -/
theorem Fiber_resume_toward_zero (env : Env) (clock : Nat → Int) (p : WordPtr) (J : Nat)
    (sts : List CellType) (mJ m1 : Machine) (s : List CellType)
    (hnz : ∀ t ∈ sts, t ≠ 0) (hzero : env.call p mJ = some (.ok (), m1))
    (hstack : m1.fDataStack = 0 :: s) (fuel : Nat) (hfuel : J < fuel) (f : FiberFrame)
    (m : Machine) (reads : Nat) (h : FiberBeforeZero env p J sts mJ f m) :
    ∃ f1 m2 reads1, Fiber_resume env clock fuel f m reads = some (.ok (), f1, m2, reads1) ∧
      f.bodyCalls < f1.bodyCalls ∧
      ((f1.point = .final ∧ f1.bodyCalls = J + 1 ∧ f1.statuses = 0 :: sts ∧
          m2 = { m1 with fDataStack := s }) ∨
        FiberBeforeZero env p J sts mJ f1 m2) := by
  obtain ⟨hrot, hp, hpoint, d, rest, hrun, hsts, hcalls⟩ := h
  rw [Fiber_resume_eq_loop env clock fuel f m reads hpoint]
  exact Fiber_loop_toward_zero env clock p J sts mJ m1 s hnz hzero hstack d fuel
    { f with tp0 := clock reads, i := Fiber_resumeIndex f } m (reads + 1) rest hrot hp hrun
    hsts hcalls (by omega)

/-- The resumes of a fiber on the way to its iteration number `J`, any number `n` of them:
they return without an error, and the fiber is done after the iteration `J` or still on
the way after `n` further body calls at least. -/
theorem Fiber_life_toward_zero (env : Env) (clock : Nat → Int) (p : WordPtr) (J : Nat)
    (sts : List CellType) (mJ m1 : Machine) (s : List CellType)
    (hnz : ∀ t ∈ sts, t ≠ 0) (hzero : env.call p mJ = some (.ok (), m1))
    (hstack : m1.fDataStack = 0 :: s) (fuel : Nat) (hfuel : J < fuel) :
    ∀ (n : Nat) (f : FiberFrame) (m : Machine) (reads : Nat),
      FiberBeforeZero env p J sts mJ f m →
      ∃ fN mN readsN, Fiber_life env clock fuel n f m reads = some (.ok (), fN, mN, readsN) ∧
        ((fN.point = .final ∧ fN.bodyCalls = J + 1 ∧ fN.statuses = 0 :: sts ∧
            mN = { m1 with fDataStack := s }) ∨
          (FiberBeforeZero env p J sts mJ fN mN ∧ f.bodyCalls + n ≤ fN.bodyCalls)) := by
  intro n
  induction n with
  | zero =>
    intro f m reads h
    exact ⟨f, m, reads, rfl, Or.inr ⟨h, by omega⟩⟩
  | succ n ih =>
    intro f m reads h
    obtain ⟨f1, m2, reads1, hres, hprog, hcases⟩ :=
      Fiber_resume_toward_zero env clock p J sts mJ m1 s hnz hzero hstack fuel hfuel f m
        reads h
    have hne : f.point ≠ .final := h.2.2.1
    simp only [Fiber_life, if_neg hne, hres]
    rcases hcases with hfin | hon
    · exact ⟨f1, m2, reads1, Fiber_life_final env clock fuel n f1 m2 reads1 hfin.1,
        Or.inl hfin⟩
    · obtain ⟨fN, mN, readsN, hlife, hN⟩ := ih f1 m2 reads1 hon
      refine ⟨fN, mN, readsN, hlife, ?_⟩
      rcases hN with hfin | ⟨hon2, hle⟩
      · exact Or.inl hfin
      · exact Or.inr ⟨hon2, by omega⟩

/-- C19, amended: a fiber created with rotations -1.  When its body always returns and
leaves a status cell: whenever its first `n` resumes return they raised nothing, every
body call so far popped one status, the fiber is done exactly when the latest status
popped is 0, and no earlier status is 0, so the fiber was never done before a status 0 and
the body was never executed after one.  A resume in which `j` iterations leaving a
non-zero status within the time slice come before an iteration leaving the status 0
returns at once after that iteration, the fiber done.  And when the iteration number `J`
of the body, counted from 0 over the resumes, is the first that leaves the status 0, any
number `n` of resumes returns without an error, however the clock splits the run into
resumes: the body has then been executed at most `J + 1` times, the fiber is done exactly
when it has been executed `J + 1` times, the last status popped then being the 0, and it
is done after more than `J` resumes.  The budget of a resume is `fuel`, more than `j` and
`J` iterations. -/
theorem fiber_stops_at_zero (env : Env) (clock : Nat → Int) (time_slice : Int) (p : WordPtr)
    (hbody : ∀ m : Machine, ∃ m1 v s,
      env.call p m = some (.ok (), m1) ∧ m1.fDataStack = v :: s) :
    (∀ (fuel n : Nat) (m : Machine) (reads : Nat) (r : Except Thrown Unit) (f : FiberFrame)
        (m1 : Machine) (reads1 : Nat),
        Fiber_life env clock fuel n (CreateFiberCoro (-1) time_slice p) m reads
          = some (r, f, m1, reads1) →
        r = .ok () ∧ f.bodyCalls = f.statuses.length ∧
          (f.point = .final ↔ f.statuses.head? = some 0) ∧ ∀ t ∈ f.statuses.tail, t ≠ 0) ∧
    (∀ (j fuel : Nat) (f : FiberFrame) (m : Machine) (reads : Nat) (rest : List CellType)
        (mj m1 : Machine) (s : List CellType),
        f.rotations = -1 → f.p = p → f.point ≠ .final →
        Fiber_bodyRuns env p j m = some (rest, mj) → (∀ t ∈ rest, t ≠ 0) →
        (∀ k, k < j → clock (reads + 1 + k) - clock reads ≤ f.time_slice) →
        env.call p mj = some (.ok (), m1) → m1.fDataStack = 0 :: s → j < fuel →
        ∃ f1, Fiber_resume env clock fuel f m reads
            = some (.ok (), f1, { m1 with fDataStack := s }, reads + 1 + j) ∧
          f1.point = .final ∧ f1.bodyCalls = f.bodyCalls + j + 1 ∧
          f1.statuses = 0 :: (rest ++ f.statuses)) ∧
    ∀ (J fuel n : Nat) (m : Machine) (reads : Nat) (sts : List CellType) (mJ m1 : Machine)
      (s : List CellType),
      Fiber_bodyRuns env p J m = some (sts, mJ) → (∀ t ∈ sts, t ≠ 0) →
      env.call p mJ = some (.ok (), m1) → m1.fDataStack = 0 :: s → J < fuel →
      ∃ f mN readsN,
        Fiber_life env clock fuel n (CreateFiberCoro (-1) time_slice p) m reads
          = some (.ok (), f, mN, readsN) ∧
        f.bodyCalls ≤ J + 1 ∧ (f.point = .final ↔ f.bodyCalls = J + 1) ∧
        (f.point = .final → f.statuses = 0 :: sts ∧ mN = { m1 with fDataStack := s }) ∧
        (f.point ≠ .final → ∀ t ∈ f.statuses, t ≠ 0) ∧
        (J < n → f.point = .final) := by
  refine ⟨?_, ?_, ?_⟩
  · intro fuel n m reads r f m1 reads1 h
    obtain ⟨hr, _, _, h3, h4, h5⟩ :=
      Fiber_life_stops env clock p hbody fuel n _ m reads r f m1 reads1
        ⟨rfl, rfl, rfl, by simp [CreateFiberCoro], by simp [CreateFiberCoro]⟩ h
    exact ⟨hr, h3, h4, h5⟩
  · intro j fuel f m reads rest mj m1 s hrot hp hne hrun hnz hbefore hzero hstack hfuel
    rw [Fiber_resume_eq_loop env clock fuel f m reads hne]
    exact Fiber_loop_zero_at env clock p mj m1 s hzero hstack j fuel
      { f with tp0 := clock reads, i := Fiber_resumeIndex f } m (reads + 1) rest hrot hp hrun
      hnz hbefore hfuel
  · intro J fuel n m reads sts mJ m1 s hrun hnz hzero hstack hfuel
    obtain ⟨f, mN, readsN, hlife, hcases⟩ :=
      Fiber_life_toward_zero env clock p J sts mJ m1 s hnz hzero hstack fuel hfuel n
        (CreateFiberCoro (-1) time_slice p) m reads
        ⟨rfl, rfl, by simp [CreateFiberCoro], J, sts, hrun, by simp [CreateFiberCoro],
          by simp [CreateFiberCoro]⟩
    refine ⟨f, mN, readsN, hlife, ?_⟩
    rcases hcases with ⟨hfin, hc, hstat, hm⟩ | ⟨⟨_, _, hne, d, rest, _, hsts, hcalls⟩, hle⟩
    · exact ⟨by omega, ⟨fun _ => hc, fun _ => hfin⟩, fun _ => ⟨hstat, hm⟩,
        fun h => absurd hfin h, fun _ => hfin⟩
    · have hzc : (CreateFiberCoro (-1) time_slice p).bodyCalls = 0 := rfl
      rw [hzc] at hle
      refine ⟨by omega, ⟨fun h => absurd h hne, fun h => by omega⟩, fun h => absurd h hne,
        fun _ t ht => hnz t (by rw [← hsts]; simp [ht]), fun h => by omega⟩

/-- C19, an instance: a body that counts the top cell of the stack `2 5` down, leaving the
statuses 1, 1 and 0, under a clock advancing 1 a reading and a time slice of 50.  The
iteration number 2 is the first to leave 0: the first resume runs the three iterations
and returns with the fiber done, and so do two resumes; the statuses before the 0 are
1. -/
theorem fiber_stops_at_zero_witness :
    (∃ q, Fiber_life countdownEnv (fun n => (n : Int)) 5 2 (CreateFiberCoro (-1) 50 7)
        { fDataStack := [2, 5] } 0 = some q ∧
      (q.1 = .ok () ∧ q.2.1.bodyCalls = q.2.1.statuses.length ∧
        (q.2.1.point = .final ↔ q.2.1.statuses.head? = some 0) ∧
        ∀ t ∈ q.2.1.statuses.tail, t ≠ 0)) ∧
    (∃ f1, Fiber_resume countdownEnv (fun n => (n : Int)) 5 (CreateFiberCoro (-1) 50 7)
        { fDataStack := [2, 5] } 0 = some (.ok (), f1, { fDataStack := [0, 5] }, 3) ∧
      f1.point = .final ∧ f1.bodyCalls = 3 ∧ f1.statuses = [0, 1, 1]) ∧
    ∃ f mN readsN, Fiber_life countdownEnv (fun n => (n : Int)) 5 3
        (CreateFiberCoro (-1) 50 7) { fDataStack := [2, 5] } 0
        = some (.ok (), f, mN, readsN) ∧
      f.point = .final ∧ f.bodyCalls = 3 ∧ f.statuses = [0, 1, 1] ∧
      mN = { fDataStack := [0, 5] } := by
  have hthm := fiber_stops_at_zero countdownEnv (fun n => (n : Int)) 50 7
    (countdownEnv_leaves_status 7)
  refine ⟨?_, ?_, ?_⟩
  · obtain ⟨q, h1⟩ : ∃ q, Fiber_life countdownEnv (fun n => (n : Int)) 5 2
        (CreateFiberCoro (-1) 50 7) { fDataStack := [2, 5] } 0 = some q := ⟨_, rfl⟩
    exact ⟨q, h1, hthm.1 5 2 { fDataStack := [2, 5] } 0 q.1 q.2.1 q.2.2.1 q.2.2.2 h1⟩
  · exact hthm.2.1 2 5 (CreateFiberCoro (-1) 50 7) { fDataStack := [2, 5] } 0 [1, 1]
      { fDataStack := [0, 5] } { fDataStack := [0, 0, 5] } [0, 5] rfl rfl (by decide) rfl
      (by decide)
      (fun k hk => by
        have hk2 : k = 0 ∨ k = 1 := by omega
        rcases hk2 with h | h <;> subst h <;> decide)
      rfl rfl (by decide)
  · obtain ⟨f, mN, readsN, hlife, _, hiff, hfin, _, hdone⟩ :=
      hthm.2.2 2 5 3 { fDataStack := [2, 5] } 0 [1, 1] { fDataStack := [0, 5] }
        { fDataStack := [0, 0, 5] } [0, 5] rfl (by decide) rfl rfl (by decide)
    have hpoint := hdone (by decide)
    exact ⟨f, mN, readsN, hlife, hpoint, hiff.mp hpoint, (hfin hpoint).1, (hfin hpoint).2⟩

end BCForth
